import Mathlib

/-!
Verification of the BFS core of `cayleypy` (`src/cayleypy/cayley_graph.py`)
against its natural-language specification.

States are modelled as rows of integers (`Row := List Int`); 2-D tensors are
lists of rows, 1-D tensors are `List Int`.  Pure tensor operations
(`torch.sort(stable=True)`, `torch.unique(sorted=True)`, `torch.gather`,
`torch.tensor_split`, boolean masking, `searchsorted`-based membership) are
given extensionally equal list implementations.  Components of the repository
that the file under `src/` imports but whose sources are not available
(`hasher.py`, `string_encoder.py`, `cayley_graph_def.py`, `torch_utils.py`)
are modelled from the specification; their doc comments say so explicitly.
-/

namespace Cayleypy

/-- A state in internal (encoded) representation: one tensor row. -/
abbrev Row := List Int

/-! ### Generic list helpers (models of the tensor primitives used) -/

/-- Boolean-mask selection: `l[mask]` in torch.  Keeps `l[i]` iff `mask[i]`. -/
def maskFilter (l : List α) (mask : List Bool) : List α :=
  (l.zip mask).filterMap (fun p => if p.2 then some p.1 else none)

/-- Mask of first occurrences over a (sorted) list, computed by adjacent
comparison exactly as in `get_unique_states` lines 115-117:
`mask[0] = true`, `mask[j] = (l[j] != l[j-1])`. -/
def firstOccMask (l : List Int) : List Bool :=
  match l with
  | [] => []
  | _ :: t => true :: List.zipWith (fun prev cur => cur != prev) l t

/-- `torch.Tensor.repeat(n)` on a 1-D tensor: `n` copies, concatenated. -/
def tileList (n : Nat) (l : List Int) : List Int :=
  (List.replicate n l).flatten

/-- Split a list into consecutive chunks of given sizes. -/
def splitBySizes : List α → List Nat → List (List α)
  | _, [] => []
  | l, s :: rest => l.take s :: splitBySizes (l.drop s) rest

/-- Chunk sizes produced by `torch.tensor_split(k)` on a length-`n` axis:
the first `n % k` chunks have size `n / k + 1`, the rest `n / k`. -/
def tensorSplitSizes (n k : Nat) : List Nat :=
  (List.range k).map (fun j => n / k + if j < n % k then 1 else 0)

/-- `torch.tensor_split(k, dim=0)`. -/
def tensorSplit (l : List α) (k : Nat) : List (List α) :=
  splitBySizes l (tensorSplitSizes l.length k)

/-! ### Sorting

`torch.sort(hashes, stable=True)` returns the values in nondecreasing order
together with the source indices; stability makes the result the unique
permutation of indices sorted by the lexicographic key (value, index).  We
implement that unique result by insertion sort on indices. -/

/-- Strict lexicographic order on indices: by key value, ties by index. -/
def idxLt (key : Nat → Int) (i j : Nat) : Bool :=
  key i < key j || (key i == key j && i < j)

/-- Insert index `i` into an `idxLt`-sorted list of indices. -/
def insertIdx (key : Nat → Int) (i : Nat) : List Nat → List Nat
  | [] => [i]
  | j :: rest => if idxLt key i j then i :: j :: rest else j :: insertIdx key i rest

/-- Sort a list of indices by `idxLt` (insertion sort). -/
def sortIndices (key : Nat → Int) (l : List Nat) : List Nat :=
  l.foldr (insertIdx key) []

/-- The index permutation returned by a stable argsort of
`[key 0, ..., key (n-1)]`. -/
def stableArgsort (key : Nat → Int) (n : Nat) : List Nat :=
  sortIndices key (List.range n)

/-- Insert an integer into a nondecreasing list. -/
def insertInt (x : Int) : List Int → List Int
  | [] => [x]
  | y :: rest => if x ≤ y then x :: y :: rest else y :: insertInt x rest

/-- Sort integers in nondecreasing order (`torch.sort` on values). -/
def sortInts (l : List Int) : List Int :=
  l.foldr insertInt []

/-- Remove adjacent duplicates from a (sorted) list. -/
def dedupSorted : List Int → List Int
  | [] => []
  | [a] => [a]
  | a :: b :: r => if a == b then dedupSorted (b :: r) else a :: dedupSorted (b :: r)

/-- `torch.unique(l, sorted=True)`: distinct values in increasing order. -/
def uniqueSorted (l : List Int) : List Int :=
  dedupSorted (sortInts l)

/-! ### Lemmas about the helpers -/

theorem maskFilter_nil (mask : List Bool) : maskFilter ([] : List α) mask = [] := by
  simp [maskFilter]

theorem maskFilter_cons (a : List α) : ∀ x b mask,
    maskFilter (x :: a) (b :: mask) =
      (if b then [x] else []) ++ maskFilter a mask := by
  intro x b mask
  cases b <;> simp [maskFilter]

theorem maskFilter_sublist (l : List α) : ∀ mask, (maskFilter l mask).Sublist l := by
  induction l with
  | nil => intro mask; simp [maskFilter]
  | cons x rest ih =>
    intro mask
    cases mask with
    | nil => simp [maskFilter]
    | cons b m =>
      rw [maskFilter_cons]
      cases b
      · simp only [if_neg Bool.false_ne_true, List.nil_append]
        exact (ih m).cons x
      · simp only [if_pos rfl, List.singleton_append]
        exact (ih m).cons₂ x

theorem maskFilter_subset (l : List α) (mask : List Bool) :
    ∀ x, x ∈ maskFilter l mask → x ∈ l :=
  fun _ hx => (maskFilter_sublist l mask).mem hx

theorem maskFilter_mem_iff (l : List α) : ∀ (mask : List Bool) (x : α),
    x ∈ maskFilter l mask ↔
      ∃ p, ∃ hp : p < l.length, l.get ⟨p, hp⟩ = x ∧ mask.getD p false = true := by
  induction l with
  | nil =>
    intro mask x
    simp [maskFilter]
  | cons a rest ih =>
    intro mask x
    cases mask with
    | nil =>
      simp only [maskFilter, List.zip_nil_right, List.filterMap_nil, List.not_mem_nil,
        false_iff]
      rintro ⟨p, hp, -, hm⟩
      simp [List.getD] at hm
    | cons b m =>
      rw [maskFilter_cons]
      constructor
      · intro hx
        rcases List.mem_append.mp hx with hx | hx
        · refine ⟨0, by simp, ?_, ?_⟩
          · cases b <;> simp at hx <;> simp [hx]
          · cases b <;> simp at hx <;> simp
        · rcases (ih m x).mp hx with ⟨p, hp, hget, hmask⟩
          exact ⟨p + 1, by simpa using Nat.succ_lt_succ hp, by simpa using hget,
            by simpa using hmask⟩
      · rintro ⟨p, hp, hget, hmask⟩
        cases p with
        | zero =>
          apply List.mem_append.mpr
          left
          simp at hget hmask
          simp [hmask, hget]
        | succ q =>
          apply List.mem_append.mpr
          right
          exact (ih m x).mpr ⟨q, by simpa using Nat.lt_of_succ_lt_succ hp,
            by simpa using hget, by simpa using hmask⟩

theorem splitBySizes_flatten (sizes : List Nat) :
    ∀ l : List α, (splitBySizes l sizes).flatten = l.take sizes.sum := by
  induction sizes with
  | nil => intro l; simp [splitBySizes]
  | cons s rest ih =>
    intro l
    simp only [splitBySizes, List.flatten_cons, ih, List.sum_cons]
    exact (List.take_add l s rest.sum).symm

theorem sum_range_indicator_of_le (m : Nat) :
    ∀ k, m ≤ k → ((List.range k).map (fun j => if j < m then (1 : Nat) else 0)).sum = m := by
  intro k
  induction k with
  | zero =>
    intro hm
    have hm0 : m = 0 := Nat.le_zero.mp hm
    subst hm0
    simp
  | succ k ih =>
    intro hm
    rw [List.range_succ]
    rcases Nat.lt_or_ge k m with hk | hk
    · have hmk : m = k + 1 := Nat.le_antisymm hm hk
      subst hmk
      have hall : (List.range k).map (fun j => if j < k + 1 then (1 : Nat) else 0)
          = (List.range k).map (fun _ => (1 : Nat)) := by
        apply List.map_congr_left
        intro j hj
        have : j < k + 1 := Nat.lt_succ_of_lt (List.mem_range.mp hj)
        simp [this]
      simp [hall]
    · have h1 : ¬ k < m := Nat.not_lt.mpr hk
      simp [h1, ih hk]

theorem tensorSplitSizes_sum (n k : Nat) (hk : 0 < k) :
    (tensorSplitSizes n k).sum = n := by
  unfold tensorSplitSizes
  have hsplit : ((List.range k).map (fun j => n / k + if j < n % k then 1 else 0)).sum
      = ((List.range k).map (fun _ => n / k)).sum
        + ((List.range k).map (fun j => if j < n % k then 1 else 0)).sum := by
    induction (List.range k) with
    | nil => simp
    | cons a t iht => simp only [List.map_cons, List.sum_cons, iht]; omega
  rw [hsplit, sum_range_indicator_of_le _ _ (Nat.le_of_lt (Nat.mod_lt n hk))]
  have hconst : ∀ t : List Nat, (t.map (fun _ => n / k)).sum = t.length * (n / k) := by
    intro t
    induction t with
    | nil => simp
    | cons a r ihr => simp [ihr, Nat.succ_mul, Nat.add_comm]
  rw [hconst (List.range k), List.length_range]
  exact Nat.div_add_mod n k

theorem tensorSplit_flatten (l : List α) (k : Nat) (hk : 0 < k) :
    (tensorSplit l k).flatten = l := by
  rw [tensorSplit, splitBySizes_flatten, tensorSplitSizes_sum _ _ hk, List.take_length]

/-! ### Sorting lemmas -/

/-- Propositional form of `idxLt`. -/
theorem idxLt_iff (key : Nat → Int) (i j : Nat) :
    idxLt key i j = true ↔ (key i < key j ∨ (key i = key j ∧ i < j)) := by
  simp [idxLt]

theorem idxLt_total (key : Nat → Int) (i j : Nat) (hij : i ≠ j) :
    idxLt key i j = true ∨ idxLt key j i = true := by
  rw [idxLt_iff, idxLt_iff]
  rcases lt_trichotomy (key i) (key j) with h | h | h
  · exact Or.inl (Or.inl h)
  · rcases Nat.lt_or_ge i j with hlt | hge
    · exact Or.inl (Or.inr ⟨h, hlt⟩)
    · exact Or.inr (Or.inr ⟨h.symm, Nat.lt_of_le_of_ne hge (Ne.symm hij)⟩)
  · exact Or.inr (Or.inl h)

theorem idxLt_trans (key : Nat → Int) {i j k : Nat}
    (h1 : idxLt key i j = true) (h2 : idxLt key j k = true) : idxLt key i k = true := by
  rw [idxLt_iff] at h1 h2 ⊢
  rcases h1 with h1 | ⟨h1e, h1lt⟩ <;> rcases h2 with h2 | ⟨h2e, h2lt⟩
  · exact Or.inl (lt_trans h1 h2)
  · exact Or.inl (h2e ▸ h1)
  · exact Or.inl (h1e ▸ h2)
  · exact Or.inr ⟨h1e.trans h2e, Nat.lt_trans h1lt h2lt⟩

theorem insertIdx_perm (key : Nat → Int) (i : Nat) :
    ∀ l : List Nat, (insertIdx key i l).Perm (i :: l) := by
  intro l
  induction l with
  | nil => simp [insertIdx]
  | cons j rest ih =>
    unfold insertIdx
    by_cases h : idxLt key i j = true
    · simp [h]
    · simp only [h, if_false]
      exact (ih.cons j).trans (List.Perm.swap i j rest)

theorem insertIdx_mem (key : Nat → Int) (i : Nat) (l : List Nat) (x : Nat) :
    x ∈ insertIdx key i l ↔ x = i ∨ x ∈ l := by
  rw [(insertIdx_perm key i l).mem_iff]
  simp

theorem insertIdx_pairwise (key : Nat → Int) (i : Nat) :
    ∀ l : List Nat, (∀ x ∈ l, x ≠ i) →
      l.Pairwise (fun a b => idxLt key a b = true) →
      (insertIdx key i l).Pairwise (fun a b => idxLt key a b = true) := by
  intro l
  induction l with
  | nil => intro _ _; simp [insertIdx]
  | cons j rest ih =>
    intro hne hp
    rcases List.pairwise_cons.mp hp with ⟨hjall, hprest⟩
    unfold insertIdx
    by_cases h : idxLt key i j = true
    · simp only [h, if_true]
      apply List.pairwise_cons.mpr
      refine ⟨?_, hp⟩
      intro x hx
      rcases List.mem_cons.mp hx with rfl | hx
      · exact h
      · exact idxLt_trans key h (hjall x hx)
    · simp only [h, if_false]
      apply List.pairwise_cons.mpr
      constructor
      · intro x hx
        rcases (insertIdx_mem key i rest x).mp hx with heq | hx
        · rw [heq]
          rcases idxLt_total key i j
              (fun he => hne j (List.mem_cons_self j rest) he.symm) with ht | ht
          · exact absurd ht h
          · exact ht
        · exact hjall x hx
      · exact ih (fun x hx => hne x (List.mem_cons_of_mem j hx)) hprest

theorem sortIndices_perm (key : Nat → Int) :
    ∀ l : List Nat, (sortIndices key l).Perm l := by
  intro l
  induction l with
  | nil => simp [sortIndices]
  | cons x rest ih =>
    have : sortIndices key (x :: rest) = insertIdx key x (sortIndices key rest) := rfl
    rw [this]
    exact (insertIdx_perm key x (sortIndices key rest)).trans (ih.cons x)

theorem sortIndices_pairwise (key : Nat → Int) :
    ∀ l : List Nat, l.Nodup →
      (sortIndices key l).Pairwise (fun a b => idxLt key a b = true) := by
  intro l
  induction l with
  | nil => intro _; simp [sortIndices]
  | cons x rest ih =>
    intro hnd
    rcases List.nodup_cons.mp hnd with ⟨hx, hndrest⟩
    have heq : sortIndices key (x :: rest) = insertIdx key x (sortIndices key rest) := rfl
    rw [heq]
    apply insertIdx_pairwise
    · intro y hy he
      exact hx (he ▸ (sortIndices_perm key rest).mem_iff.mp hy)
    · exact ih hndrest

theorem stableArgsort_perm (key : Nat → Int) (n : Nat) :
    (stableArgsort key n).Perm (List.range n) :=
  sortIndices_perm key (List.range n)

theorem stableArgsort_pairwise (key : Nat → Int) (n : Nat) :
    (stableArgsort key n).Pairwise (fun a b => idxLt key a b = true) :=
  sortIndices_pairwise key (List.range n) (List.nodup_range n)

theorem stableArgsort_mem (key : Nat → Int) (n : Nat) (x : Nat) :
    x ∈ stableArgsort key n ↔ x < n := by
  rw [(stableArgsort_perm key n).mem_iff, List.mem_range]

theorem stableArgsort_length (key : Nat → Int) (n : Nat) :
    (stableArgsort key n).length = n := by
  rw [(stableArgsort_perm key n).length_eq, List.length_range]

theorem stableArgsort_nodup (key : Nat → Int) (n : Nat) :
    (stableArgsort key n).Nodup :=
  (List.nodup_range n).perm (stableArgsort_perm key n).symm

theorem insertInt_perm (x : Int) : ∀ l : List Int, (insertInt x l).Perm (x :: l) := by
  intro l
  induction l with
  | nil => simp [insertInt]
  | cons y rest ih =>
    unfold insertInt
    by_cases h : x ≤ y
    · simp [h]
    · simp only [h, if_false]
      exact (ih.cons y).trans (List.Perm.swap x y rest)

theorem insertInt_sorted (x : Int) :
    ∀ l : List Int, l.Pairwise (· ≤ ·) → (insertInt x l).Pairwise (· ≤ ·) := by
  intro l
  induction l with
  | nil => intro _; simp [insertInt]
  | cons y rest ih =>
    intro hp
    rcases List.pairwise_cons.mp hp with ⟨hyall, hprest⟩
    unfold insertInt
    by_cases h : x ≤ y
    · simp only [h, if_true]
      apply List.pairwise_cons.mpr
      refine ⟨?_, hp⟩
      intro z hz
      rcases List.mem_cons.mp hz with rfl | hz
      · exact h
      · exact le_trans h (hyall z hz)
    · simp only [h, if_false]
      apply List.pairwise_cons.mpr
      constructor
      · intro z hz
        have hz' : z ∈ x :: rest := (insertInt_perm x rest).mem_iff.mp hz
        rcases List.mem_cons.mp hz' with heq | hz2
        · rw [heq]
          exact le_of_lt (lt_of_not_le h)
        · exact hyall z hz2
      · exact ih hprest

theorem sortInts_perm : ∀ l : List Int, (sortInts l).Perm l := by
  intro l
  induction l with
  | nil => simp [sortInts]
  | cons x rest ih =>
    have : sortInts (x :: rest) = insertInt x (sortInts rest) := rfl
    rw [this]
    exact (insertInt_perm x (sortInts rest)).trans (ih.cons x)

theorem sortInts_sorted : ∀ l : List Int, (sortInts l).Pairwise (· ≤ ·) := by
  intro l
  induction l with
  | nil => simp [sortInts]
  | cons x rest ih =>
    have : sortInts (x :: rest) = insertInt x (sortInts rest) := rfl
    rw [this]
    exact insertInt_sorted x (sortInts rest) ih

theorem sortInts_mem (l : List Int) (x : Int) : x ∈ sortInts l ↔ x ∈ l :=
  (sortInts_perm l).mem_iff

theorem dedupSorted_mem : ∀ l : List Int, ∀ x, x ∈ dedupSorted l ↔ x ∈ l := by
  intro l
  induction l using dedupSorted.induct with
  | case1 => intro x; simp [dedupSorted]
  | case2 a => intro x; simp [dedupSorted]
  | case3 a b r hab ih =>
    intro x
    have ha : a = b := by simpa using hab
    unfold dedupSorted
    simp only [hab, if_true, ih]
    subst ha
    simp [List.mem_cons]
  | case4 a b r hab ih =>
    intro x
    unfold dedupSorted
    simp [hab, List.mem_cons, ih]

theorem dedupSorted_sorted_strict :
    ∀ l : List Int, l.Pairwise (· ≤ ·) → (dedupSorted l).Pairwise (· < ·) := by
  intro l
  induction l using dedupSorted.induct with
  | case1 => intro _; simp [dedupSorted]
  | case2 a => intro _; simp [dedupSorted]
  | case3 a b r hab ih =>
    intro hp
    unfold dedupSorted
    simp only [hab, if_true]
    exact ih (List.pairwise_cons.mp hp).2
  | case4 a b r hab ih =>
    intro hp
    rcases List.pairwise_cons.mp hp with ⟨haall, hprest⟩
    have hanb : a ≠ b := by simpa using hab
    have hab' : a < b := lt_of_le_of_ne (haall b (List.mem_cons_self b r)) hanb
    unfold dedupSorted
    simp only [hab, Bool.false_eq_true, if_false]
    apply List.pairwise_cons.mpr
    constructor
    · intro z hz
      have hzmem : z ∈ b :: r := (dedupSorted_mem (b :: r) z).mp hz
      rcases List.mem_cons.mp hzmem with rfl | hz'
      · exact hab'
      · exact lt_of_lt_of_le hab' ((List.pairwise_cons.mp hprest).1 z hz')
    · exact ih hprest

theorem uniqueSorted_mem (l : List Int) (x : Int) : x ∈ uniqueSorted l ↔ x ∈ l := by
  rw [uniqueSorted, dedupSorted_mem, sortInts_mem]

theorem uniqueSorted_sorted_strict (l : List Int) :
    (uniqueSorted l).Pairwise (· < ·) :=
  dedupSorted_sorted_strict (sortInts l) (sortInts_sorted l)

theorem pairwise_lt_nodup (l : List Int) (h : l.Pairwise (· < ·)) : l.Nodup :=
  h.imp (fun hab => ne_of_lt hab)

/-- Two strictly increasing integer lists with the same members are equal. -/
theorem sorted_strict_eq_of_mem_iff (l1 l2 : List Int)
    (h1 : l1.Pairwise (· < ·)) (h2 : l2.Pairwise (· < ·))
    (hm : ∀ x, x ∈ l1 ↔ x ∈ l2) : l1 = l2 := by
  have hperm : l1.Perm l2 := by
    apply List.perm_of_nodup_nodup_toFinset_eq (pairwise_lt_nodup l1 h1)
      (pairwise_lt_nodup l2 h2)
    apply Finset.ext
    intro a
    simp [List.mem_toFinset, hm]
  haveI : IsAntisymm Int (· < ·) :=
    ⟨fun a b hab hba => absurd hba (not_lt.mpr (le_of_lt hab))⟩
  exact List.eq_of_perm_of_sorted hperm h1 h2

/-- `sortInts` of a duplicate-free list is strictly increasing. -/
theorem sortInts_nodup_strict (l : List Int) (h : l.Nodup) :
    (sortInts l).Pairwise (· < ·) := by
  have hnd : (sortInts l).Nodup := h.perm (sortInts_perm l).symm
  have hs := sortInts_sorted l
  rw [List.pairwise_iff_getElem] at hs ⊢
  intro i j hi hj hij
  rcases lt_or_eq_of_le (hs i j hi hj hij) with hlt | heq
  · exact hlt
  · exfalso
    have hfin : (⟨i, hi⟩ : Fin (sortInts l).length) = ⟨j, hj⟩ :=
      (List.Nodup.get_inj_iff hnd).mp (by simpa using heq)
    have hij2 : i = j := by simpa using hfin
    omega

/-! ### StateHasher (modelled)

Modelled from the spec: `hasher.py` is not under `src/`.  Section 4.3 of the
spec describes `makeHashes` as a deterministic per-row fingerprint (one hash
per row; the chunked evaluation only bounds memory and does not change the
value), so we model the hasher as an arbitrary per-row function `Row → Int`
together with its `is_identity` flag (spec: the hash is the encoded word
itself when the encoded state is exactly one word). -/

/-- `hasher.make_hashes`: one hash per state row. -/
def makeHashes (h : Row → Int) (states : List Row) : List Int :=
  states.map h

/-! ### Deduplicator: `get_unique_states` (source lines 106-122)

`torch.sort(hashes, stable=True)` yields the index permutation
`stableArgsort`; lines 115-117 compute the first-occurrence mask by adjacent
comparison on the sorted hash sequence; line 119 gathers the kept indices. -/

/-- Key view of a hash tensor: `hashes[i]` (0 out of range). -/
def hashKey (hashes : List Int) (i : Nat) : Int := hashes.getD i 0

/-- The indices kept by `get_unique_states`: stable argsort by hash, then
first-occurrence mask by adjacent comparison (`unique_idx = idx[mask]`). -/
def uniqueIdxOf (hashes : List Int) : List Nat :=
  let idx := stableArgsort (hashKey hashes) hashes.length
  maskFilter idx (firstOccMask (idx.map (hashKey hashes)))

/-- `CayleyGraph.get_unique_states` (lines 106-122).  Returns
`(unique_states, unique_hashes, unique_idx)`. -/
def getUniqueStates (h : Row → Int) (isId : Bool) (states : List Row)
    (suppliedHashes : Option (List Int)) : List Row × List Int × List Nat :=
  let hashes := suppliedHashes.getD (makeHashes h states)
  let uniqueIdx := uniqueIdxOf hashes
  let uniqueStates := uniqueIdx.map (fun i => states.getD i [])
  let uniqueHashes := cond isId (makeHashes h uniqueStates)
    (uniqueIdx.map (fun i => hashes.getD i 0))
  (uniqueStates, uniqueHashes, uniqueIdx)

/-! #### Analysis of `uniqueIdxOf` -/

/-- Recursive view of "keep first of each adjacent run". -/
def kfAux (key : Nat → Int) (prev : Int) : List Nat → List Nat
  | [] => []
  | x :: r => if key x != prev then x :: kfAux key (key x) r else kfAux key (key x) r

theorem maskFilter_firstOcc_aux (key : Nat → Int) :
    ∀ (r : List Nat) (a : Nat),
      maskFilter r (List.zipWith (fun prev cur => cur != prev)
        ((a :: r).map key) (r.map key)) = kfAux key (key a) r := by
  intro r
  induction r with
  | nil => intro a; simp [maskFilter, kfAux]
  | cons x r2 ih =>
    intro a
    simp only [List.map_cons, List.zipWith_cons_cons]
    rw [maskFilter_cons, kfAux]
    by_cases hx : key x != key a
    · simp only [hx, if_true, List.singleton_append]
      rw [← ih x]
      simp
    · have hx2 : (key x != key a) = false := by
        revert hx
        cases (key x != key a) <;> simp
      have hxeq : key x = key a := by
        simpa using hx2
      simp only [hx2, Bool.false_eq_true, if_false, List.nil_append]
      rw [← ih x]
      simp

theorem maskFilter_firstOcc_eq (key : Nat → Int) (l : List Nat) :
    maskFilter l (firstOccMask (l.map key)) =
      match l with
      | [] => []
      | a :: r => a :: kfAux key (key a) r := by
  cases l with
  | nil => simp [maskFilter, firstOccMask]
  | cons a r =>
    simp only [List.map_cons, firstOccMask]
    rw [maskFilter_cons]
    simp only [if_pos rfl, List.singleton_append]
    rw [← maskFilter_firstOcc_aux key r a]
    simp

theorem kfAux_sublist (key : Nat → Int) :
    ∀ (r : List Nat) (prev : Int), (kfAux key prev r).Sublist r := by
  intro r
  induction r with
  | nil => intro prev; simp [kfAux]
  | cons x r2 ih =>
    intro prev
    unfold kfAux
    by_cases hx : key x != prev
    · simp only [hx, if_true]
      exact (ih (key x)).cons₂ x
    · have hx2 : (key x != prev) = false := by
        revert hx
        cases (key x != prev) <;> simp
      simp only [hx2, Bool.false_eq_true, if_false]
      exact (ih (key x)).cons x

theorem not_bne_eq {a b : Int} (h : ¬ (a != b) = true) : a = b := by
  simpa [bne_iff_ne] using h

theorem kfAux_keys_mem (key : Nat → Int) :
    ∀ (r : List Nat) (prev : Int) (v : Int), v ∈ r.map key →
      v = prev ∨ v ∈ (kfAux key prev r).map key := by
  intro r
  induction r with
  | nil => intro prev v hv; simp at hv
  | cons x r2 ih =>
    intro prev v hv
    rw [List.map_cons] at hv
    unfold kfAux
    by_cases hx : key x != prev
    · rw [if_pos hx, List.map_cons]
      rcases List.mem_cons.mp hv with hvx | hv2
      · exact Or.inr (hvx ▸ List.mem_cons_self (key x) _)
      · rcases ih (key x) v hv2 with hveq | hvin
        · exact Or.inr (hveq ▸ List.mem_cons_self (key x) _)
        · exact Or.inr (List.mem_cons_of_mem _ hvin)
    · rw [if_neg hx]
      have hxeq : key x = prev := not_bne_eq hx
      rcases List.mem_cons.mp hv with hvx | hv2
      · exact Or.inl (hvx.trans hxeq)
      · rcases ih (key x) v hv2 with hveq | hvin
        · exact Or.inl (hveq.trans hxeq)
        · exact Or.inr hvin

theorem kfAux_keys_strict (key : Nat → Int) :
    ∀ (r : List Nat) (prev : Int),
      (∀ y ∈ r, prev ≤ key y) →
      (r.map key).Pairwise (· ≤ ·) →
      ((kfAux key prev r).map key).Pairwise (· < ·) ∧
        ∀ y ∈ kfAux key prev r, prev < key y := by
  intro r
  induction r with
  | nil => intro prev _ _; simp [kfAux]
  | cons x r2 ih =>
    intro prev h1 h2
    have hx_le : prev ≤ key x := h1 x (List.mem_cons_self x r2)
    have h2m : (key x :: r2.map key).Pairwise (· ≤ ·) := by
      rw [List.map_cons] at h2
      exact h2
    have h2' : (r2.map key).Pairwise (· ≤ ·) := (List.pairwise_cons.mp h2m).2
    have h1' : ∀ y ∈ r2, key x ≤ key y := by
      intro y hy
      exact (List.pairwise_cons.mp h2m).1 (key y) (List.mem_map.mpr ⟨y, hy, rfl⟩)
    rcases ih (key x) h1' h2' with ⟨ihp, ihgt⟩
    unfold kfAux
    by_cases hx : key x != prev
    · have hxne : key x ≠ prev := by simpa [bne_iff_ne] using hx
      have hxlt : prev < key x := lt_of_le_of_ne hx_le (Ne.symm hxne)
      simp only [hx, if_true, List.map_cons]
      constructor
      · apply List.pairwise_cons.mpr
        refine ⟨?_, ihp⟩
        intro v hv
        rcases List.mem_map.mp hv with ⟨y, hy, rfl⟩
        exact ihgt y hy
      · intro y hy
        rcases List.mem_cons.mp hy with rfl | hy2
        · exact hxlt
        · exact lt_trans hxlt (ihgt y hy2)
    · have hx2 : (key x != prev) = false := by
        revert hx
        cases (key x != prev) <;> simp
      have hxeq : key x = prev := by simpa using hx2
      simp only [hx2, Bool.false_eq_true, if_false]
      refine ⟨ihp, ?_⟩
      intro y hy
      rw [← hxeq]
      exact ihgt y hy

theorem firstOccMask_length (l : List Int) : (firstOccMask l).length = l.length := by
  cases l with
  | nil => simp [firstOccMask]
  | cons a t =>
    simp only [firstOccMask, List.length_cons, List.length_zipWith]
    simp

theorem firstOccMask_getD_succ (l : List Int) (p : Nat) (hp : p + 1 < l.length) :
    (firstOccMask l).getD (p + 1) false = (l.getD (p + 1) 0 != l.getD p 0) := by
  cases l with
  | nil => simp at hp
  | cons a t =>
    have hpt : p < t.length := by
      simpa using Nat.lt_of_succ_lt_succ hp
    have hpc : p < (a :: t).length := by
      simp
      omega
    simp only [firstOccMask, List.getD_cons_succ]
    have hlen : p < (List.zipWith (fun prev cur => cur != prev) (a :: t) t).length := by
      rw [List.length_zipWith]
      simp
      omega
    rw [List.getD_eq_getElem _ _ hlen, List.getElem_zipWith]
    rw [List.getD_eq_getElem t 0 hpt, List.getD_eq_getElem (a :: t) 0 hpc]

/-- Positions of the stable argsort have nondecreasing keys. -/
theorem stableArgsort_keys_mono (key : Nat → Int) (n : Nat) :
    ∀ p q, ∀ hp : p < (stableArgsort key n).length, ∀ hq : q < (stableArgsort key n).length,
      p ≤ q → key ((stableArgsort key n).get ⟨p, hp⟩) ≤ key ((stableArgsort key n).get ⟨q, hq⟩) := by
  intro p q hp hq hpq
  rcases Nat.lt_or_ge p q with hlt | hge
  · have hlex := stableArgsort_pairwise key n
    rw [List.pairwise_iff_get] at hlex
    have := hlex ⟨p, hp⟩ ⟨q, hq⟩ hlt
    rcases (idxLt_iff _ _ _).mp this with h | ⟨h, -⟩
    · exact le_of_lt h
    · exact le_of_eq h
  · have hpe : p = q := Nat.le_antisymm hpq hge
    subst hpe
    exact le_refl _

/-- Any value `v` occurring in `hashes` is `hashKey hashes i` for some `i`. -/
theorem hashKey_mem_iff (hashes : List Int) (v : Int) :
    v ∈ hashes ↔ ∃ i, i < hashes.length ∧ hashKey hashes i = v := by
  rw [List.mem_iff_getElem]
  constructor
  · rintro ⟨i, hi, rfl⟩
    exact ⟨i, hi, (List.getD_eq_getElem hashes 0 hi)⟩
  · rintro ⟨i, hi, hv⟩
    refine ⟨i, hi, ?_⟩
    rw [← List.getD_eq_getElem hashes 0 hi]
    exact hv

theorem uniqueIdxOf_sublist (hashes : List Int) :
    (uniqueIdxOf hashes).Sublist (stableArgsort (hashKey hashes) hashes.length) :=
  maskFilter_sublist _ _

theorem uniqueIdxOf_mem_lt (hashes : List Int) :
    ∀ u ∈ uniqueIdxOf hashes, u < hashes.length := by
  intro u hu
  exact (stableArgsort_mem (hashKey hashes) hashes.length u).mp
    ((uniqueIdxOf_sublist hashes).mem hu)

theorem uniqueIdxOf_nodup (hashes : List Int) : (uniqueIdxOf hashes).Nodup :=
  (stableArgsort_nodup (hashKey hashes) hashes.length).sublist (uniqueIdxOf_sublist hashes)

/-- Eliminator view of `uniqueIdxOf` through `kfAux`. -/
theorem uniqueIdxOf_eq_kfAux (hashes : List Int) :
    uniqueIdxOf hashes =
      match stableArgsort (hashKey hashes) hashes.length with
      | [] => []
      | a :: r => a :: kfAux (hashKey hashes) (hashKey hashes a) r :=
  maskFilter_firstOcc_eq (hashKey hashes) (stableArgsort (hashKey hashes) hashes.length)

/-- The kept hashes are strictly increasing (hence pairwise distinct). -/
theorem uniqueIdxOf_keys_strict (hashes : List Int) :
    ((uniqueIdxOf hashes).map (hashKey hashes)).Pairwise (· < ·) := by
  rw [uniqueIdxOf_eq_kfAux]
  cases hidx : stableArgsort (hashKey hashes) hashes.length with
  | nil => simp
  | cons a r =>
    have hlex : (a :: r).Pairwise (fun i j => idxLt (hashKey hashes) i j = true) := by
      rw [← hidx]
      exact stableArgsort_pairwise _ _
    rcases List.pairwise_cons.mp hlex with ⟨hhead, hrest⟩
    have hmono : (r.map (hashKey hashes)).Pairwise (· ≤ ·) := by
      rw [List.pairwise_map]
      apply hrest.imp
      intro i j hij
      rcases (idxLt_iff _ _ _).mp hij with h | ⟨h, -⟩
      · exact le_of_lt h
      · exact le_of_eq h
    have hheadle : ∀ y ∈ r, hashKey hashes a ≤ hashKey hashes y := by
      intro y hy
      rcases (idxLt_iff _ _ _).mp (hhead y hy) with h | ⟨h, -⟩
      · exact le_of_lt h
      · exact le_of_eq h
    rcases kfAux_keys_strict (hashKey hashes) r (hashKey hashes a) hheadle hmono with ⟨hp, hgt⟩
    rw [List.map_cons]
    apply List.pairwise_cons.mpr
    refine ⟨?_, hp⟩
    intro v hv
    rcases List.mem_map.mp hv with ⟨y, hy, rfl⟩
    exact hgt y hy

theorem uniqueIdxOf_keys_nodup (hashes : List Int) :
    ((uniqueIdxOf hashes).map (hashKey hashes)).Nodup :=
  pairwise_lt_nodup _ (uniqueIdxOf_keys_strict hashes)

/-- The kept hashes are exactly the hash values occurring in the input. -/
theorem uniqueIdxOf_keys_mem (hashes : List Int) (v : Int) :
    v ∈ (uniqueIdxOf hashes).map (hashKey hashes) ↔ v ∈ hashes := by
  constructor
  · intro hv
    rcases List.mem_map.mp hv with ⟨u, hu, rfl⟩
    have hun : u < hashes.length := uniqueIdxOf_mem_lt hashes u hu
    exact (hashKey_mem_iff hashes _).mpr ⟨u, hun, rfl⟩
  · intro hv
    rcases (hashKey_mem_iff hashes v).mp hv with ⟨i, hi, rfl⟩
    have himem : i ∈ stableArgsort (hashKey hashes) hashes.length :=
      (stableArgsort_mem _ _ i).mpr hi
    rw [uniqueIdxOf_eq_kfAux]
    cases hidx : stableArgsort (hashKey hashes) hashes.length with
    | nil => rw [hidx] at himem; simp at himem
    | cons a r =>
      rw [hidx] at himem
      rcases List.mem_cons.mp himem with rfl | hir
      · simp
      · have : hashKey hashes i ∈ (a :: r).map (hashKey hashes) := by
          rw [List.map_cons]
          exact List.mem_cons_of_mem _ (List.mem_map.mpr ⟨i, hir, rfl⟩)
        rcases kfAux_keys_mem (hashKey hashes) r (hashKey hashes a) (hashKey hashes i)
            (List.mem_map.mpr ⟨i, hir, rfl⟩) with heq | hin
        · rw [List.map_cons, heq]
          exact List.mem_cons_self _ _
        · rw [List.map_cons]
          exact List.mem_cons_of_mem _ hin

/-- Stability: the kept representative of each hash value is the smallest
input index carrying that value. -/
theorem uniqueIdxOf_min (hashes : List Int) :
    ∀ u ∈ uniqueIdxOf hashes, ∀ x, x < hashes.length →
      hashKey hashes x = hashKey hashes u → u ≤ x := by
  intro u hu x hx hkey
  by_contra hgt
  push_neg at hgt
  rcases (maskFilter_mem_iff _ _ u).mp hu with ⟨p, hp, hgetp, hmaskp⟩
  have hxmem : x ∈ stableArgsort (hashKey hashes) hashes.length :=
    (stableArgsort_mem _ _ x).mpr hx
  rcases List.mem_iff_getElem.mp hxmem with ⟨q, hq, hgetq⟩
  have hlex := stableArgsort_pairwise (hashKey hashes) hashes.length
  rw [List.pairwise_iff_get] at hlex
  rcases Nat.lt_trichotomy p q with hpq | hpq | hpq
  · have hl := hlex ⟨p, hp⟩ ⟨q, hq⟩ hpq
    rw [List.get_eq_getElem, List.get_eq_getElem] at hl
    simp only [hgetq] at hl
    rw [show (stableArgsort (hashKey hashes) hashes.length)[p] = u from hgetp] at hl
    rcases (idxLt_iff _ _ _).mp hl with h | ⟨-, h⟩
    · rw [hkey] at h
      exact absurd h (lt_irrefl _)
    · omega
  · subst hpq
    have : u = x := by
      rw [← hgetp, List.get_eq_getElem]
      exact hgetq
    omega
  · -- x sits strictly before u in sorted order; u is nevertheless kept by the
    -- first-occurrence mask, so the hash at p-1 differs from the hash at p,
    -- contradicting monotonicity of the sorted keys.
    have hp1 : 0 < p := Nat.lt_of_le_of_lt (Nat.zero_le q) hpq
    obtain ⟨p0, rfl⟩ : ∃ p0, p = p0 + 1 := ⟨p - 1, by omega⟩
    have hmlen : p0 + 1 < ((stableArgsort (hashKey hashes) hashes.length).map
        (hashKey hashes)).length := by
      rw [List.length_map]
      exact hp
    have hmask2 := firstOccMask_getD_succ _ p0 hmlen
    rw [hmaskp] at hmask2
    have hne : hashKey hashes ((stableArgsort (hashKey hashes) hashes.length).get ⟨p0 + 1, hp⟩)
        ≠ hashKey hashes ((stableArgsort (hashKey hashes) hashes.length).get
          ⟨p0, Nat.lt_of_succ_lt hp⟩) := by
      have h1 : ((stableArgsort (hashKey hashes) hashes.length).map
          (hashKey hashes)).getD (p0 + 1) 0
          = hashKey hashes ((stableArgsort (hashKey hashes) hashes.length).get ⟨p0 + 1, hp⟩) := by
        rw [List.getD_eq_getElem _ _ hmlen, List.getElem_map, List.get_eq_getElem]
      have h2 : ((stableArgsort (hashKey hashes) hashes.length).map
          (hashKey hashes)).getD p0 0
          = hashKey hashes ((stableArgsort (hashKey hashes) hashes.length).get
            ⟨p0, Nat.lt_of_succ_lt hp⟩) := by
        rw [List.getD_eq_getElem _ _ (Nat.lt_of_succ_lt hmlen), List.getElem_map,
          List.get_eq_getElem]
      intro he
      rw [h1, h2, he] at hmask2
      simp at hmask2
    -- keys: key idx[q] = key x = key u = key idx[p0+1]; q ≤ p0 < p0+1
    have hkq : hashKey hashes ((stableArgsort (hashKey hashes) hashes.length).get ⟨q, hq⟩)
        = hashKey hashes u := by
      rw [List.get_eq_getElem, hgetq]
      exact hkey
    have hku : hashKey hashes ((stableArgsort (hashKey hashes) hashes.length).get
        ⟨p0 + 1, hp⟩) = hashKey hashes u := by
      rw [hgetp]
    have hmono1 := stableArgsort_keys_mono (hashKey hashes) hashes.length q p0 hq
      (Nat.lt_of_succ_lt hp) (by omega)
    have hmono2 := stableArgsort_keys_mono (hashKey hashes) hashes.length p0 (p0 + 1)
      (Nat.lt_of_succ_lt hp) hp (Nat.le_succ p0)
    rw [hkq] at hmono1
    rw [hku] at hmono2
    have hp0eq : hashKey hashes ((stableArgsort (hashKey hashes) hashes.length).get
        ⟨p0, Nat.lt_of_succ_lt hp⟩) = hashKey hashes u :=
      le_antisymm hmono2 hmono1
    exact hne (hku.trans hp0eq.symm)

/-! #### `getUniqueStates` components -/

theorem makeHashes_length (h : Row → Int) (states : List Row) :
    (makeHashes h states).length = states.length := by
  simp [makeHashes]

theorem makeHashes_getD (h : Row → Int) (states : List Row) (i : Nat)
    (hi : i < states.length) :
    (makeHashes h states).getD i 0 = h (states.getD i []) := by
  rw [makeHashes, List.getD_eq_getElem _ _ (by simpa using hi), List.getElem_map,
    List.getD_eq_getElem _ _ hi]

/-- Consistency of supplied hashes with the hasher: either `hashes=None`
(line 110 recomputes them) or the caller passed `make_hashes(states)`,
which is how every call site in `cayley_graph.py` builds them. -/
def HashesConsistent (h : Row → Int) (states : List Row)
    (suppliedHashes : Option (List Int)) : Prop :=
  suppliedHashes = none ∨ suppliedHashes = some (makeHashes h states)

theorem HashesConsistent.getD_eq {h : Row → Int} {states : List Row}
    {suppliedHashes : Option (List Int)}
    (hc : HashesConsistent h states suppliedHashes) :
    suppliedHashes.getD (makeHashes h states) = makeHashes h states := by
  rcases hc with hc | hc <;> rw [hc] <;> rfl

/-- Under consistent supplied hashes the computation agrees with the
`hashes=None` branch (line 110). -/
theorem getUniqueStates_congr_none (h : Row → Int) (isId : Bool) (states : List Row)
    (suppliedHashes : Option (List Int))
    (hc : HashesConsistent h states suppliedHashes) :
    getUniqueStates h isId states suppliedHashes = getUniqueStates h isId states none := by
  unfold getUniqueStates
  rw [hc.getD_eq]
  rfl

theorem getUniqueStates_idx (h : Row → Int) (isId : Bool) (states : List Row)
    (suppliedHashes : Option (List Int))
    (hc : HashesConsistent h states suppliedHashes) :
    (getUniqueStates h isId states suppliedHashes).2.2
      = uniqueIdxOf (makeHashes h states) := by
  rw [getUniqueStates_congr_none h isId states suppliedHashes hc]
  rfl

theorem getUniqueStates_states (h : Row → Int) (isId : Bool) (states : List Row)
    (suppliedHashes : Option (List Int))
    (hc : HashesConsistent h states suppliedHashes) :
    (getUniqueStates h isId states suppliedHashes).1
      = (uniqueIdxOf (makeHashes h states)).map (fun i => states.getD i []) := by
  rw [getUniqueStates_congr_none h isId states suppliedHashes hc]
  rfl

/-- Both branches of line 121 produce the hashes of the kept rows. -/
theorem getUniqueStates_hashes (h : Row → Int) (isId : Bool) (states : List Row)
    (suppliedHashes : Option (List Int))
    (hc : HashesConsistent h states suppliedHashes) :
    (getUniqueStates h isId states suppliedHashes).2.1
      = (uniqueIdxOf (makeHashes h states)).map (hashKey (makeHashes h states)) := by
  rw [getUniqueStates_congr_none h isId states suppliedHashes hc]
  have hkey : ∀ i ∈ uniqueIdxOf (makeHashes h states),
      h (states.getD i []) = hashKey (makeHashes h states) i := by
    intro i hi
    have hilt : i < states.length := by
      have := uniqueIdxOf_mem_lt (makeHashes h states) i hi
      rwa [makeHashes_length] at this
    rw [hashKey, makeHashes_getD h states i hilt]
  cases isId with
  | true =>
    show makeHashes h ((uniqueIdxOf (makeHashes h states)).map (fun i => states.getD i []))
      = (uniqueIdxOf (makeHashes h states)).map (hashKey (makeHashes h states))
    rw [makeHashes, List.map_map]
    exact List.map_congr_left (fun i hi => hkey i hi)
  | false =>
    rfl

theorem getUniqueStates_hashes_map (h : Row → Int) (isId : Bool) (states : List Row)
    (suppliedHashes : Option (List Int))
    (hc : HashesConsistent h states suppliedHashes) :
    (getUniqueStates h isId states suppliedHashes).2.1
      = makeHashes h (getUniqueStates h isId states suppliedHashes).1 := by
  rw [getUniqueStates_states h isId states suppliedHashes hc,
    getUniqueStates_hashes h isId states suppliedHashes hc]
  have hmm : makeHashes h ((uniqueIdxOf (makeHashes h states)).map (fun i => states.getD i []))
      = (uniqueIdxOf (makeHashes h states)).map (fun i => h (states.getD i [])) := by
    simp [makeHashes, List.map_map, Function.comp]
  rw [hmm]
  apply List.map_congr_left
  intro i hi
  have hilt : i < states.length := by
    have := uniqueIdxOf_mem_lt (makeHashes h states) i hi
    rwa [makeHashes_length] at this
  rw [hashKey, makeHashes_getD h states i hilt]

theorem getUniqueStates_hashes_strict (h : Row → Int) (isId : Bool) (states : List Row)
    (suppliedHashes : Option (List Int))
    (hc : HashesConsistent h states suppliedHashes) :
    (getUniqueStates h isId states suppliedHashes).2.1.Pairwise (· < ·) := by
  rw [getUniqueStates_hashes h isId states suppliedHashes hc]
  exact uniqueIdxOf_keys_strict (makeHashes h states)

theorem getUniqueStates_hashes_nodup (h : Row → Int) (isId : Bool) (states : List Row)
    (suppliedHashes : Option (List Int))
    (hc : HashesConsistent h states suppliedHashes) :
    (getUniqueStates h isId states suppliedHashes).2.1.Nodup :=
  pairwise_lt_nodup _ (getUniqueStates_hashes_strict h isId states suppliedHashes hc)

theorem getUniqueStates_hashes_mem (h : Row → Int) (isId : Bool) (states : List Row)
    (suppliedHashes : Option (List Int))
    (hc : HashesConsistent h states suppliedHashes) (v : Int) :
    v ∈ (getUniqueStates h isId states suppliedHashes).2.1
      ↔ v ∈ makeHashes h states := by
  rw [getUniqueStates_hashes h isId states suppliedHashes hc]
  exact uniqueIdxOf_keys_mem (makeHashes h states) v

theorem getUniqueStates_states_subset (h : Row → Int) (isId : Bool) (states : List Row)
    (suppliedHashes : Option (List Int))
    (hc : HashesConsistent h states suppliedHashes) :
    ∀ s ∈ (getUniqueStates h isId states suppliedHashes).1, s ∈ states := by
  intro s hs
  rw [getUniqueStates_states h isId states suppliedHashes hc] at hs
  rcases List.mem_map.mp hs with ⟨i, hi, rfl⟩
  have hilt : i < states.length := by
    have := uniqueIdxOf_mem_lt (makeHashes h states) i hi
    rwa [makeHashes_length] at this
  rw [List.getD_eq_getElem _ _ hilt]
  exact List.getElem_mem hilt

theorem getUniqueStates_lengths (h : Row → Int) (isId : Bool) (states : List Row)
    (suppliedHashes : Option (List Int))
    (hc : HashesConsistent h states suppliedHashes) :
    (getUniqueStates h isId states suppliedHashes).2.1.length
        = (getUniqueStates h isId states suppliedHashes).1.length
      ∧ (getUniqueStates h isId states suppliedHashes).1.length
        = (getUniqueStates h isId states suppliedHashes).2.2.length := by
  rw [getUniqueStates_hashes h isId states suppliedHashes hc,
    getUniqueStates_states h isId states suppliedHashes hc,
    getUniqueStates_idx h isId states suppliedHashes hc]
  simp

/-! ### GeneratorApplier: `_apply_generator_batched` (lines 142-157)

All three modes act row by row on the batch; we model the per-row action. -/

/-- Unpacked permutation application (lines 150-151): destination column `j`
takes source column `perm[j]` (`torch.gather` along dim 1). -/
def gatherRow (perm : List Nat) (row : Row) : Row :=
  perm.map (fun s => row.getD s 0)

/-- Matrix action (lines 153-157): reshape the row to an `(n, m)` matrix,
multiply by the `n×n` generator matrix on the left, flatten back to a row. -/
def matMulRow (mx : List (List Int)) (n m : Nat) (row : Row) : Row :=
  ((List.range n).map (fun a =>
    (List.range m).map (fun b =>
      ((List.range n).map (fun c =>
        (mx.getD a []).getD c 0 * row.getD (c * m + b) 0)).sum))).flatten

/-- Modelled from the spec: `string_encoder.py` is not under `src/`.
Spec 4.1: `encode` packs `state_size` fields of `w` bits each, little-endian,
densely into `ceil(state_size*w/64)` 64-bit words.  This is the packed value
of a word row. -/
def packedValue : Row → Nat
  | [] => 0
  | wrd :: rest => wrd.toNat % 2 ^ 64 + 2 ^ 64 * packedValue rest

/-- Modelled from the spec (4.1): decode `n` fields of `w` bits. -/
def decodeRowEnc (w n : Nat) (packed : Row) : Row :=
  (List.range n).map (fun i => (Int.ofNat ((packedValue packed >>> (i * w)) % 2 ^ w)))

/-- Modelled from the spec (4.1): the packed integer value of `n` fields. -/
def encodedValue (w n : Nat) (row : Row) : Nat :=
  ((List.range n).map (fun i => ((row.getD i 0).toNat % 2 ^ w) * 2 ^ (i * w))).sum

/-- Modelled from the spec (4.1): encode a decoded row into
`ceil(n*w/64)` 64-bit words. -/
def encodeRowEnc (w n : Nat) (row : Row) : Row :=
  (List.range ((n * w + 63) / 64)).map
    (fun k => (Int.ofNat ((encodedValue w n row >>> (64 * k)) % 2 ^ 64)))

/-- Modelled from the spec (4.1): `implement_permutation(perm)` computes the
destination packed row whose field `i` is the source field `perm[i]`,
extensionally `encode ∘ gather ∘ decode`. -/
def implementPermutation (w n : Nat) (perm : List Nat) (packed : Row) : Row :=
  encodeRowEnc w n (gatherRow perm (decodeRowEnc w n packed))

/-- The three per-row generator actions dispatched by
`_apply_generator_batched`: packed permutation (line 148), column gather
(lines 150-151), batched matrix multiplication (lines 153-157). -/
inductive ApplyKind where
  | permGather (perms : List (List Nat))
  | permPacked (w n : Nat) (perms : List (List Nat))
  | matrixMul (n m : Nat) (mats : List (List (List Int)))

def applyKindRow : ApplyKind → Nat → Row → Row
  | ApplyKind.permGather perms, i, row => gatherRow (perms.getD i []) row
  | ApplyKind.permPacked w n perms, i, row => implementPermutation w n (perms.getD i []) row
  | ApplyKind.matrixMul _ m mats, i, row =>
      matMulRow (mats.getD i []) (mats.getD i []).length m row

def ApplyKind.nGens : ApplyKind → Nat
  | ApplyKind.permGather perms => perms.length
  | ApplyKind.permPacked _ _ perms => perms.length
  | ApplyKind.matrixMul _ _ mats => mats.length

/-- Modelled from the spec: `cayley_graph_def.py` is not under `src/`.
Spec 3: `generators_inverse_closed` is derived — every generator's inverse is
also present.  The inverse of a `gather` permutation `p` maps `j` to the
position of `j` in `p`. -/
def invPerm (p : List Nat) : List Nat :=
  (List.range p.length).map (fun j => p.indexOf j)

/-- Modelled from the spec (3): derived inverse-closedness of a permutation
generator list. -/
def permsInverseClosed (perms : List (List Nat)) : Bool :=
  perms.all (fun p => perms.contains (invPerm p))

/-! ### The graph object

The fields are exactly the attributes of the Python `CayleyGraph` object that
`bfs`, `get_neighbors` and `random_walks` read.  `hash` and `hashIsIdentity`
stand for the `StateHasher` (spec 4.3, modelled); `encodedLengthIsOne` for
`string_encoder is not None and string_encoder.encoded_length == 1`;
`decodeRow` for `decode_states` per row. -/

structure CayleyGraph where
  n_generators : Nat
  applyGen : Nat → Row → Row
  hash : Row → Int
  hashIsIdentity : Bool
  encodedLengthIsOne : Bool
  inverseClosed : Bool
  batchSize : Nat
  decodeRow : Row → Row

/-- `CayleyGraph.get_neighbors` (lines 159-168): preallocates
`states_num * n_generators` rows and fills block `i` with generator `i`
applied to every input row — the concatenation of the per-generator blocks,
generator-major. -/
def getNeighbors (g : CayleyGraph) (states : List Row) : List Row :=
  ((List.range g.n_generators).map (fun i => states.map (g.applyGen i))).flatten

/-- `remove_seen_states` (lines 226-230): mask with zeros at positions whose
hash occurs in any stored seen-set entry (`isin_via_searchsorted` is
membership in a sorted hash tensor; `torch_utils.py` is not under `src/`,
membership semantics modelled from the spec). -/
def removeSeenMask (seen : List (List Int)) (ch : List Int) : List Bool :=
  ch.map (fun v => seen.all (fun s => !(s.contains v)))

/-! #### Lemmas about `getNeighbors` -/

theorem getNeighbors_length (g : CayleyGraph) (states : List Row) :
    (getNeighbors g states).length = g.n_generators * states.length := by
  rw [getNeighbors, List.length_flatten, List.map_map]
  have hcongr : ((List.range g.n_generators).map
        ((fun l => List.length l) ∘ fun i => states.map (g.applyGen i)))
      = (List.range g.n_generators).map (fun _ => states.length) := by
    apply List.map_congr_left
    intro i _
    simp
  rw [hcongr]
  have : ∀ t : List Nat, (t.map (fun _ => states.length)).sum = t.length * states.length := by
    intro t
    induction t with
    | nil => simp
    | cons a r ihr => simp [ihr, Nat.succ_mul, Nat.add_comm]
  rw [this, List.length_range]

theorem getNeighbors_mem (g : CayleyGraph) (states : List Row) (row : Row) :
    row ∈ getNeighbors g states
      ↔ ∃ i, i < g.n_generators ∧ ∃ s ∈ states, row = g.applyGen i s := by
  rw [getNeighbors, List.mem_flatten]
  constructor
  · rintro ⟨l, hl, hrow⟩
    rcases List.mem_map.mp hl with ⟨i, hi, rfl⟩
    rcases List.mem_map.mp hrow with ⟨s, hs, rfl⟩
    exact ⟨i, List.mem_range.mp hi, s, hs, rfl⟩
  · rintro ⟨i, hi, s, hs, rfl⟩
    exact ⟨states.map (g.applyGen i),
      List.mem_map.mpr ⟨i, List.mem_range.mpr hi, rfl⟩,
      List.mem_map.mpr ⟨s, hs, rfl⟩⟩

/-- Generator-major indexing of the flattened neighbor batch. -/
theorem flatten_getD_blocks (d : α) :
    ∀ (bs : List (List α)) (k : Nat), (∀ b ∈ bs, b.length = k) →
      ∀ i r, i < bs.length → r < k →
        (bs.flatten).getD (i * k + r) d = (bs.getD i []).getD r d := by
  intro bs
  induction bs with
  | nil => intro k _ i r hi _; simp at hi
  | cons b rest ih =>
    intro k hk i r hi hr
    have hbk : b.length = k := hk b (List.mem_cons_self b rest)
    cases i with
    | zero =>
      simp only [List.flatten_cons, Nat.zero_mul, Nat.zero_add, List.getD_cons_zero]
      rw [List.getD_append b rest.flatten d r (by omega)]
    | succ j =>
      simp only [List.flatten_cons]
      have hge : b.length ≤ (j + 1) * k + r := by
        rw [hbk]
        have : k ≤ (j + 1) * k := Nat.le_mul_of_pos_left k (Nat.succ_pos j)
        omega
      rw [List.getD_append_right b rest.flatten d _ hge, List.getD_cons_succ]
      have harith : (j + 1) * k + r - b.length = j * k + r := by
        rw [hbk, Nat.succ_mul]
        omega
      rw [harith]
      exact ih k (fun x hx => hk x (List.mem_cons_of_mem b hx)) j r
        (by simpa using Nat.lt_of_succ_lt_succ (Nat.succ_lt_succ (Nat.lt_of_succ_lt_succ (by simpa using hi)))) hr

/-! ### BFS Engine (lines 170-314) -/

/-- The keyword parameters of `bfs`. -/
structure BfsParams where
  maxLayerSizeToStore : Option Nat
  maxLayerSizeToExplore : Nat
  maxDiameter : Nat
  returnAllEdges : Bool
  returnAllHashes : Bool

/-- The `BfsResult` fields produced by `bfs` (lines 307-314). -/
structure BfsResult where
  layer_sizes : List Nat
  layers : List (Nat × List Row)
  bfs_completed : Bool
  vertices_hashes : Option (List Int)
  edges_list_hashes : Option (List (Int × Int))

/-- Which exit ended the loop: the `break` at the empty layer (line 270, the
only one that sets `full_graph_explored`), the `break` at the exploration cap
(lines 283-284), or exhaustion of the `range(1, max_diameter+1)` iterator. -/
inductive StopReason where
  | emptyLayer
  | exploreCap
  | diameterExhausted
deriving DecidableEq

/-- The loop state of `bfs` (lines 204-284).  The `trace*` fields are ghost
instrumentation added for specification only: `traceLayers` and `traceHashes`
record every produced layer (layer 0 included) with its hash tensor, and
`traceSeen` the seen-set at the end of each completed iteration.  No output
of `bfs` reads them. -/
structure LoopSt where
  layer1 : List Row
  layer1Hashes : List Int
  layerSizes : List Nat
  layers : List (Nat × List Row)
  edgesStarts : List (List Int)
  edgesEnds : List (List Int)
  allHashes : List (List Int)
  seen : List (List Int)
  traceLayers : List (List Row)
  traceHashes : List (List Int)
  traceSeen : List (List (List Int))

/-- One chunk round of the batched path (lines 237-245): the chunk's
neighbors flattened to single words, deduplicated by `torch.unique`, masked
against the seen set and against every previously produced chunk, and
appended to the accumulator when nonempty. -/
def batchedChunkStep (g : CayleyGraph) (seen : List (List Int))
    (acc : List (List Int)) (chunk : List Row) : List (List Int) :=
  let vals := uniqueSorted ((getNeighbors g chunk).flatten)
  let mask0 := removeSeenMask seen vals
  let mask := acc.foldl
    (fun m other => List.zipWith (fun b v => b && !(other.contains v)) m vals) mask0
  let kept := maskFilter vals mask
  if kept.length > 0 then acc ++ [kept] else acc

/-- The batched neighbor computation (lines 234-251), returning
`(layer2, layer2_hashes)`.  `num_batches = ceil(len(layer1)/batch_size)`;
line 235 reads the length off `layer1_hashes`, which always has the same
length as `layer1`. -/
def batchedStep (g : CayleyGraph) (seen : List (List Int)) (layer1 : List Row) :
    List Row × List Int :=
  let numBatches := (layer1.length + g.batchSize - 1) / g.batchSize
  let chunks := tensorSplit layer1 numBatches
  let batches := chunks.foldl (batchedChunkStep g seen) []
  let layer2Hashes := if batches.length = 0 then [] else sortInts batches.flatten
  (layer2Hashes.map (fun x => [x]), layer2Hashes)

/-- The general per-layer path (lines 253-262): full neighbor batch,
hashes, dedup via `get_unique_states`, then seen-set filtering; line 262
recomputes the hashes in identity mode and gathers the mask otherwise. -/
def generalStep (g : CayleyGraph) (seen : List (List Int)) (layer1 : List Row) :
    List Row × List Int :=
  let nbrs := getNeighbors g layer1
  let nbrsHashes := makeHashes g.hash nbrs
  let t := getUniqueStates g.hash g.hashIsIdentity nbrs (some nbrsHashes)
  let mask := removeSeenMask seen t.2.1
  let layer2 := maskFilter t.1 mask
  let layer2Hashes := cond g.hashIsIdentity (makeHashes g.hash layer2)
    (maskFilter t.2.1 mask)
  (layer2, layer2Hashes)

/-- Lines 256: `layer1_hashes.repeat(n_generators)` — the sources of this
iteration's edges, generator-major. -/
def edgeBlockStarts (g : CayleyGraph) (layer1Hashes : List Int) : List Int :=
  tileList g.n_generators layer1Hashes

/-- Line 257: the pre-deduplication hashes of all neighbors — the
destinations of this iteration's edges, generator-major. -/
def edgeBlockEnds (g : CayleyGraph) (layer1 : List Row) : List Int :=
  makeHashes g.hash (getNeighbors g layer1)

/-- The per-iteration neighbor/dedup/filter computation: the batched path
when enabled and the current layer exceeds the batch size (line 234), the
general path otherwise. -/
def iterStep (g : CayleyGraph) (doBatching : Bool) (st : LoopSt) : List Row × List Int :=
  if doBatching && decide (st.layer1.length > g.batchSize)
  then batchedStep g st.seen st.layer1
  else generalStep g st.seen st.layer1

/-- One iteration of the `for` loop of `bfs` (lines 233-284); `i` is the
Python loop index (the new layer's number).  Returns the updated state and
`some reason` when the iteration breaks, `none` when the loop continues.
The memory check of lines 264-265 only calls `free_memory`, which has no
semantic effect, and is omitted. -/
def bfsIter (g : CayleyGraph) (p : BfsParams) (doBatching : Bool) (storeCap : Nat)
    (i : Nat) (st : LoopSt) : LoopSt × Option StopReason :=
  let useBatched := doBatching && decide (st.layer1.length > g.batchSize)
  let stepRes := iterStep g doBatching st
  let st1 := cond (p.returnAllEdges && !useBatched)
    { st with edgesStarts := st.edgesStarts ++ [edgeBlockStarts g st.layer1Hashes],
              edgesEnds := st.edgesEnds ++ [edgeBlockEnds g st.layer1] }
    st
  let layer2 := stepRes.1
  let layer2Hashes := stepRes.2
  let st2 := cond p.returnAllHashes
    { st1 with allHashes := st1.allHashes ++ [st.layer1Hashes] } st1
  if layer2.length = 0 then
    (st2, some StopReason.emptyLayer)
  else
    let st3 := { st2 with
      layerSizes := st2.layerSizes ++ [layer2.length],
      layers := if layer2.length ≤ storeCap
        then st2.layers ++ [(i, layer2.map g.decodeRow)] else st2.layers }
    let newSeen0 := st3.seen ++ [layer2Hashes]
    let newSeen := cond g.inverseClosed (newSeen0.drop (newSeen0.length - 2)) newSeen0
    let st4 := { st3 with
      layer1 := layer2,
      layer1Hashes := layer2Hashes,
      seen := newSeen,
      traceLayers := st3.traceLayers ++ [layer2],
      traceHashes := st3.traceHashes ++ [layer2Hashes],
      traceSeen := st3.traceSeen ++ [newSeen] }
    if layer2.length ≥ p.maxLayerSizeToExplore then (st4, some StopReason.exploreCap)
    else (st4, none)

/-- The `for` loop of `bfs`, by remaining iteration count (`fuel`). -/
def bfsLoop (g : CayleyGraph) (p : BfsParams) (doBatching : Bool) (storeCap : Nat) :
    Nat → Nat → LoopSt → LoopSt × StopReason
  | 0, _, st => (st, StopReason.diameterExhausted)
  | Nat.succ fuel, i, st =>
    match bfsIter g p doBatching storeCap i st with
    | (st2, some r) => (st2, r)
    | (st4, none) => bfsLoop g p doBatching storeCap fuel (i + 1) st4

/-- Lines 204-223: deduplicate the start states into layer 0 and initialize
all accumulators. -/
def initLoopSt (g : CayleyGraph) (startEnc : List Row) : LoopSt :=
  let t := getUniqueStates g.hash g.hashIsIdentity startEnc none
  { layer1 := t.1
    layer1Hashes := t.2.1
    layerSizes := [t.1.length]
    layers := [(0, t.1.map g.decodeRow)]
    edgesStarts := []
    edgesEnds := []
    allHashes := []
    seen := [t.2.1]
    traceLayers := [t.1]
    traceHashes := [t.2.1]
    traceSeen := [] }

/-- Line 212: `max_layer_size_to_store or 10**15`. -/
def storeCapOf (p : BfsParams) : Nat := p.maxLayerSizeToStore.getD (10 ^ 15)

/-- Lines 217-219: the batched path is enabled when the encoded state is a
single int64 word and edges are not requested. -/
def doBatchingOf (g : CayleyGraph) (p : BfsParams) : Bool :=
  g.encodedLengthIsOne && !p.returnAllEdges

/-- The loop part of `bfs`: initialization plus the iteration. -/
def bfsRun (g : CayleyGraph) (p : BfsParams) (startEnc : List Row) : LoopSt × StopReason :=
  bfsLoop g p (doBatchingOf g p) (storeCapOf p) p.maxDiameter 1 (initLoopSt g startEnc)

/-- Line 305 assigns `layers[len(layer_sizes)-1]`, possibly overwriting. -/
def updateAssoc (l : List (Nat × List Row)) (k : Nat) (v : List Row) :
    List (Nat × List Row) :=
  l.filter (fun kv => kv.1 != k) ++ [(k, v)]

/-- Whether the run ended at the empty-layer break (`full_graph_explored`). -/
def stopCompleted : StopReason → Bool
  | StopReason.emptyLayer => true
  | StopReason.exploreCap => false
  | StopReason.diameterExhausted => false

/-- Lines 286-314: post-loop assembly of the `BfsResult`.  When edges were
requested and the graph was not fully explored, lines 294-299 mirror the last
iteration's edges; line 300 pairs up the accumulated columns.  (With
`max_diameter = 0` and edges requested the Python code would fail on
`edges_list_starts[-1]`; the degenerate accessor is modelled by
`getLastD []`.) -/
def bfsFinish (g : CayleyGraph) (p : BfsParams) (run : LoopSt × StopReason) : BfsResult :=
  let st := run.1
  let full := stopCompleted run.2
  let allH := cond (p.returnAllHashes && !full) (st.allHashes ++ [st.layer1Hashes])
    st.allHashes
  let edges := cond p.returnAllEdges
    (let starts := cond (!full) (st.edgesStarts ++ [st.edgesEnds.getLastD []])
        st.edgesStarts
     let ends := cond (!full) (st.edgesEnds ++ [st.edgesStarts.getLastD []])
        st.edgesEnds
     some ((starts.flatten).zip (ends.flatten)))
    none
  let vh := cond p.returnAllHashes (some allH.flatten) none
  { layer_sizes := st.layerSizes
    layers := updateAssoc st.layers (st.layerSizes.length - 1) (st.layer1.map g.decodeRow)
    bfs_completed := full
    vertices_hashes := vh
    edges_list_hashes := edges }

/-- `CayleyGraph.bfs` on already-encoded start states (the body after
line 204). -/
def bfs (g : CayleyGraph) (p : BfsParams) (startEnc : List Row) : BfsResult :=
  bfsFinish g p (bfsRun g p startEnc)

/-! ### Mask algebra -/

theorem maskFilter_map_pred (f : α → β) (p : α → Bool) :
    ∀ l : List α, maskFilter (l.map f) (l.map p) = (l.filter p).map f := by
  intro l
  induction l with
  | nil => simp [maskFilter]
  | cons x rest ih =>
    rw [List.map_cons, List.map_cons, maskFilter_cons]
    by_cases hx : p x = true
    · rw [if_pos hx, List.filter_cons_of_pos hx, List.map_cons, List.singleton_append, ih]
    · have hx2 : p x = false := Bool.eq_false_iff.mpr hx
      rw [hx2]
      simp only [Bool.false_eq_true, if_false, List.nil_append, ih]
      rw [List.filter_cons_of_neg (by simp [hx2])]

theorem maskFilter_self_pred (p : α → Bool) (l : List α) :
    maskFilter l (l.map p) = l.filter p := by
  have := maskFilter_map_pred id p l
  simpa using this

theorem seen_all_iff (seen : List (List Int)) (v : Int) :
    (seen.all (fun s => !(s.contains v)) = true) ↔ ∀ s ∈ seen, v ∉ s := by
  simp [List.all_eq_true]

/-- `removeSeenMask` is the by-value mask of "not seen in any stored set". -/
theorem removeSeenMask_eq (seen : List (List Int)) (ch : List Int) :
    removeSeenMask seen ch = ch.map (fun v => seen.all (fun s => !(s.contains v))) := rfl

/-! ### Specification of the general per-layer step -/

/-- The "not previously seen" predicate on hash values. -/
def notSeen (seen : List (List Int)) (v : Int) : Bool :=
  seen.all (fun s => !(s.contains v))

theorem notSeen_iff (seen : List (List Int)) (v : Int) :
    notSeen seen v = true ↔ ∀ s ∈ seen, v ∉ s :=
  seen_all_iff seen v

/-- Normal form of the general step: with `u` the deduplicated neighbor rows,
the new layer is `u.filter (notSeen ∘ hash)` and its hash tensor is the
hashes of those rows, in both identity modes. -/
theorem generalStep_eq (g : CayleyGraph) (seen : List (List Int)) (layer1 : List Row) :
    generalStep g seen layer1 =
      (let nbrs := getNeighbors g layer1
       let u := (getUniqueStates g.hash g.hashIsIdentity nbrs
          (some (makeHashes g.hash nbrs))).1
       let kept := u.filter (fun r => notSeen seen (g.hash r))
       (kept, makeHashes g.hash kept)) := by
  have hc : HashesConsistent g.hash (getNeighbors g layer1)
      (some (makeHashes g.hash (getNeighbors g layer1))) := Or.inr rfl
  unfold generalStep
  have hhm := getUniqueStates_hashes_map g.hash g.hashIsIdentity (getNeighbors g layer1)
    (some (makeHashes g.hash (getNeighbors g layer1))) hc
  simp only []
  rw [hhm]
  have hmask : removeSeenMask seen (makeHashes g.hash
      (getUniqueStates g.hash g.hashIsIdentity (getNeighbors g layer1)
        (some (makeHashes g.hash (getNeighbors g layer1)))).1)
      = ((getUniqueStates g.hash g.hashIsIdentity (getNeighbors g layer1)
        (some (makeHashes g.hash (getNeighbors g layer1)))).1).map
          (fun r => notSeen seen (g.hash r)) := by
    rw [removeSeenMask_eq, makeHashes, List.map_map]
    rfl
  rw [hmask]
  rw [maskFilter_self_pred]
  have hmf : maskFilter (makeHashes g.hash
      (getUniqueStates g.hash g.hashIsIdentity (getNeighbors g layer1)
        (some (makeHashes g.hash (getNeighbors g layer1)))).1)
      (((getUniqueStates g.hash g.hashIsIdentity (getNeighbors g layer1)
        (some (makeHashes g.hash (getNeighbors g layer1)))).1).map
          (fun r => notSeen seen (g.hash r)))
      = (((getUniqueStates g.hash g.hashIsIdentity (getNeighbors g layer1)
        (some (makeHashes g.hash (getNeighbors g layer1)))).1).filter
          (fun r => notSeen seen (g.hash r))).map g.hash := by
    rw [makeHashes]
    exact maskFilter_map_pred g.hash (fun r => notSeen seen (g.hash r)) _
  rw [hmf]
  cases hid : g.hashIsIdentity <;> simp [makeHashes]

theorem generalStep_hashes (g : CayleyGraph) (seen : List (List Int)) (layer1 : List Row) :
    (generalStep g seen layer1).2 = makeHashes g.hash (generalStep g seen layer1).1 := by
  rw [generalStep_eq]

theorem generalStep_len (g : CayleyGraph) (seen : List (List Int)) (layer1 : List Row) :
    (generalStep g seen layer1).2.length = (generalStep g seen layer1).1.length := by
  rw [generalStep_hashes, makeHashes, List.length_map]

theorem generalStep_rows_sub (g : CayleyGraph) (seen : List (List Int)) (layer1 : List Row) :
    ∀ r ∈ (generalStep g seen layer1).1, r ∈ getNeighbors g layer1 := by
  rw [generalStep_eq]
  intro r hr
  simp only [List.mem_map] at hr
  have hru : r ∈ (getUniqueStates g.hash g.hashIsIdentity (getNeighbors g layer1)
      (some (makeHashes g.hash (getNeighbors g layer1)))).1 := List.mem_of_mem_filter hr
  exact getUniqueStates_states_subset g.hash g.hashIsIdentity (getNeighbors g layer1)
    (some (makeHashes g.hash (getNeighbors g layer1))) (Or.inr rfl) r hru

theorem generalStep_mem (g : CayleyGraph) (seen : List (List Int)) (layer1 : List Row)
    (v : Int) :
    v ∈ (generalStep g seen layer1).2
      ↔ v ∈ makeHashes g.hash (getNeighbors g layer1) ∧ ∀ s ∈ seen, v ∉ s := by
  rw [generalStep_eq]
  simp only [makeHashes, List.mem_map]
  constructor
  · rintro ⟨r, hr, rfl⟩
    rcases List.mem_filter.mp hr with ⟨hru, hpred⟩
    constructor
    · have : g.hash r ∈ makeHashes g.hash (getUniqueStates g.hash g.hashIsIdentity
          (getNeighbors g layer1) (some (makeHashes g.hash (getNeighbors g layer1)))).1 :=
        List.mem_map.mpr ⟨r, hru, rfl⟩
      rw [← getUniqueStates_hashes_map g.hash g.hashIsIdentity (getNeighbors g layer1)
        (some (makeHashes g.hash (getNeighbors g layer1))) (Or.inr rfl)] at this
      have := (getUniqueStates_hashes_mem g.hash g.hashIsIdentity (getNeighbors g layer1)
        (some (makeHashes g.hash (getNeighbors g layer1))) (Or.inr rfl) (g.hash r)).mp this
      simpa [makeHashes] using this
    · exact (notSeen_iff seen (g.hash r)).mp hpred
  · rintro ⟨⟨r, hrn, rfl⟩, hns⟩
    have hmem : g.hash r ∈ (getUniqueStates g.hash g.hashIsIdentity (getNeighbors g layer1)
        (some (makeHashes g.hash (getNeighbors g layer1)))).2.1 := by
      apply (getUniqueStates_hashes_mem g.hash g.hashIsIdentity (getNeighbors g layer1)
        (some (makeHashes g.hash (getNeighbors g layer1))) (Or.inr rfl) (g.hash r)).mpr
      exact List.mem_map.mpr ⟨r, hrn, rfl⟩
    rw [getUniqueStates_hashes_map g.hash g.hashIsIdentity (getNeighbors g layer1)
      (some (makeHashes g.hash (getNeighbors g layer1))) (Or.inr rfl)] at hmem
    rcases List.mem_map.mp hmem with ⟨r2, hr2, hr2h⟩
    refine ⟨r2, List.mem_filter.mpr ⟨hr2, ?_⟩, hr2h⟩
    rw [hr2h]
    exact (notSeen_iff seen (g.hash r)).mpr hns

theorem generalStep_not_seen (g : CayleyGraph) (seen : List (List Int)) (layer1 : List Row) :
    ∀ v ∈ (generalStep g seen layer1).2, ∀ s ∈ seen, v ∉ s := by
  intro v hv
  exact ((generalStep_mem g seen layer1 v).mp hv).2

theorem generalStep_hashes_strict (g : CayleyGraph) (seen : List (List Int))
    (layer1 : List Row) :
    (generalStep g seen layer1).2.Pairwise (· < ·) := by
  have hstrict := getUniqueStates_hashes_strict g.hash g.hashIsIdentity
    (getNeighbors g layer1) (some (makeHashes g.hash (getNeighbors g layer1))) (Or.inr rfl)
  rw [getUniqueStates_hashes_map g.hash g.hashIsIdentity (getNeighbors g layer1)
    (some (makeHashes g.hash (getNeighbors g layer1))) (Or.inr rfl)] at hstrict
  rw [generalStep_eq]
  simp only [makeHashes] at hstrict ⊢
  exact hstrict.sublist ((List.filter_sublist _).map g.hash)

/-! ### Specification of the batched step -/

theorem zipWith_and_map (c : List Int → Int → Bool) (o : List Int) (vals : List Int)
    (q : Int → Bool) :
    List.zipWith (fun b v => b && c o v) (vals.map q) vals
      = vals.map (fun v => q v && c o v) := by
  induction vals with
  | nil => simp
  | cons x rest ih => simp [ih]

theorem maskFold_eq (vals : List Int) :
    ∀ (acc : List (List Int)) (q : Int → Bool),
      acc.foldl (fun m other => List.zipWith (fun b v => b && !(other.contains v)) m vals)
        (vals.map q)
      = vals.map (fun v => q v && acc.all (fun b => !(b.contains v))) := by
  intro acc
  induction acc with
  | nil => intro q; simp
  | cons o rest ih =>
    intro q
    rw [List.foldl_cons]
    rw [zipWith_and_map (fun o v => !(o.contains v)) o vals q]
    rw [ih (fun v => q v && !(o.contains v))]
    apply List.map_congr_left
    intro v _
    simp [Bool.and_assoc]

/-- Normal form of one chunk round: kept values are the deduplicated chunk
neighbors filtered by "unseen and absent from every previous chunk". -/
theorem batchedChunkStep_eq (g : CayleyGraph) (seen : List (List Int))
    (acc : List (List Int)) (chunk : List Row) :
    batchedChunkStep g seen acc chunk =
      (let kept := (uniqueSorted ((getNeighbors g chunk).flatten)).filter
          (fun v => notSeen seen v && acc.all (fun b => !(b.contains v)))
       if kept.length > 0 then acc ++ [kept] else acc) := by
  simp only [batchedChunkStep]
  rw [removeSeenMask_eq]
  rw [maskFold_eq (uniqueSorted ((getNeighbors g chunk).flatten)) acc
    (fun v => List.all seen (fun s => !(s.contains v)))]
  rw [maskFilter_self_pred]
  rfl

/-- Invariant of the chunk fold: the accumulated chunks hold, without
duplicates, exactly the processed values that pass the seen-set filter. -/
theorem batched_fold_inv (g : CayleyGraph) (seen : List (List Int)) :
    ∀ (chunks : List (List Row)) (acc : List (List Int)) (done : List Int),
      acc.flatten.Nodup →
      (∀ v, v ∈ acc.flatten ↔ (v ∈ done ∧ notSeen seen v = true)) →
      (chunks.foldl (batchedChunkStep g seen) acc).flatten.Nodup ∧
      (∀ v, v ∈ (chunks.foldl (batchedChunkStep g seen) acc).flatten
        ↔ (v ∈ done ++ (chunks.map (fun c => (getNeighbors g c).flatten)).flatten
            ∧ notSeen seen v = true)) := by
  intro chunks
  induction chunks with
  | nil =>
    intro acc done hnd hmem
    refine ⟨hnd, ?_⟩
    intro v
    simpa using hmem v
  | cons c rest ih =>
    intro acc done hnd hmem
    rw [List.foldl_cons, batchedChunkStep_eq]
    have hkept_mem : ∀ v, v ∈ (uniqueSorted ((getNeighbors g c).flatten)).filter
        (fun v => notSeen seen v && acc.all (fun b => !(b.contains v)))
        ↔ (v ∈ (getNeighbors g c).flatten ∧ notSeen seen v = true ∧ v ∉ acc.flatten) := by
      intro v
      rw [List.mem_filter, uniqueSorted_mem]
      constructor
      · rintro ⟨hv, hpred⟩
        rcases Bool.and_eq_true_iff.mp hpred with ⟨hns, hall⟩
        refine ⟨hv, hns, ?_⟩
        rw [List.mem_flatten]
        rintro ⟨b, hb, hvb⟩
        have := (List.all_eq_true.mp hall) b hb
        simp at this
        exact this hvb
      · rintro ⟨hv, hns, hnacc⟩
        refine ⟨hv, Bool.and_eq_true_iff.mpr ⟨hns, ?_⟩⟩
        rw [List.all_eq_true]
        intro b hb
        simp only [Bool.not_eq_eq_eq_not, Bool.not_true, Bool.not_eq_true]
        rw [← Bool.not_eq_true]
        intro hcont
        exact hnacc (List.mem_flatten.mpr ⟨b, hb, by simpa using hcont⟩)
    have hkept_nodup : ((uniqueSorted ((getNeighbors g c).flatten)).filter
        (fun v => notSeen seen v && acc.all (fun b => !(b.contains v)))).Nodup :=
      (pairwise_lt_nodup _ (uniqueSorted_sorted_strict _)).filter _
    set kept := (uniqueSorted ((getNeighbors g c).flatten)).filter
        (fun v => notSeen seen v && acc.all (fun b => !(b.contains v))) with hkeptdef
    by_cases hk : kept.length > 0
    · rw [if_pos hk]
      have h1 : (acc ++ [kept]).flatten.Nodup := by
        rw [List.flatten_append]
        simp only [List.flatten_cons, List.flatten_nil, List.append_nil]
        apply List.Nodup.append hnd hkept_nodup
        intro a ha hak
        exact ((hkept_mem a).mp hak).2.2 ha
      have h2 : ∀ v, v ∈ (acc ++ [kept]).flatten
          ↔ (v ∈ done ++ (getNeighbors g c).flatten ∧ notSeen seen v = true) := by
        intro v
        rw [List.flatten_append]
        simp only [List.flatten_cons, List.flatten_nil, List.append_nil, List.mem_append]
        rw [hmem v, hkept_mem v]
        constructor
        · rintro (⟨hd, hns⟩ | ⟨hc, hns, -⟩)
          · exact ⟨Or.inl hd, hns⟩
          · exact ⟨Or.inr hc, hns⟩
        · rintro ⟨hd | hc, hns⟩
          · exact Or.inl ⟨hd, hns⟩
          · by_cases hacc : v ∈ acc.flatten
            · exact Or.inl (hmem v |>.mp hacc)
            · exact Or.inr ⟨hc, hns, hacc⟩
      have hres := ih (acc ++ [kept]) (done ++ (getNeighbors g c).flatten) h1 h2
      simp only [List.map_cons, List.flatten_cons, List.append_assoc] at hres ⊢
      exact hres
    · rw [if_neg hk]
      have hkept_nil : kept = [] := by
        cases hkeq : kept with
        | nil => rfl
        | cons a t => rw [hkeq] at hk; simp at hk
      have h2 : ∀ v, v ∈ acc.flatten
          ↔ (v ∈ done ++ (getNeighbors g c).flatten ∧ notSeen seen v = true) := by
        intro v
        rw [hmem v, List.mem_append]
        constructor
        · rintro ⟨hd, hns⟩
          exact ⟨Or.inl hd, hns⟩
        · rintro ⟨hd | hc, hns⟩
          · exact ⟨hd, hns⟩
          · by_cases hacc : v ∈ acc.flatten
            · exact hmem v |>.mp hacc
            · exfalso
              have hvk : v ∈ kept := (hkept_mem v).mpr ⟨hc, hns, hacc⟩
              rw [hkept_nil] at hvk
              simp at hvk
      have hres := ih acc (done ++ (getNeighbors g c).flatten) hnd h2
      simp only [List.map_cons, List.flatten_cons, List.append_assoc] at hres ⊢
      exact hres

theorem batchedStep_rows (g : CayleyGraph) (seen : List (List Int)) (layer1 : List Row) :
    (batchedStep g seen layer1).1 = (batchedStep g seen layer1).2.map (fun x => [x]) := rfl

theorem batchedStep_len (g : CayleyGraph) (seen : List (List Int)) (layer1 : List Row) :
    (batchedStep g seen layer1).2.length = (batchedStep g seen layer1).1.length := by
  rw [batchedStep_rows, List.length_map]

/-- The chunk list used by the batched path. -/
def batchChunks (g : CayleyGraph) (layer1 : List Row) : List (List Row) :=
  tensorSplit layer1 ((layer1.length + g.batchSize - 1) / g.batchSize)

theorem batchedStep_hashes_eq (g : CayleyGraph) (seen : List (List Int)) (layer1 : List Row) :
    (batchedStep g seen layer1).2 =
      (if ((batchChunks g layer1).foldl (batchedChunkStep g seen) []).length = 0 then []
       else sortInts ((batchChunks g layer1).foldl (batchedChunkStep g seen) []).flatten) := rfl

theorem batchedStep_fold_facts (g : CayleyGraph) (seen : List (List Int)) (layer1 : List Row) :
    ((batchChunks g layer1).foldl (batchedChunkStep g seen) []).flatten.Nodup ∧
    (∀ v, v ∈ ((batchChunks g layer1).foldl (batchedChunkStep g seen) []).flatten
      ↔ (v ∈ ((batchChunks g layer1).map (fun c => (getNeighbors g c).flatten)).flatten
          ∧ notSeen seen v = true)) := by
  have := batched_fold_inv g seen (batchChunks g layer1) [] [] (by simp) (by simp)
  simpa using this

theorem batchedStep_hashes_strict (g : CayleyGraph) (seen : List (List Int))
    (layer1 : List Row) :
    (batchedStep g seen layer1).2.Pairwise (· < ·) := by
  rw [batchedStep_hashes_eq]
  by_cases hz : ((batchChunks g layer1).foldl (batchedChunkStep g seen) []).length = 0
  · rw [if_pos hz]
    simp
  · rw [if_neg hz]
    exact sortInts_nodup_strict _ (batchedStep_fold_facts g seen layer1).1

theorem batchedStep_mem_flatten (g : CayleyGraph) (seen : List (List Int))
    (layer1 : List Row) (v : Int) :
    v ∈ (batchedStep g seen layer1).2
      ↔ (v ∈ ((batchChunks g layer1).map (fun c => (getNeighbors g c).flatten)).flatten
          ∧ notSeen seen v = true) := by
  rw [batchedStep_hashes_eq]
  by_cases hz : ((batchChunks g layer1).foldl (batchedChunkStep g seen) []).length = 0
  · rw [if_pos hz]
    have hnil : ((batchChunks g layer1).foldl (batchedChunkStep g seen) []) = [] :=
      List.length_eq_zero.mp hz
    have := (batchedStep_fold_facts g seen layer1).2 v
    rw [hnil] at this
    simp only [List.flatten_nil, List.not_mem_nil, false_iff] at this
    simp only [List.not_mem_nil, false_iff]
    exact this
  · rw [if_neg hz, sortInts_mem]
    exact (batchedStep_fold_facts g seen layer1).2 v

theorem batchedStep_not_seen (g : CayleyGraph) (seen : List (List Int)) (layer1 : List Row) :
    ∀ v ∈ (batchedStep g seen layer1).2, ∀ s ∈ seen, v ∉ s := by
  intro v hv
  exact (notSeen_iff seen v).mp ((batchedStep_mem_flatten g seen layer1 v).mp hv).2

/-- Membership in the flattened neighbor words of a row batch. -/
theorem flatten_neighbors_mem (g : CayleyGraph) (rows : List Row) (v : Int) :
    v ∈ (getNeighbors g rows).flatten
      ↔ ∃ i, i < g.n_generators ∧ ∃ s ∈ rows, v ∈ g.applyGen i s := by
  rw [List.mem_flatten]
  constructor
  · rintro ⟨row, hrow, hv⟩
    rcases (getNeighbors_mem g rows row).mp hrow with ⟨i, hi, s, hs, rfl⟩
    exact ⟨i, hi, s, hs, hv⟩
  · rintro ⟨i, hi, s, hs, hv⟩
    exact ⟨g.applyGen i s, (getNeighbors_mem g rows _).mpr ⟨i, hi, s, hs, rfl⟩, hv⟩

theorem batchChunks_flatten (g : CayleyGraph) (layer1 : List Row) (hbs : 0 < g.batchSize) :
    (batchChunks g layer1).flatten = layer1 := by
  cases hl : layer1 with
  | nil =>
    have : ∀ sizes : List Nat, (splitBySizes ([] : List Row) sizes).flatten = [] := by
      intro sizes
      induction sizes with
      | nil => simp [splitBySizes]
      | cons s rest ih => simp [splitBySizes, ih]
    simpa [batchChunks, tensorSplit] using this _
  | cons a t =>
    apply tensorSplit_flatten
    apply Nat.div_pos
    · simp only [hl, List.length_cons]
      omega
    · exact hbs

/-- The state returned when the iteration ends at the empty-layer break:
only the edge columns (general path with edges requested) and the hash dump
were updated. -/
def iterEmptySt (g : CayleyGraph) (p : BfsParams) (db : Bool) (st : LoopSt) : LoopSt :=
  let eflag := p.returnAllEdges && !(db && decide (st.layer1.length > g.batchSize))
  { st with
    edgesStarts := cond eflag (st.edgesStarts ++ [edgeBlockStarts g st.layer1Hashes])
      st.edgesStarts,
    edgesEnds := cond eflag (st.edgesEnds ++ [edgeBlockEnds g st.layer1])
      st.edgesEnds,
    allHashes := cond p.returnAllHashes (st.allHashes ++ [st.layer1Hashes])
      st.allHashes }

/-- The state after a completed (non-breaking or cap-breaking) iteration. -/
def iterNext (g : CayleyGraph) (p : BfsParams) (db : Bool) (cap i : Nat) (st : LoopSt) :
    LoopSt :=
  let eflag := p.returnAllEdges && !(db && decide (st.layer1.length > g.batchSize))
  let L2 := (iterStep g db st).1
  let H2 := (iterStep g db st).2
  let newSeen := cond g.inverseClosed
    ((st.seen ++ [H2]).drop ((st.seen ++ [H2]).length - 2))
    (st.seen ++ [H2])
  { layer1 := L2
    layer1Hashes := H2
    layerSizes := st.layerSizes ++ [L2.length]
    layers := if L2.length ≤ cap then st.layers ++ [(i, L2.map g.decodeRow)] else st.layers
    edgesStarts := cond eflag (st.edgesStarts ++ [edgeBlockStarts g st.layer1Hashes])
      st.edgesStarts
    edgesEnds := cond eflag (st.edgesEnds ++ [edgeBlockEnds g st.layer1])
      st.edgesEnds
    allHashes := cond p.returnAllHashes (st.allHashes ++ [st.layer1Hashes])
      st.allHashes
    seen := newSeen
    traceLayers := st.traceLayers ++ [L2]
    traceHashes := st.traceHashes ++ [H2]
    traceSeen := st.traceSeen ++ [newSeen] }

theorem bfsIter_empty (g : CayleyGraph) (p : BfsParams) (db : Bool) (cap i : Nat)
    (st : LoopSt) (hL2 : (iterStep g db st).1.length = 0) :
    bfsIter g p db cap i st = (iterEmptySt g p db st, some StopReason.emptyLayer) := by
  simp only [bfsIter, iterEmptySt]
  cases hE : (p.returnAllEdges && !(db && decide (st.layer1.length > g.batchSize))) <;>
    cases hH : p.returnAllHashes <;>
      simp only [hE, hH, cond_true, cond_false, hL2, if_pos]

theorem bfsIter_accept (g : CayleyGraph) (p : BfsParams) (db : Bool) (cap i : Nat)
    (st : LoopSt) (hL2 : (iterStep g db st).1.length ≠ 0) :
    bfsIter g p db cap i st = (iterNext g p db cap i st,
      if (iterStep g db st).1.length ≥ p.maxLayerSizeToExplore
      then some StopReason.exploreCap else none) := by
  simp only [bfsIter, iterNext]
  rw [if_neg hL2]
  cases hE : (p.returnAllEdges && !(db && decide (st.layer1.length > g.batchSize))) <;>
    cases hH : p.returnAllHashes <;>
      simp only [hE, hH, cond_true, cond_false] <;>
        by_cases hcap : (iterStep g db st).1.length ≥ p.maxLayerSizeToExplore <;>
          first
          | rw [if_pos hcap, if_pos hcap]
          | rw [if_neg hcap, if_neg hcap]

theorem batchedStep_mem (g : CayleyGraph) (seen : List (List Int)) (layer1 : List Row)
    (hbs : 0 < g.batchSize) (v : Int) :
    v ∈ (batchedStep g seen layer1).2
      ↔ (v ∈ (getNeighbors g layer1).flatten ∧ ∀ s ∈ seen, v ∉ s) := by
  rw [batchedStep_mem_flatten, notSeen_iff]
  apply and_congr_left
  intro _
  rw [List.mem_flatten, flatten_neighbors_mem]
  constructor
  · rintro ⟨l, hl, hv⟩
    rcases List.mem_map.mp hl with ⟨c, hc, rfl⟩
    rcases (flatten_neighbors_mem g c v).mp hv with ⟨i, hi, s, hs, hv2⟩
    refine ⟨i, hi, s, ?_, hv2⟩
    rw [← batchChunks_flatten g layer1 hbs]
    exact List.mem_flatten.mpr ⟨c, hc, hs⟩
  · rintro ⟨i, hi, s, hs, hv⟩
    rw [← batchChunks_flatten g layer1 hbs] at hs
    rcases List.mem_flatten.mp hs with ⟨c, hc, hsc⟩
    exact ⟨(getNeighbors g c).flatten, List.mem_map.mpr ⟨c, hc, rfl⟩,
      (flatten_neighbors_mem g c v).mpr ⟨i, hi, s, hsc, hv⟩⟩

/-! ### The loop invariant -/

theorem getLastD_default_irrel (l : List α) (hne : l ≠ []) (d1 d2 : α) :
    l.getLastD d1 = l.getLastD d2 := by
  cases l with
  | nil => exact absurd rfl hne
  | cons a t =>
    cases t with
    | nil => simp [List.getLastD]
    | cons b t2 => simp only [List.getLastD_cons]

theorem dropLast_append_getLastD (d : α) :
    ∀ l : List α, l ≠ [] → l.dropLast ++ [l.getLastD d] = l := by
  intro l
  induction l with
  | nil => intro h; exact absurd rfl h
  | cons a t ih =>
    intro _
    cases ht : t with
    | nil => simp [List.getLastD]
    | cons b t2 =>
      subst ht
      have hrec := ih (by simp)
      have h1 : (a :: b :: t2).dropLast = a :: (b :: t2).dropLast := rfl
      have h2 : (a :: b :: t2).getLastD d = (b :: t2).getLastD a := List.getLastD_cons ..
      rw [h1, h2, List.cons_append]
      rw [getLastD_default_irrel (b :: t2) (by simp) a d]
      rw [hrec]

/-- Seen-set contents as a function of the layer-hash history (line 221-223,
279-282): the last two layers when the generator set is inverse closed, the
full history otherwise. -/
def seenSpec (g : CayleyGraph) (hs : List (List Int)) : List (List Int) :=
  cond g.inverseClosed (hs.drop (hs.length - 2)) hs

theorem drop_lastTwo_append (A : List α) (x : α) :
    (A ++ [x]).drop ((A ++ [x]).length - 2) = A.drop (A.length - 1) ++ [x] := by
  have hlen : (A ++ [x]).length - 2 = A.length - 1 := by
    simp only [List.length_append, List.length_cons, List.length_nil]
    omega
  rw [hlen, List.drop_append_of_le_length (by omega)]

theorem lastTwo_idem_append (A : List α) (x : α) :
    ((A.drop (A.length - 2)) ++ [x]).drop (((A.drop (A.length - 2)) ++ [x]).length - 2)
      = (A ++ [x]).drop ((A ++ [x]).length - 2) := by
  rw [drop_lastTwo_append, drop_lastTwo_append]
  have h1 : (A.drop (A.length - 2)).drop ((A.drop (A.length - 2)).length - 1)
      = A.drop (A.length - 1) := by
    rw [List.length_drop, List.drop_drop]
    have : A.length - 2 + (A.length - (A.length - 2) - 1) = A.length - 1 := by omega
    rw [this]
  rw [h1]

theorem seenSpec_step (g : CayleyGraph) (A : List (List Int)) (x : List Int) :
    cond g.inverseClosed
      ((seenSpec g A ++ [x]).drop ((seenSpec g A ++ [x]).length - 2))
      (seenSpec g A ++ [x])
      = seenSpec g (A ++ [x]) := by
  unfold seenSpec
  cases g.inverseClosed with
  | false => simp
  | true =>
    simp only [cond_true]
    exact lastTwo_idem_append A x

theorem iterStep_len (g : CayleyGraph) (db : Bool) (st : LoopSt) :
    (iterStep g db st).2.length = (iterStep g db st).1.length := by
  unfold iterStep
  by_cases hb : (db && decide (st.layer1.length > g.batchSize)) = true
  · rw [if_pos hb]
    exact batchedStep_len g st.seen st.layer1
  · rw [if_neg hb]
    exact generalStep_len g st.seen st.layer1

theorem iterStep_not_seen (g : CayleyGraph) (db : Bool) (st : LoopSt) :
    ∀ v ∈ (iterStep g db st).2, ∀ s ∈ st.seen, v ∉ s := by
  unfold iterStep
  by_cases hb : (db && decide (st.layer1.length > g.batchSize)) = true
  · rw [if_pos hb]
    exact batchedStep_not_seen g st.seen st.layer1
  · rw [if_neg hb]
    exact generalStep_not_seen g st.seen st.layer1

theorem iterStep_hashes_strict (g : CayleyGraph) (db : Bool) (st : LoopSt) :
    (iterStep g db st).2.Pairwise (· < ·) := by
  unfold iterStep
  by_cases hb : (db && decide (st.layer1.length > g.batchSize)) = true
  · rw [if_pos hb]
    exact batchedStep_hashes_strict g st.seen st.layer1
  · rw [if_neg hb]
    exact generalStep_hashes_strict g st.seen st.layer1

/-- Bookkeeping invariant tying the loop state to the ghost traces. -/
structure LoopInvCore (g : CayleyGraph) (p : BfsParams) (st : LoopSt) : Prop where
  trace_ne : st.traceLayers ≠ []
  trace_len : st.traceHashes.length = st.traceLayers.length
  layer_last : st.traceLayers.getLastD [] = st.layer1
  hashes_last : st.traceHashes.getLastD [] = st.layer1Hashes
  sizes : st.layerSizes = st.traceLayers.map List.length
  lens : ∀ k, k < st.traceLayers.length →
    (st.traceHashes.getD k []).length = (st.traceLayers.getD k []).length
  seen_eq : st.seen = seenSpec g st.traceHashes
  seenT_len : st.traceSeen.length + 1 = st.traceHashes.length
  seenT : ∀ k, k < st.traceSeen.length →
    st.traceSeen.getD k [] = seenSpec g (st.traceHashes.take (k + 2))

/-- In-loop forms of the accumulator fields. -/
structure LoopInv (g : CayleyGraph) (p : BfsParams) (st : LoopSt)
    extends LoopInvCore g p st : Prop where
  allh : st.allHashes = cond p.returnAllHashes st.traceHashes.dropLast []
  estarts : st.edgesStarts
    = cond p.returnAllEdges (st.traceHashes.dropLast.map (tileList g.n_generators)) []
  eends : st.edgesEnds
    = cond p.returnAllEdges
        (st.traceLayers.dropLast.map (fun L => makeHashes g.hash (getNeighbors g L))) []

/-- Forms of the accumulator fields when the loop has returned: at the
empty-layer break the per-iteration appends ran once more without the trace
growing. -/
structure OutInv (g : CayleyGraph) (p : BfsParams) (st : LoopSt) (r : StopReason)
    extends LoopInvCore g p st : Prop where
  allh : st.allHashes = cond p.returnAllHashes
    (cond (stopCompleted r) st.traceHashes st.traceHashes.dropLast) []
  estarts : st.edgesStarts = cond p.returnAllEdges
    ((cond (stopCompleted r) st.traceHashes st.traceHashes.dropLast).map
      (tileList g.n_generators)) []
  eends : st.edgesEnds = cond p.returnAllEdges
    ((cond (stopCompleted r) st.traceLayers st.traceLayers.dropLast).map
      (fun L => makeHashes g.hash (getNeighbors g L))) []

theorem initLoopSt_inv (g : CayleyGraph) (p : BfsParams) (startEnc : List Row) :
    LoopInv g p (initLoopSt g startEnc) := by
  have hlen := getUniqueStates_lengths g.hash g.hashIsIdentity startEnc none (Or.inl rfl)
  refine ⟨⟨?_, ?_, ?_, ?_, ?_, ?_, ?_, ?_, ?_⟩, ?_, ?_, ?_⟩
  · simp [initLoopSt]
  · simp [initLoopSt]
  · simp [initLoopSt]
  · simp [initLoopSt]
  · simp [initLoopSt]
  · intro k hk
    have hk0 : k = 0 := by
      simpa [initLoopSt] using hk
    subst hk0
    simpa [initLoopSt] using hlen.1
  · simp only [initLoopSt, seenSpec]
    cases g.inverseClosed <;> simp
  · simp [initLoopSt]
  · intro k hk
    simp [initLoopSt] at hk
  · cases hr : p.returnAllHashes <;> simp [initLoopSt]
  · cases hr : p.returnAllEdges <;> simp [initLoopSt]
  · cases hr : p.returnAllEdges <;> simp [initLoopSt]

theorem getD_append_last (A : List α) (x : α) (d : α) : (A ++ [x]).getD A.length d = x := by
  rw [List.getD_append_right A [x] d A.length (le_refl _)]
  simp

theorem LoopInv.traceHashes_ne {g : CayleyGraph} {p : BfsParams} {st : LoopSt}
    (hinv : LoopInv g p st) : st.traceHashes ≠ [] := by
  intro h
  apply hinv.trace_ne
  have := hinv.trace_len
  rw [h] at this
  simpa using (List.length_eq_zero.mp this.symm)

/-- The loop invariant is preserved by an accepted iteration. -/
theorem iterNext_inv (g : CayleyGraph) (p : BfsParams) (db : Bool) (cap i : Nat)
    (st : LoopSt) (hdbe : p.returnAllEdges = true → db = false)
    (hinv : LoopInv g p st) :
    LoopInv g p (iterNext g p db cap i st) := by
  have hTHne : st.traceHashes ≠ [] := hinv.traceHashes_ne
  have hTLne : st.traceLayers ≠ [] := hinv.trace_ne
  have heflag : (p.returnAllEdges && !(db && decide (st.layer1.length > g.batchSize)))
      = p.returnAllEdges := by
    cases he : p.returnAllEdges with
    | false => simp
    | true =>
      rw [hdbe he]
      simp
  refine ⟨⟨?_, ?_, ?_, ?_, ?_, ?_, ?_, ?_, ?_⟩, ?_, ?_, ?_⟩
  · show st.traceLayers ++ [(iterStep g db st).1] ≠ []
    simp
  · show (st.traceHashes ++ [(iterStep g db st).2]).length
      = (st.traceLayers ++ [(iterStep g db st).1]).length
    simp [hinv.trace_len]
  · show (st.traceLayers ++ [(iterStep g db st).1]).getLastD [] = (iterStep g db st).1
    exact List.getLastD_concat ..
  · show (st.traceHashes ++ [(iterStep g db st).2]).getLastD [] = (iterStep g db st).2
    exact List.getLastD_concat ..
  · show st.layerSizes ++ [(iterStep g db st).1.length]
      = (st.traceLayers ++ [(iterStep g db st).1]).map List.length
    rw [List.map_append, hinv.sizes]
    rfl
  · intro k hk
    show ((st.traceHashes ++ [(iterStep g db st).2]).getD k []).length
      = ((st.traceLayers ++ [(iterStep g db st).1]).getD k []).length
    have hk2 : k < st.traceLayers.length + 1 := by
      simpa [iterNext] using hk
    rcases Nat.lt_or_ge k st.traceLayers.length with hklt | hkge
    · rw [List.getD_append _ _ _ _ (by rw [hinv.trace_len]; exact hklt),
        List.getD_append _ _ _ _ hklt]
      exact hinv.lens k hklt
    · have hkeq : k = st.traceLayers.length := by omega
      subst hkeq
      rw [show st.traceLayers.length = st.traceHashes.length from hinv.trace_len.symm,
        getD_append_last]
      rw [hinv.trace_len, getD_append_last]
      exact iterStep_len g db st
  · show (cond g.inverseClosed
        ((st.seen ++ [(iterStep g db st).2]).drop
          ((st.seen ++ [(iterStep g db st).2]).length - 2))
        (st.seen ++ [(iterStep g db st).2]))
      = seenSpec g (st.traceHashes ++ [(iterStep g db st).2])
    rw [hinv.seen_eq]
    exact seenSpec_step g st.traceHashes (iterStep g db st).2
  · show (st.traceSeen ++ [_]).length + 1 = (st.traceHashes ++ [(iterStep g db st).2]).length
    have hsl := hinv.seenT_len
    simp only [List.length_append, List.length_cons, List.length_nil]
    omega
  · intro k hk
    have hk2 : k < st.traceSeen.length + 1 := by
      simpa [iterNext] using hk
    rcases Nat.lt_or_ge k st.traceSeen.length with hklt | hkge
    · show (st.traceSeen ++ [_]).getD k []
        = seenSpec g ((st.traceHashes ++ [(iterStep g db st).2]).take (k + 2))
      rw [List.getD_append _ _ _ _ hklt]
      have hsl := hinv.seenT_len
      rw [List.take_append_of_le_length (by omega)]
      exact hinv.seenT k hklt
    · have hkeq : k = st.traceSeen.length := by omega
      subst hkeq
      show (st.traceSeen ++ [cond g.inverseClosed
          ((st.seen ++ [(iterStep g db st).2]).drop
            ((st.seen ++ [(iterStep g db st).2]).length - 2))
          (st.seen ++ [(iterStep g db st).2])]).getD st.traceSeen.length []
        = seenSpec g ((st.traceHashes ++ [(iterStep g db st).2]).take
            (st.traceSeen.length + 2))
      rw [getD_append_last]
      have hsl := hinv.seenT_len
      have htake : (st.traceHashes ++ [(iterStep g db st).2]).take (st.traceSeen.length + 2)
          = st.traceHashes ++ [(iterStep g db st).2] := by
        apply List.take_of_length_le
        simp only [List.length_append, List.length_cons, List.length_nil]
        omega
      rw [htake, hinv.seen_eq]
      exact seenSpec_step g st.traceHashes (iterStep g db st).2
  · show cond p.returnAllHashes (st.allHashes ++ [st.layer1Hashes]) st.allHashes
      = cond p.returnAllHashes (st.traceHashes ++ [(iterStep g db st).2]).dropLast []
    rw [List.dropLast_concat, hinv.allh]
    cases p.returnAllHashes with
    | false => simp
    | true =>
      simp only [cond_true]
      rw [← hinv.hashes_last]
      exact dropLast_append_getLastD [] st.traceHashes hTHne
  · show cond (p.returnAllEdges && !(db && decide (st.layer1.length > g.batchSize)))
        (st.edgesStarts ++ [edgeBlockStarts g st.layer1Hashes]) st.edgesStarts
      = cond p.returnAllEdges
        ((st.traceHashes ++ [(iterStep g db st).2]).dropLast.map (tileList g.n_generators)) []
    rw [heflag, List.dropLast_concat, hinv.estarts]
    cases p.returnAllEdges with
    | false => simp
    | true =>
      simp only [cond_true]
      rw [show edgeBlockStarts g st.layer1Hashes = tileList g.n_generators st.layer1Hashes
        from rfl]
      rw [← hinv.hashes_last]
      rw [show [tileList g.n_generators (st.traceHashes.getLastD [])]
        = List.map (tileList g.n_generators) [st.traceHashes.getLastD []] from rfl]
      rw [← List.map_append]
      rw [dropLast_append_getLastD [] st.traceHashes hTHne]
  · show cond (p.returnAllEdges && !(db && decide (st.layer1.length > g.batchSize)))
        (st.edgesEnds ++ [edgeBlockEnds g st.layer1]) st.edgesEnds
      = cond p.returnAllEdges
        ((st.traceLayers ++ [(iterStep g db st).1]).dropLast.map
          (fun L => makeHashes g.hash (getNeighbors g L))) []
    rw [heflag, List.dropLast_concat, hinv.eends]
    cases p.returnAllEdges with
    | false => simp
    | true =>
      simp only [cond_true]
      rw [show edgeBlockEnds g st.layer1 = makeHashes g.hash (getNeighbors g st.layer1)
        from rfl]
      rw [← hinv.layer_last]
      rw [show [makeHashes g.hash (getNeighbors g (st.traceLayers.getLastD []))]
        = List.map (fun L => makeHashes g.hash (getNeighbors g L))
            [st.traceLayers.getLastD []] from rfl]
      rw [← List.map_append]
      rw [dropLast_append_getLastD [] st.traceLayers hTLne]

/-- An in-loop state also satisfies the output forms for a non-completing
stop reason. -/
theorem LoopInv.toOut {g : CayleyGraph} {p : BfsParams} {st : LoopSt}
    (hinv : LoopInv g p st) (r : StopReason) (hr : stopCompleted r = false) :
    OutInv g p st r := by
  refine ⟨hinv.toLoopInvCore, ?_, ?_, ?_⟩
  · rw [hinv.allh, hr, cond_false]
  · rw [hinv.estarts, hr, cond_false]
  · rw [hinv.eends, hr, cond_false]

/-- The state at the empty-layer break satisfies the output forms for
`emptyLayer`. -/
theorem iterEmptySt_out (g : CayleyGraph) (p : BfsParams) (db : Bool) (st : LoopSt)
    (hdbe : p.returnAllEdges = true → db = false) (hinv : LoopInv g p st) :
    OutInv g p (iterEmptySt g p db st) StopReason.emptyLayer := by
  have hTHne : st.traceHashes ≠ [] := hinv.traceHashes_ne
  have hTLne : st.traceLayers ≠ [] := hinv.trace_ne
  have heflag : (p.returnAllEdges && !(db && decide (st.layer1.length > g.batchSize)))
      = p.returnAllEdges := by
    cases he : p.returnAllEdges with
    | false => simp
    | true =>
      rw [hdbe he]
      simp
  refine ⟨⟨hinv.trace_ne, hinv.trace_len, hinv.layer_last, hinv.hashes_last, hinv.sizes,
    hinv.lens, hinv.seen_eq, hinv.seenT_len, hinv.seenT⟩, ?_, ?_, ?_⟩
  · show cond p.returnAllHashes (st.allHashes ++ [st.layer1Hashes]) st.allHashes
      = cond p.returnAllHashes
        (cond (stopCompleted StopReason.emptyLayer) st.traceHashes st.traceHashes.dropLast) []
    rw [hinv.allh]
    cases p.returnAllHashes with
    | false => simp
    | true =>
      simp only [cond_true, stopCompleted]
      rw [← hinv.hashes_last]
      exact dropLast_append_getLastD [] st.traceHashes hTHne
  · show cond (p.returnAllEdges && !(db && decide (st.layer1.length > g.batchSize)))
        (st.edgesStarts ++ [edgeBlockStarts g st.layer1Hashes]) st.edgesStarts
      = cond p.returnAllEdges
        ((cond (stopCompleted StopReason.emptyLayer) st.traceHashes
          st.traceHashes.dropLast).map (tileList g.n_generators)) []
    rw [heflag, hinv.estarts]
    cases p.returnAllEdges with
    | false => simp
    | true =>
      simp only [cond_true, stopCompleted]
      rw [show edgeBlockStarts g st.layer1Hashes = tileList g.n_generators st.layer1Hashes
        from rfl]
      rw [← hinv.hashes_last]
      rw [show [tileList g.n_generators (st.traceHashes.getLastD [])]
        = List.map (tileList g.n_generators) [st.traceHashes.getLastD []] from rfl]
      rw [← List.map_append]
      rw [dropLast_append_getLastD [] st.traceHashes hTHne]
  · show cond (p.returnAllEdges && !(db && decide (st.layer1.length > g.batchSize)))
        (st.edgesEnds ++ [edgeBlockEnds g st.layer1]) st.edgesEnds
      = cond p.returnAllEdges
        ((cond (stopCompleted StopReason.emptyLayer) st.traceLayers
          st.traceLayers.dropLast).map (fun L => makeHashes g.hash (getNeighbors g L))) []
    rw [heflag, hinv.eends]
    cases p.returnAllEdges with
    | false => simp
    | true =>
      simp only [cond_true, stopCompleted]
      rw [show edgeBlockEnds g st.layer1 = makeHashes g.hash (getNeighbors g st.layer1)
        from rfl]
      rw [← hinv.layer_last]
      rw [show [makeHashes g.hash (getNeighbors g (st.traceLayers.getLastD []))]
        = List.map (fun L => makeHashes g.hash (getNeighbors g L))
            [st.traceLayers.getLastD []] from rfl]
      rw [← List.map_append]
      rw [dropLast_append_getLastD [] st.traceLayers hTLne]

theorem bfsLoop_zero (g : CayleyGraph) (p : BfsParams) (db : Bool) (cap i : Nat)
    (st : LoopSt) :
    bfsLoop g p db cap 0 i st = (st, StopReason.diameterExhausted) := rfl

theorem bfsLoop_succ_empty (g : CayleyGraph) (p : BfsParams) (db : Bool)
    (cap fuel i : Nat) (st : LoopSt) (hL : (iterStep g db st).1.length = 0) :
    bfsLoop g p db cap (fuel + 1) i st = (iterEmptySt g p db st, StopReason.emptyLayer) := by
  show (match bfsIter g p db cap i st with
    | (st2, some r) => (st2, r)
    | (st4, none) => bfsLoop g p db cap fuel (i + 1) st4) = _
  rw [bfsIter_empty g p db cap i st hL]

theorem bfsLoop_succ_cap (g : CayleyGraph) (p : BfsParams) (db : Bool)
    (cap fuel i : Nat) (st : LoopSt) (hL : (iterStep g db st).1.length ≠ 0)
    (hcap : (iterStep g db st).1.length ≥ p.maxLayerSizeToExplore) :
    bfsLoop g p db cap (fuel + 1) i st
      = (iterNext g p db cap i st, StopReason.exploreCap) := by
  show (match bfsIter g p db cap i st with
    | (st2, some r) => (st2, r)
    | (st4, none) => bfsLoop g p db cap fuel (i + 1) st4) = _
  rw [bfsIter_accept g p db cap i st hL, if_pos hcap]

theorem bfsLoop_succ_cont (g : CayleyGraph) (p : BfsParams) (db : Bool)
    (cap fuel i : Nat) (st : LoopSt) (hL : (iterStep g db st).1.length ≠ 0)
    (hcap : ¬ (iterStep g db st).1.length ≥ p.maxLayerSizeToExplore) :
    bfsLoop g p db cap (fuel + 1) i st
      = bfsLoop g p db cap fuel (i + 1) (iterNext g p db cap i st) := by
  show (match bfsIter g p db cap i st with
    | (st2, some r) => (st2, r)
    | (st4, none) => bfsLoop g p db cap fuel (i + 1) st4) = _
  rw [bfsIter_accept g p db cap i st hL, if_neg hcap]

/-- Master bookkeeping theorem for the loop: the output invariant, trace
monotonicity (new layers are nonempty), and the exploration-cap fact. -/
theorem bfsLoop_out (g : CayleyGraph) (p : BfsParams) (db : Bool) (cap : Nat)
    (hdbe : p.returnAllEdges = true → db = false) :
    ∀ fuel i st, LoopInv g p st →
      OutInv g p (bfsLoop g p db cap fuel i st).1 (bfsLoop g p db cap fuel i st).2
      ∧ (∃ ext, (bfsLoop g p db cap fuel i st).1.traceLayers = st.traceLayers ++ ext
          ∧ ∀ L ∈ ext, L ≠ [])
      ∧ (∃ exth, (bfsLoop g p db cap fuel i st).1.traceHashes = st.traceHashes ++ exth)
      ∧ ((bfsLoop g p db cap fuel i st).2 = StopReason.exploreCap →
          (bfsLoop g p db cap fuel i st).1.layerSizes.getLastD 0
            ≥ p.maxLayerSizeToExplore) := by
  intro fuel
  induction fuel with
  | zero =>
    intro i st hinv
    rw [bfsLoop_zero]
    refine ⟨hinv.toOut StopReason.diameterExhausted rfl, ⟨[], by simp⟩, ⟨[], by simp⟩, ?_⟩
    intro h
    exact absurd h (by simp)
  | succ fuel ih =>
    intro i st hinv
    by_cases hL : (iterStep g db st).1.length = 0
    · rw [bfsLoop_succ_empty g p db cap fuel i st hL]
      refine ⟨iterEmptySt_out g p db st hdbe hinv, ⟨[], by simp [iterEmptySt]⟩,
        ⟨[], by simp [iterEmptySt]⟩, ?_⟩
      intro h
      exact absurd h (by simp)
    · by_cases hcap : (iterStep g db st).1.length ≥ p.maxLayerSizeToExplore
      · rw [bfsLoop_succ_cap g p db cap fuel i st hL hcap]
        have hnext := iterNext_inv g p db cap i st hdbe hinv
        refine ⟨hnext.toOut StopReason.exploreCap rfl,
          ⟨[(iterStep g db st).1], rfl, ?_⟩, ⟨[(iterStep g db st).2], rfl⟩, ?_⟩
        · intro L hl
          rcases List.mem_singleton.mp hl with rfl
          intro hnil
          apply hL
          rw [hnil]
          rfl
        · intro _
          show (st.layerSizes ++ [(iterStep g db st).1.length]).getLastD 0
            ≥ p.maxLayerSizeToExplore
          rw [List.getLastD_concat]
          exact hcap
      · rw [bfsLoop_succ_cont g p db cap fuel i st hL hcap]
        have hnext := iterNext_inv g p db cap i st hdbe hinv
        rcases ih (i + 1) (iterNext g p db cap i st) hnext with ⟨hout, ⟨ext, hext, hne⟩,
          ⟨exth, hexth⟩, hcapfact⟩
        refine ⟨hout, ⟨(iterStep g db st).1 :: ext, ?_, ?_⟩,
          ⟨(iterStep g db st).2 :: exth, ?_⟩, hcapfact⟩
        · rw [hext]
          show st.traceLayers ++ [(iterStep g db st).1] ++ ext = _
          simp
        · intro L hl
          rcases List.mem_cons.mp hl with rfl | hl2
          · intro hnil
            apply hL
            rw [hnil]
            rfl
          · exact hne L hl2
        · rw [hexth]
          show st.traceHashes ++ [(iterStep g db st).2] ++ exth = _
          simp

theorem LoopInvCore.traceHashes_ne2 {g : CayleyGraph} {p : BfsParams} {st : LoopSt}
    (hinv : LoopInvCore g p st) : st.traceHashes ≠ [] := by
  intro h
  apply hinv.trace_ne
  have := hinv.trace_len
  rw [h] at this
  simpa using (List.length_eq_zero.mp this.symm)

theorem doBatchingOf_edges (g : CayleyGraph) (p : BfsParams)
    (he : p.returnAllEdges = true) : doBatchingOf g p = false := by
  simp [doBatchingOf, he]

/-- Output facts of the whole loop run of `bfs`. -/
theorem bfsRun_out (g : CayleyGraph) (p : BfsParams) (startEnc : List Row) :
    OutInv g p (bfsRun g p startEnc).1 (bfsRun g p startEnc).2
    ∧ (∃ ext, (bfsRun g p startEnc).1.traceLayers
        = (initLoopSt g startEnc).traceLayers ++ ext ∧ ∀ L ∈ ext, L ≠ [])
    ∧ ((bfsRun g p startEnc).2 = StopReason.exploreCap →
        (bfsRun g p startEnc).1.layerSizes.getLastD 0 ≥ p.maxLayerSizeToExplore) := by
  have hres := bfsLoop_out g p (doBatchingOf g p) (storeCapOf p)
    (doBatchingOf_edges g p) p.maxDiameter 1
    (initLoopSt g startEnc) (initLoopSt_inv g p startEnc)
  exact ⟨hres.1, hres.2.1, hres.2.2.2⟩

theorem bfs_completed_eq (g : CayleyGraph) (p : BfsParams) (startEnc : List Row) :
    (bfs g p startEnc).bfs_completed = stopCompleted (bfsRun g p startEnc).2 := rfl

theorem bfs_layer_sizes_eq (g : CayleyGraph) (p : BfsParams) (startEnc : List Row) :
    (bfs g p startEnc).layer_sizes = (bfsRun g p startEnc).1.layerSizes := rfl

theorem stopCompleted_iff (r : StopReason) :
    stopCompleted r = true ↔ r = StopReason.emptyLayer := by
  cases r <;> simp [stopCompleted]

theorem map_length_eq_of_getD (A : List (List α)) (B : List (List β))
    (hlen : A.length = B.length)
    (h : ∀ k, k < B.length → (A.getD k []).length = (B.getD k []).length) :
    A.map List.length = B.map List.length := by
  apply List.ext_getElem (by simp [hlen])
  intro i h1 h2
  simp only [List.getElem_map]
  have hiB : i < B.length := by simpa using h2
  have hiA : i < A.length := by simpa using h1
  rw [← List.getD_eq_getElem A [] hiA, ← List.getD_eq_getElem B [] hiB]
  exact h i hiB

theorem take_two_drop (l : List α) (k : Nat) (d : α) (h : k + 2 ≤ l.length) :
    (l.take (k + 2)).drop k = [l.getD k d, l.getD (k + 1) d] := by
  apply List.ext_getElem
  · simp only [List.length_drop, List.length_take, List.length_cons, List.length_nil]
    omega
  · intro i h1 h2
    have hi2 : i < 2 := by
      simpa using h2
    have hik : k + i < l.length := by omega
    have h3 : i < ((l.take (k + 2)).drop k).length := h1
    rw [List.getElem_drop]
    rw [List.getElem_take]
    interval_cases i
    · show l[k] = [l.getD k d, l.getD (k + 1) d][0]
      rw [← List.getD_eq_getElem l d (by omega)]
      rfl
    · show l[k + 1] = [l.getD k d, l.getD (k + 1) d][1]
      rw [← List.getD_eq_getElem l d (by omega)]
      rfl

/-- C1: `bfs_completed` is true exactly when the search stopped at an empty
new layer; in that case no empty layer is counted (`layer_sizes` lists the
sizes of the produced layers, all of which after layer 0 are nonempty); a
stop at the exploration cap leaves `bfs_completed = false` with `layer_sizes`
ending at the oversized layer; exhausting `max_diameter` also leaves
`bfs_completed = false`. -/
theorem claim_C1_bfs_completed_iff_empty_layer (g : CayleyGraph) (p : BfsParams)
    (startEnc : List Row) :
    ((bfs g p startEnc).bfs_completed = true
      ↔ (bfsRun g p startEnc).2 = StopReason.emptyLayer)
    ∧ (bfs g p startEnc).layer_sizes = (bfsRun g p startEnc).1.traceLayers.map List.length
    ∧ (∀ L ∈ (bfsRun g p startEnc).1.traceLayers.drop 1, L ≠ [])
    ∧ ((bfsRun g p startEnc).2 = StopReason.exploreCap →
        (bfs g p startEnc).layer_sizes.getLastD 0 ≥ p.maxLayerSizeToExplore
        ∧ (bfs g p startEnc).bfs_completed = false)
    ∧ ((bfsRun g p startEnc).2 = StopReason.diameterExhausted →
        (bfs g p startEnc).bfs_completed = false) := by
  rcases bfsRun_out g p startEnc with ⟨hout, ⟨ext, hext, hne⟩, hcap⟩
  refine ⟨?_, ?_, ?_, ?_, ?_⟩
  · rw [bfs_completed_eq]
    exact stopCompleted_iff _
  · rw [bfs_layer_sizes_eq]
    exact hout.sizes
  · intro L hl
    rw [hext] at hl
    have : (initLoopSt g startEnc).traceLayers
        = [(getUniqueStates g.hash g.hashIsIdentity startEnc none).1] := rfl
    rw [this] at hl
    simp only [List.singleton_append, List.drop_succ_cons, List.drop_zero] at hl
    exact hne L hl
  · intro hr
    refine ⟨?_, ?_⟩
    · rw [bfs_layer_sizes_eq]
      exact hcap hr
    · rw [bfs_completed_eq, hr]
      rfl
  · intro hr
    rw [bfs_completed_eq, hr]
    rfl

/-- C7: with `return_all_hashes`, `vertices_hashes` is the concatenation in
layer order of every produced layer's hash tensor, and `sum(layer_sizes)`
equals its length, whether or not the search completed. -/
theorem claim_C7_vertices_hashes_sum (g : CayleyGraph) (p : BfsParams)
    (startEnc : List Row) (hra : p.returnAllHashes = true) :
    (bfs g p startEnc).vertices_hashes
      = some ((bfsRun g p startEnc).1.traceHashes.flatten)
    ∧ (bfs g p startEnc).layer_sizes
        = (bfsRun g p startEnc).1.traceHashes.map List.length
    ∧ (bfs g p startEnc).layer_sizes.sum
        = ((bfsRun g p startEnc).1.traceHashes.flatten).length := by
  rcases bfsRun_out g p startEnc with ⟨hout, -, -⟩
  have hmapeq : (bfsRun g p startEnc).1.traceHashes.map List.length
      = (bfsRun g p startEnc).1.traceLayers.map List.length :=
    map_length_eq_of_getD _ _ hout.trace_len hout.lens
  have hsizes : (bfs g p startEnc).layer_sizes
      = (bfsRun g p startEnc).1.traceHashes.map List.length := by
    rw [bfs_layer_sizes_eq, hout.sizes, hmapeq]
  refine ⟨?_, hsizes, ?_⟩
  · show cond p.returnAllHashes
        (some (cond (p.returnAllHashes && !stopCompleted (bfsRun g p startEnc).2)
          ((bfsRun g p startEnc).1.allHashes ++ [(bfsRun g p startEnc).1.layer1Hashes])
          (bfsRun g p startEnc).1.allHashes).flatten) none
      = some ((bfsRun g p startEnc).1.traceHashes.flatten)
    rw [hra, cond_true]
    cases hc : stopCompleted (bfsRun g p startEnc).2 with
    | true =>
      simp only [Bool.and_false, Bool.not_true, cond_false]
      rw [hout.allh, hra, hc]
      rfl
    | false =>
      simp only [Bool.not_false, Bool.and_true, hra, cond_true]
      rw [hout.allh, hra, hc]
      simp only [cond_true, cond_false]
      rw [← hout.hashes_last]
      rw [dropLast_append_getLastD [] _ hout.toLoopInvCore.traceHashes_ne2]
  · rw [hsizes, List.length_flatten]

/-- C8: at the end of every completed iteration the seen set is exactly the
hash tensors of the last two produced layers when the generator set is
inverse closed, and of all produced layers otherwise. -/
theorem claim_C8_seen_set_window (g : CayleyGraph) (p : BfsParams) (startEnc : List Row) :
    ∀ k, k < (bfsRun g p startEnc).1.traceSeen.length →
      (bfsRun g p startEnc).1.traceSeen.getD k []
        = (if g.inverseClosed = true
           then [(bfsRun g p startEnc).1.traceHashes.getD k [],
                 (bfsRun g p startEnc).1.traceHashes.getD (k + 1) []]
           else (bfsRun g p startEnc).1.traceHashes.take (k + 2)) := by
  intro k hk
  rcases bfsRun_out g p startEnc with ⟨hout, -, -⟩
  have hlen : k + 2 ≤ (bfsRun g p startEnc).1.traceHashes.length := by
    have := hout.seenT_len
    omega
  rw [hout.seenT k hk]
  unfold seenSpec
  cases hic : g.inverseClosed with
  | false => simp
  | true =>
    simp only [cond_true, if_pos]
    have htlen : ((bfsRun g p startEnc).1.traceHashes.take (k + 2)).length = k + 2 := by
      rw [List.length_take]
      omega
    rw [htlen]
    show ((bfsRun g p startEnc).1.traceHashes.take (k + 2)).drop (k + 2 - 2)
      = [(bfsRun g p startEnc).1.traceHashes.getD k [],
         (bfsRun g p startEnc).1.traceHashes.getD (k + 1) []]
    have : k + 2 - 2 = k := by omega
    rw [this]
    exact take_two_drop _ k [] hlen

/-! ### Concrete fixtures (spec 8, Example 1: a 3-cycle and its square on
3 elements, central state `[0,1,2]`) -/

def wG1 : CayleyGraph :=
  { n_generators := 2
    applyGen := applyKindRow (ApplyKind.permGather [[1, 2, 0], [2, 0, 1]])
    hash := fun r => r.foldl (fun a x => a * 10 + x) 0
    hashIsIdentity := false
    encodedLengthIsOne := false
    inverseClosed := permsInverseClosed [[1, 2, 0], [2, 0, 1]]
    batchSize := 4
    decodeRow := id }

def wP1 : BfsParams :=
  { maxLayerSizeToStore := some 1000
    maxLayerSizeToExplore := 10 ^ 9
    maxDiameter := 10
    returnAllEdges := false
    returnAllHashes := true }

theorem claim_C1_witness :
    (bfs wG1 wP1 [[0, 1, 2]]).bfs_completed = true :=
  (claim_C1_bfs_completed_iff_empty_layer wG1 wP1 [[0, 1, 2]]).1.mpr (by decide)

theorem claim_C7_witness :
    (bfs wG1 wP1 [[0, 1, 2]]).vertices_hashes
      = some ((bfsRun wG1 wP1 [[0, 1, 2]]).1.traceHashes.flatten) :=
  (claim_C7_vertices_hashes_sum wG1 wP1 [[0, 1, 2]] rfl).1

theorem claim_C8_witness :
    (bfsRun wG1 wP1 [[0, 1, 2]]).1.traceSeen.getD 0 []
      = (if wG1.inverseClosed = true
         then [(bfsRun wG1 wP1 [[0, 1, 2]]).1.traceHashes.getD 0 [],
               (bfsRun wG1 wP1 [[0, 1, 2]]).1.traceHashes.getD 1 []]
         else (bfsRun wG1 wP1 [[0, 1, 2]]).1.traceHashes.take 2) :=
  claim_C8_seen_set_window wG1 wP1 [[0, 1, 2]] 0 (by decide)

/-- C4: for hashes supplied consistently or computed internally,
`get_unique_states` keeps rows with pairwise-distinct hashes, exactly one per
distinct input hash value, each being the input row of smallest index
carrying that hash; the returned index tensor selects exactly those rows and
the returned hashes are the hashes of the kept rows. -/
theorem claim_C4_get_unique_states_spec (h : Row → Int) (isId : Bool) (states : List Row)
    (suppliedHashes : Option (List Int))
    (hc : HashesConsistent h states suppliedHashes) :
    (getUniqueStates h isId states suppliedHashes).2.1.Nodup
    ∧ (∀ v, v ∈ (getUniqueStates h isId states suppliedHashes).2.1
        ↔ v ∈ makeHashes h states)
    ∧ (getUniqueStates h isId states suppliedHashes).1
        = (getUniqueStates h isId states suppliedHashes).2.2.map (fun i => states.getD i [])
    ∧ (getUniqueStates h isId states suppliedHashes).2.1
        = makeHashes h (getUniqueStates h isId states suppliedHashes).1
    ∧ (∀ u ∈ (getUniqueStates h isId states suppliedHashes).2.2,
        u < states.length
        ∧ ∀ x, x < states.length →
            h (states.getD x []) = h (states.getD u []) → u ≤ x) := by
  refine ⟨getUniqueStates_hashes_nodup h isId states suppliedHashes hc,
    getUniqueStates_hashes_mem h isId states suppliedHashes hc,
    ?_,
    getUniqueStates_hashes_map h isId states suppliedHashes hc,
    ?_⟩
  · rw [getUniqueStates_states h isId states suppliedHashes hc,
      getUniqueStates_idx h isId states suppliedHashes hc]
  · intro u hu
    rw [getUniqueStates_idx h isId states suppliedHashes hc] at hu
    have hulen : u < states.length := by
      have := uniqueIdxOf_mem_lt (makeHashes h states) u hu
      rwa [makeHashes_length] at this
    refine ⟨hulen, ?_⟩
    intro x hx hhash
    apply uniqueIdxOf_min (makeHashes h states) u hu x
    · rwa [makeHashes_length]
    · rw [hashKey, hashKey, makeHashes_getD h states x hx, makeHashes_getD h states u hulen]
      exact hhash

theorem claim_C4_witness :
    (getUniqueStates (fun r => r.headD 0) false [[5], [7], [5], [3]] none).2.1.Nodup :=
  (claim_C4_get_unique_states_spec (fun r => r.headD 0) false [[5], [7], [5], [3]] none
    (Or.inl rfl)).1

/-- C9: `get_unique_states` is idempotent up to row order — a second
application to the kept rows yields the same hash set and the same number of
rows. -/
theorem claim_C9_unique_idempotent (h : Row → Int) (isId : Bool) (x : List Row) :
    (∀ v, v ∈ (getUniqueStates h isId (getUniqueStates h isId x none).1 none).2.1
      ↔ v ∈ (getUniqueStates h isId x none).2.1)
    ∧ (getUniqueStates h isId (getUniqueStates h isId x none).1 none).2.1.length
      = (getUniqueStates h isId x none).2.1.length := by
  have hmem1 : ∀ v, v ∈ (getUniqueStates h isId (getUniqueStates h isId x none).1 none).2.1
      ↔ v ∈ (getUniqueStates h isId x none).2.1 := by
    intro v
    rw [getUniqueStates_hashes_mem h isId _ none (Or.inl rfl) v]
    rw [← getUniqueStates_hashes_map h isId x none (Or.inl rfl)]
  refine ⟨hmem1, ?_⟩
  have hnd1 : (getUniqueStates h isId x none).2.1.Nodup :=
    getUniqueStates_hashes_nodup h isId x none (Or.inl rfl)
  have hnd2 : (getUniqueStates h isId (getUniqueStates h isId x none).1 none).2.1.Nodup :=
    getUniqueStates_hashes_nodup h isId _ none (Or.inl rfl)
  have hperm : (getUniqueStates h isId (getUniqueStates h isId x none).1 none).2.1.Perm
      (getUniqueStates h isId x none).2.1 := by
    apply List.perm_of_nodup_nodup_toFinset_eq hnd2 hnd1
    apply Finset.ext
    intro a
    simp only [List.mem_toFinset]
    exact hmem1 a
  exact hperm.length_eq

/-! ### C3: generator-major layout of `get_neighbors` -/

/-- Well-formed widths per generator kind: each gather permutation has the
state width, the packed layout produces exactly the encoded word count, and
each `n×n` matrix produces an `n*m`-entry row. -/
def kindWidthOk : ApplyKind → Nat → Bool
  | ApplyKind.permGather perms, W => perms.all (fun p => p.length == W)
  | ApplyKind.permPacked w n _, W => ((n * w + 63) / 64) == W
  | ApplyKind.matrixMul _ m mats, W => mats.all (fun mx => mx.length * m == W)

theorem getD_range_map (f : Nat → α) (n i : Nat) (hi : i < n) (d : α) :
    ((List.range n).map f).getD i d = f i := by
  rw [List.getD_eq_getElem _ _ (by simpa using hi), List.getElem_map, List.getElem_range]

theorem matMulRow_length (mx : List (List Int)) (n m : Nat) (row : Row) :
    (matMulRow mx n m row).length = n * m := by
  rw [matMulRow, List.length_flatten, List.map_map]
  have hcongr : ((List.range n).map (List.length ∘ fun a =>
        (List.range m).map (fun b => ((List.range n).map (fun c =>
          (mx.getD a []).getD c 0 * row.getD (c * m + b) 0)).sum)))
      = (List.range n).map (fun _ => m) := by
    apply List.map_congr_left
    intro a _
    simp
  rw [hcongr]
  have hsum : ∀ t : List Nat, (t.map (fun _ => m)).sum = t.length * m := by
    intro t
    induction t with
    | nil => simp
    | cons a r ihr => simp [ihr, Nat.succ_mul, Nat.add_comm]
  rw [hsum, List.length_range]

theorem applyKindRow_length (kind : ApplyKind) (W : Nat)
    (hkw : kindWidthOk kind W = true) :
    ∀ i, i < kind.nGens → ∀ row, (applyKindRow kind i row).length = W := by
  intro i hi row
  cases kind with
  | permGather perms =>
    show (gatherRow (perms.getD i []) row).length = W
    rw [gatherRow, List.length_map]
    have hmem : perms.getD i [] ∈ perms := by
      rw [List.getD_eq_getElem perms [] hi]
      exact List.getElem_mem hi
    have := (List.all_eq_true.mp hkw) _ hmem
    simpa using this
  | permPacked w n perms =>
    show (implementPermutation w n (perms.getD i []) row).length = W
    rw [implementPermutation, encodeRowEnc, List.length_map, List.length_range]
    simpa [kindWidthOk] using hkw
  | matrixMul n m mats =>
    show (matMulRow (mats.getD i []) (mats.getD i []).length m row).length = W
    rw [matMulRow_length]
    have hmem : mats.getD i [] ∈ mats := by
      rw [List.getD_eq_getElem mats [] hi]
      exact List.getElem_mem hi
    have := (List.all_eq_true.mp hkw) _ hmem
    simpa using this

/-- C3: `get_neighbors` on `k` input rows returns `k * n_generators` rows of
the input width, generator-major: output row `i*k + r` is generator `i`
applied to input row `r` — packed-permutation function, column gather or
batched matrix multiplication according to the kind. -/
theorem claim_C3_get_neighbors_layout (kind : ApplyKind) (g : CayleyGraph)
    (happly : g.applyGen = applyKindRow kind)
    (hgens : g.n_generators = ApplyKind.nGens kind)
    (states : List Row) (W : Nat)
    (hw : ∀ row ∈ states, row.length = W)
    (hkw : kindWidthOk kind W = true) :
    (getNeighbors g states).length = states.length * g.n_generators
    ∧ (∀ i r, i < g.n_generators → r < states.length →
        (getNeighbors g states).getD (i * states.length + r) []
          = applyKindRow kind i (states.getD r []))
    ∧ (∀ row ∈ getNeighbors g states, row.length = W) := by
  refine ⟨?_, ?_, ?_⟩
  · rw [getNeighbors_length, Nat.mul_comm]
  · intro i r hi hr
    rw [getNeighbors]
    have hblocks : ∀ b ∈ (List.range g.n_generators).map (fun i => states.map (g.applyGen i)),
        b.length = states.length := by
      intro b hb
      rcases List.mem_map.mp hb with ⟨j, _, rfl⟩
      simp
    rw [flatten_getD_blocks [] _ states.length hblocks i r (by simpa using hi) hr]
    rw [getD_range_map _ _ _ hi]
    rw [List.getD_eq_getElem _ _ (by simpa using hr), List.getElem_map,
      ← List.getD_eq_getElem states [] hr, happly]
  · intro row hrow
    rcases (getNeighbors_mem g states row).mp hrow with ⟨i, hi, s, _, rfl⟩
    rw [happly]
    apply applyKindRow_length kind W hkw
    rw [← hgens]
    exact hi

theorem claim_C3_witness :
    (getNeighbors wG1 [[0, 1, 2], [1, 2, 0]]).getD 2 []
      = applyKindRow (ApplyKind.permGather [[1, 2, 0], [2, 0, 1]]) 1 [0, 1, 2] :=
  ((claim_C3_get_neighbors_layout (ApplyKind.permGather [[1, 2, 0], [2, 0, 1]]) wG1
    rfl rfl [[0, 1, 2], [1, 2, 0]] 3 (by decide) (by decide)).2.1) 1 0 (by decide) (by decide)

/-! ### C10: the `start_states or self.central_state` default (lines 204, 343) -/

/-- The values a caller can pass for `start_states` / `start_state`. -/
inductive PyStates where
  | pynone
  | pylist (l : List Int)
  | pyarray (data : List Int)

/-- Python truthiness of the argument, as evaluated by `or`: `None` is
falsy, a Python list is truthy iff nonempty, and a `torch.Tensor` /
`numpy.ndarray` evaluates its single element when it has exactly one and
raises `Boolean value ... is ambiguous` otherwise (documented
`Tensor.__bool__` / `ndarray.__bool__` semantics). -/
def pyTruthy : PyStates → Except String Bool
  | PyStates.pynone => Except.ok false
  | PyStates.pylist l => Except.ok (decide (l ≠ []))
  | PyStates.pyarray data =>
    if data.length = 1 then Except.ok (decide (data.getD 0 0 ≠ 0))
    else Except.error "Boolean value of Tensor with more than one element is ambiguous"

/-- `start_states or self.central_state` (line 204): short-circuit `or`,
falling back to the central state when the argument is falsy. -/
def resolveStartStates (s : PyStates) (central : List Int) : Except String (List Int) :=
  match pyTruthy s with
  | Except.error e => Except.error e
  | Except.ok false => Except.ok central
  | Except.ok true =>
    match s with
    | PyStates.pynone => Except.ok central
    | PyStates.pylist l => Except.ok l
    | PyStates.pyarray data => Except.ok data

/-- `encode_states` reshape (line 127): view the flat value as rows of
`state_size` entries. -/
def chunkRows (flat : List Int) (sz : Nat) : List Row :=
  splitBySizes flat (List.replicate (flat.length / sz) sz)

/-- `bfs` from the public boundary: evaluate the default-fallback expression
first (any exception surfaces before any search work), then encode and run. -/
def bfsFromPy (g : CayleyGraph) (p : BfsParams) (stateSize : Nat)
    (encodeRow : Row → Row) (central : List Int) (s : PyStates) :
    Except String BfsResult :=
  match resolveStartStates s central with
  | Except.error e => Except.error e
  | Except.ok flat => Except.ok (bfs g p ((chunkRows flat stateSize).map encodeRow))

/-- Steps `iStep, iStep+1, ...` of `random_walks` (lines 348-359): walk `w`
advances by the generator `genChoice iStep w` (the `torch.randint` draw,
made an explicit oracle). -/
def rwFrom (g : CayleyGraph) (genChoice : Nat → Nat → Nat) :
    Nat → List Row → Nat → List (List Row)
  | _, _, 0 => []
  | iStep, batch, Nat.succ k =>
    let nb := ((List.range batch.length).zip batch).map
      (fun q => g.applyGen (genChoice iStep q.1) q.2)
    nb :: rwFrom g genChoice (iStep + 1) nb k

/-- `random_walks` (lines 316-361) on an encoded start state: returns the
states `x` (step-major, `x[i*rw_num + w]` is walk `w` at step `i`) and the
distances `y`. -/
def randomWalks (g : CayleyGraph) (rwNum rwLength : Nat) (genChoice : Nat → Nat → Nat)
    (startEnc : Row) : List Row × List Nat :=
  if rwLength = 0 then ([], [])
  else
    let batch0 := List.replicate rwNum startEnc
    let batches := batch0 :: rwFrom g genChoice 1 batch0 (rwLength - 1)
    ((batches.flatten).map g.decodeRow,
      ((List.range rwLength).map (fun j => List.replicate rwNum j)).flatten)

/-- `random_walks` from the public boundary (line 343 evaluates
`start_state or self.central_state` first). -/
def randomWalksFromPy (g : CayleyGraph) (stateSize : Nat) (encodeRow : Row → Row)
    (rwNum rwLength : Nat) (genChoice : Nat → Nat → Nat) (central : List Int)
    (s : PyStates) : Except String (List Row × List Nat) :=
  match resolveStartStates s central with
  | Except.error e => Except.error e
  | Except.ok flat =>
    Except.ok (randomWalks g rwNum rwLength genChoice
      (((chunkRows flat stateSize).map encodeRow).flatten))

/-- C10: a tensor/array argument with more than one element makes `bfs` and
`random_walks` raise while evaluating `start_states or self.central_state`,
before any search work; `None`, an empty list and a single zero element
silently fall back to the central state; nonempty lists and truthy
single-element values are used as given. -/
theorem claim_C10_start_states_truthiness (g : CayleyGraph) (p : BfsParams)
    (stateSize : Nat) (encodeRow : Row → Row) (central : List Int)
    (rwNum rwLength : Nat) (genChoice : Nat → Nat → Nat) :
    (∀ data : List Int, 1 < data.length →
        bfsFromPy g p stateSize encodeRow central (PyStates.pyarray data)
          = Except.error "Boolean value of Tensor with more than one element is ambiguous"
        ∧ randomWalksFromPy g stateSize encodeRow rwNum rwLength genChoice central
            (PyStates.pyarray data)
          = Except.error "Boolean value of Tensor with more than one element is ambiguous")
    ∧ resolveStartStates PyStates.pynone central = Except.ok central
    ∧ resolveStartStates (PyStates.pylist []) central = Except.ok central
    ∧ resolveStartStates (PyStates.pyarray [0]) central = Except.ok central
    ∧ (∀ x : Int, x ≠ 0 →
        resolveStartStates (PyStates.pyarray [x]) central = Except.ok [x])
    ∧ (∀ l : List Int, l ≠ [] →
        resolveStartStates (PyStates.pylist l) central = Except.ok l) := by
  have herr : ∀ data : List Int, 1 < data.length →
      resolveStartStates (PyStates.pyarray data) central
        = Except.error "Boolean value of Tensor with more than one element is ambiguous" := by
    intro data hdata
    simp only [resolveStartStates, pyTruthy]
    rw [if_neg (show ¬ data.length = 1 by omega)]
  refine ⟨?_, rfl, rfl, rfl, ?_, ?_⟩
  · intro data hdata
    constructor
    · simp only [bfsFromPy]
      rw [herr data hdata]
    · simp only [randomWalksFromPy]
      rw [herr data hdata]
  · intro x hx
    simp only [resolveStartStates, pyTruthy]
    simp [hx]
  · intro l hl
    simp only [resolveStartStates, pyTruthy]
    simp [hl]

theorem claim_C10_witness :
    bfsFromPy wG1 wP1 3 id [0, 1, 2] (PyStates.pyarray [1, 2])
      = Except.error "Boolean value of Tensor with more than one element is ambiguous" :=
  ((claim_C10_start_states_truthiness wG1 wP1 3 id [0, 1, 2] 1 1 (fun _ _ => 0)).1
    [1, 2] (by decide)).1

/-! ### C6: edge export (lines 255-257 and 292-300) -/

/-- The edge pairs one non-batched iteration records for a layer `L`
(lines 255-257): sources are the layer's hashes repeated generator-major
(`layer1_hashes.repeat(n_generators)`), destinations the hashes of all
neighbors taken before deduplication. -/
def blockPairs (g : CayleyGraph) (L : List Row) : List (Int × Int) :=
  (tileList g.n_generators (makeHashes g.hash L)).zip
    (makeHashes g.hash (getNeighbors g L))

theorem tileList_length (n : Nat) (l : List Int) :
    (tileList n l).length = n * l.length := by
  unfold tileList
  induction n with
  | zero => simp
  | succ m ih =>
    rw [List.replicate_succ, List.flatten_cons, List.length_append, ih,
      Nat.succ_mul, Nat.add_comm]

theorem tileList_nil (n : Nat) : tileList n [] = [] := by
  have h := tileList_length n []
  simp only [List.length_nil, Nat.mul_zero] at h
  exact List.length_eq_zero.mp h

theorem getNeighbors_nil (g : CayleyGraph) : getNeighbors g [] = [] := by
  have h := getNeighbors_length g []
  simp only [List.length_nil, Nat.mul_zero] at h
  exact List.length_eq_zero.mp h

theorem blockPairs_nil (g : CayleyGraph) : blockPairs g [] = [] := by
  unfold blockPairs
  rw [getNeighbors_nil]
  exact List.zip_nil_right

/-- The mirrored copy of a block (lines 296-299 swap the two columns). -/
theorem blockPairs_swap (g : CayleyGraph) (L : List Row) :
    (blockPairs g L).map Prod.swap
      = (makeHashes g.hash (getNeighbors g L)).zip
          (tileList g.n_generators (makeHashes g.hash L)) := by
  unfold blockPairs
  exact List.zip_swap _ _

theorem blockPairs_len_eq (g : CayleyGraph) (L : List Row) :
    (tileList g.n_generators (makeHashes g.hash L)).length
      = (makeHashes g.hash (getNeighbors g L)).length := by
  rw [tileList_length, makeHashes_length, makeHashes_length, getNeighbors_length]

theorem blockPairs_length (g : CayleyGraph) (L : List Row) :
    (blockPairs g L).length = g.n_generators * L.length := by
  rw [blockPairs, List.length_zip, tileList_length, makeHashes_length,
    makeHashes_length, getNeighbors_length]
  exact min_self _

/-- `Tensor.repeat` layout: entry `i * len + q` of the tiled list is entry
`q` of the original. -/
theorem tileList_getD (n : Nat) (l : List Int) (i q : Nat) (hi : i < n)
    (hq : q < l.length) :
    (tileList n l).getD (i * l.length + q) 0 = l.getD q 0 := by
  unfold tileList
  have hb : ∀ b ∈ List.replicate n l, b.length = l.length := by
    intro b hbm
    rw [List.eq_of_mem_replicate hbm]
  rw [flatten_getD_blocks 0 (List.replicate n l) l.length hb i q (by simpa using hi) hq]
  have hrep : (List.replicate n l).getD i [] = l := by
    rw [List.getD_eq_getElem _ [] (by simpa using hi), List.getElem_replicate]
  rw [hrep]

/-- Generator-major layout of the pre-deduplication neighbor hashes. -/
theorem neighborsHashes_getD (g : CayleyGraph) (L : List Row) (i q : Nat)
    (hi : i < g.n_generators) (hq : q < L.length) :
    (makeHashes g.hash (getNeighbors g L)).getD (i * L.length + q) 0
      = g.hash (g.applyGen i (L.getD q [])) := by
  unfold makeHashes getNeighbors
  rw [List.map_flatten, List.map_map]
  have hcomp : (List.map g.hash ∘ fun j => L.map (g.applyGen j))
      = fun j => (L.map (g.applyGen j)).map g.hash := rfl
  rw [hcomp]
  have hb : ∀ b ∈ (List.range g.n_generators).map
      (fun j => (L.map (g.applyGen j)).map g.hash), b.length = L.length := by
    intro b hbm
    rcases List.mem_map.mp hbm with ⟨j, _, rfl⟩
    simp
  rw [flatten_getD_blocks 0 _ L.length hb i q (by simpa using hi) hq]
  rw [getD_range_map (fun j => (L.map (g.applyGen j)).map g.hash) g.n_generators i hi]
  have hq2 : q < ((L.map (g.applyGen i)).map g.hash).length := by simpa using hq
  rw [List.getD_eq_getElem _ 0 hq2, List.getElem_map, List.getElem_map,
    List.getD_eq_getElem L [] hq]

theorem zip_getD (a b : List Int) (j : Nat) (hja : j < a.length) (hjb : j < b.length) :
    (a.zip b).getD j ((0 : Int), (0 : Int)) = (a.getD j 0, b.getD j 0) := by
  have hj : j < (a.zip b).length := by
    rw [List.length_zip]
    exact lt_min hja hjb
  rw [List.getD_eq_getElem _ _ hj, List.getElem_zip, List.getD_eq_getElem a 0 hja,
    List.getD_eq_getElem b 0 hjb]

/-- `tileList_getD` with the block length given by an equation. -/
theorem tileList_getD2 (n : Nat) (l : List Int) (len i q : Nat) (hlen : l.length = len)
    (hi : i < n) (hq : q < len) :
    (tileList n l).getD (i * len + q) 0 = l.getD q 0 := by
  subst hlen
  exact tileList_getD n l i q hi hq

theorem blockPairs_getD (g : CayleyGraph) (L : List Row) (i q : Nat)
    (hi : i < g.n_generators) (hq : q < L.length) :
    (blockPairs g L).getD (i * L.length + q) ((0 : Int), (0 : Int))
      = (g.hash (L.getD q []), g.hash (g.applyGen i (L.getD q []))) := by
  have hidx : i * L.length + q < g.n_generators * L.length := by
    have h1 : i * L.length + q < (i + 1) * L.length := by
      rw [Nat.succ_mul]
      omega
    have h2 : (i + 1) * L.length ≤ g.n_generators * L.length :=
      Nat.mul_le_mul_right L.length hi
    omega
  have ht : i * L.length + q < (tileList g.n_generators (makeHashes g.hash L)).length := by
    rw [tileList_length, makeHashes_length]
    exact hidx
  have hn : i * L.length + q < (makeHashes g.hash (getNeighbors g L)).length := by
    rw [makeHashes_length, getNeighbors_length]
    exact hidx
  unfold blockPairs
  rw [zip_getD _ _ _ ht hn]
  rw [tileList_getD2 g.n_generators (makeHashes g.hash L) L.length i q
    (makeHashes_length g.hash L) hi hq]
  rw [neighborsHashes_getD g L i q hi hq]
  rw [makeHashes_getD g.hash L q hq]

/-- Zipping two flattened block lists whose blocks pair up with equal
lengths zips blockwise. -/
theorem zip_flatten_blocks :
    ∀ A B : List (List Int), A.length = B.length →
      (∀ k, k < A.length → (A.getD k []).length = (B.getD k []).length) →
      A.flatten.zip B.flatten = (List.zipWith List.zip A B).flatten := by
  intro A
  induction A with
  | nil =>
    intro B hlen _
    have hB : B = [] := List.length_eq_zero.mp hlen.symm
    subst hB
    rfl
  | cons a A ih =>
    intro B hlen hk
    cases B with
    | nil => simp at hlen
    | cons b B =>
      have hab : a.length = b.length := by
        have h0 := hk 0 (by simp)
        simpa using h0
      simp only [List.flatten_cons, List.zipWith_cons_cons]
      rw [List.zip_append hab]
      congr 1
      apply ih B (by simpa using hlen)
      intro k hkk
      have h1 := hk (k + 1) (by simpa using Nat.succ_lt_succ hkk)
      simpa using h1

theorem zipWith_zip_map (f f2 : List Row → List Int) :
    ∀ l : List (List Row), List.zipWith List.zip (l.map f) (l.map f2)
      = l.map (fun x => (f x).zip (f2 x)) := by
  intro l
  induction l with
  | nil => rfl
  | cons a t ih => simp only [List.map_cons, List.zipWith_cons_cons, ih]

theorem getD_map_lists (f : List γ → List β) (l : List (List γ)) (k : Nat)
    (hk : k < l.length) : (l.map f).getD k [] = f (l.getD k []) := by
  have hk2 : k < (l.map f).length := by simpa using hk
  rw [List.getD_eq_getElem (l.map f) [] hk2, List.getElem_map,
    List.getD_eq_getElem l [] hk]

theorem getLastD_map_gen (f : List γ → List β) :
    ∀ (l : List (List γ)) (d : List γ), (l.map f).getLastD (f d) = f (l.getLastD d) := by
  intro l
  induction l with
  | nil => intro d; rfl
  | cons a t ih =>
    intro d
    rw [List.map_cons, List.getLastD_cons, List.getLastD_cons]
    exact ih a

theorem getLastD_map_ne (f : List γ → List β) (l : List (List γ)) (hne : l ≠ []) :
    (l.map f).getLastD [] = f (l.getLastD []) := by
  cases l with
  | nil => exact absurd rfl hne
  | cons a t =>
    rw [List.map_cons, List.getLastD_cons, List.getLastD_cons]
    exact getLastD_map_gen f t a

/-- With batching disabled every iteration takes the general path. -/
theorem iterStep_no_batching (g : CayleyGraph) (st : LoopSt) :
    iterStep g false st = generalStep g st.seen st.layer1 := by
  simp [iterStep]

/-- Ghost bookkeeping on runs that never take the batched path: each trace
hash tensor is the hash image of its layer (line 262 in both branches,
together with line 205 for layer 0). -/
def HashesAre (g : CayleyGraph) (st : LoopSt) : Prop :=
  st.traceHashes = st.traceLayers.map (makeHashes g.hash)

theorem iterNext_hashesAre (g : CayleyGraph) (p : BfsParams) (cap i : Nat)
    (st : LoopSt) (h : HashesAre g st) : HashesAre g (iterNext g p false cap i st) := by
  show st.traceHashes ++ [(iterStep g false st).2]
    = (st.traceLayers ++ [(iterStep g false st).1]).map (makeHashes g.hash)
  rw [List.map_append, ← h]
  congr 1
  rw [List.map_cons, List.map_nil]
  show [(generalStep g st.seen st.layer1).2] = [makeHashes g.hash (generalStep g st.seen st.layer1).1]
  rw [generalStep_hashes]

theorem iterEmptySt_hashesAre (g : CayleyGraph) (p : BfsParams) (db : Bool)
    (st : LoopSt) (h : HashesAre g st) : HashesAre g (iterEmptySt g p db st) := h

theorem bfsLoop_hashesAre (g : CayleyGraph) (p : BfsParams) (cap : Nat) :
    ∀ fuel i st, HashesAre g st →
      HashesAre g (bfsLoop g p false cap fuel i st).1 := by
  intro fuel
  induction fuel with
  | zero =>
    intro i st h
    rw [bfsLoop_zero]
    exact h
  | succ fuel ih =>
    intro i st h
    by_cases hL : (iterStep g false st).1.length = 0
    · rw [bfsLoop_succ_empty g p false cap fuel i st hL]
      exact iterEmptySt_hashesAre g p false st h
    · by_cases hcap : (iterStep g false st).1.length ≥ p.maxLayerSizeToExplore
      · rw [bfsLoop_succ_cap g p false cap fuel i st hL hcap]
        exact iterNext_hashesAre g p cap i st h
      · rw [bfsLoop_succ_cont g p false cap fuel i st hL hcap]
        exact ih (i + 1) _ (iterNext_hashesAre g p cap i st h)

theorem initLoopSt_hashesAre (g : CayleyGraph) (startEnc : List Row) :
    HashesAre g (initLoopSt g startEnc) := by
  show [(getUniqueStates g.hash g.hashIsIdentity startEnc none).2.1]
    = [(getUniqueStates g.hash g.hashIsIdentity startEnc none).1].map (makeHashes g.hash)
  rw [List.map_cons, List.map_nil,
    getUniqueStates_hashes_map g.hash g.hashIsIdentity startEnc none (Or.inl rfl)]

theorem bfsRun_hashesAre (g : CayleyGraph) (p : BfsParams) (startEnc : List Row)
    (he : p.returnAllEdges = true) : HashesAre g (bfsRun g p startEnc).1 := by
  unfold bfsRun
  rw [doBatchingOf_edges g p he]
  exact bfsLoop_hashesAre g p (storeCapOf p) p.maxDiameter 1 _
    (initLoopSt_hashesAre g startEnc)

/-- Lines 292-300 as a function of the loop state. -/
theorem bfsFinish_edges (g : CayleyGraph) (p : BfsParams) (st : LoopSt) (r : StopReason)
    (he : p.returnAllEdges = true) :
    (bfsFinish g p (st, r)).edges_list_hashes
      = some (((cond (!stopCompleted r) (st.edgesStarts ++ [st.edgesEnds.getLastD []])
            st.edgesStarts).flatten).zip
          ((cond (!stopCompleted r) (st.edgesEnds ++ [st.edgesStarts.getLastD []])
            st.edgesEnds).flatten)) := by
  show cond p.returnAllEdges
      (some (((cond (!stopCompleted r) (st.edgesStarts ++ [st.edgesEnds.getLastD []])
          st.edgesStarts).flatten).zip
        ((cond (!stopCompleted r) (st.edgesEnds ++ [st.edgesStarts.getLastD []])
          st.edgesEnds).flatten)))
      none = _
  rw [he, cond_true]

/-- The exported edge list, assembled from the trace: the recorded blocks of
all explored layers, plus the mirrored last block when the search was
truncated. -/
theorem edges_assemble (g : CayleyGraph) (p : BfsParams) (st : LoopSt) (r : StopReason)
    (he : p.returnAllEdges = true) (hout : OutInv g p st r) (hha : HashesAre g st) :
    (bfsFinish g p (st, r)).edges_list_hashes
      = some (((cond (stopCompleted r) st.traceLayers st.traceLayers.dropLast).map
            (blockPairs g)).flatten
          ++ cond (stopCompleted r) []
              ((blockPairs g ((cond (stopCompleted r) st.traceLayers
                  st.traceLayers.dropLast).getLastD [])).map Prod.swap)) := by
  rw [bfsFinish_edges g p st r he]
  have hestarts : st.edgesStarts
      = (cond (stopCompleted r) st.traceLayers st.traceLayers.dropLast).map
          (fun L => tileList g.n_generators (makeHashes g.hash L)) := by
    have h1 := hout.estarts
    rw [he, cond_true] at h1
    rw [h1, hha]
    cases stopCompleted r
    · rw [cond_false, cond_false, ← List.map_dropLast, List.map_map]
      rfl
    · rw [cond_true, cond_true, List.map_map]
      rfl
  have heends : st.edgesEnds
      = (cond (stopCompleted r) st.traceLayers st.traceLayers.dropLast).map
          (fun L => makeHashes g.hash (getNeighbors g L)) := by
    have h1 := hout.eends
    rw [he, cond_true] at h1
    exact h1
  cases hc : stopCompleted r with
  | true =>
    rw [hc] at hestarts heends
    rw [cond_true] at hestarts heends
    simp only [Bool.not_true, cond_false, cond_true]
    rw [hestarts, heends, List.append_nil]
    rw [zip_flatten_blocks _ _ (by simp) ?hlens]
    case hlens =>
      intro k hk
      have hkT : k < st.traceLayers.length := by simpa using hk
      rw [getD_map_lists _ _ _ hkT, getD_map_lists _ _ _ hkT]
      exact blockPairs_len_eq g _
    rw [zipWith_zip_map]
    rfl
  | false =>
    rw [hc] at hestarts heends
    rw [cond_false] at hestarts heends
    simp only [Bool.not_false, cond_true, cond_false]
    by_cases hT : st.traceLayers.dropLast = []
    · rw [hestarts, heends, hT]
      simp only [List.map_nil, List.nil_append, List.getLastD_nil, List.flatten_nil,
        List.flatten_cons, List.flatten_append]
      rw [blockPairs_nil]
      simp
    · have hlastE : st.edgesEnds.getLastD []
          = makeHashes g.hash (getNeighbors g (st.traceLayers.dropLast.getLastD [])) := by
        rw [heends]
        exact getLastD_map_ne _ _ hT
      have hlastS : st.edgesStarts.getLastD []
          = tileList g.n_generators
              (makeHashes g.hash (st.traceLayers.dropLast.getLastD [])) := by
        rw [hestarts]
        exact getLastD_map_ne _ _ hT
      rw [blockPairs_swap g]
      rw [hlastE, hlastS, hestarts, heends]
      rw [zip_flatten_blocks _ _ (by simp) ?hlens2]
      case hlens2 =>
        intro k hk
        have hk2 : k < st.traceLayers.dropLast.length + 1 := by simpa using hk
        rcases Nat.lt_or_ge k st.traceLayers.dropLast.length with hk3 | hk3
        · rw [List.getD_append _ _ [] k (by simpa using hk3),
            List.getD_append _ _ [] k (by simpa using hk3)]
          rw [getD_map_lists _ _ _ hk3, getD_map_lists _ _ _ hk3]
          exact blockPairs_len_eq g _
        · have hke : k = st.traceLayers.dropLast.length := by omega
          rw [List.getD_append_right _ _ [] k (by simpa using hk3),
            List.getD_append_right _ _ [] k (by simpa using hk3)]
          subst hke
          simp only [List.length_map, Nat.sub_self, List.getD_cons_zero]
          exact (blockPairs_len_eq g _).symm
      rw [List.zipWith_append List.zip _ _ _ _ (by simp), List.flatten_append,
        zipWith_zip_map]
      simp only [List.zipWith_cons_cons, List.zipWith_nil_left, List.flatten_cons,
        List.flatten_nil, List.append_nil]
      rfl

/-- C6: with `return_all_edges = true`, `edges_list_hashes` is the
concatenation, in layer order, of one block per explored layer — each block
holding, generator-major, the pair (hash of source row, hash of its
neighbor under that generator) for every row of the layer and every
generator, with destination hashes taken before deduplication — followed,
when the search ended without full exploration, by a reversed copy of the
final recorded block, so the exported adjacency is symmetric at the
truncated frontier.  Block `blockPairs g L` has exactly
`n_generators * |L|` pairs, and its pair at offset `i * |L| + q` is
`(hash L[q], hash (applyGen i L[q]))`. -/
theorem claim_C6_edges_export (g : CayleyGraph) (p : BfsParams) (startEnc : List Row)
    (he : p.returnAllEdges = true) :
    ((bfs g p startEnc).edges_list_hashes
      = some (((cond (bfs g p startEnc).bfs_completed
            (bfsRun g p startEnc).1.traceLayers
            (bfsRun g p startEnc).1.traceLayers.dropLast).map (blockPairs g)).flatten
        ++ cond (bfs g p startEnc).bfs_completed []
            ((blockPairs g ((cond (bfs g p startEnc).bfs_completed
                (bfsRun g p startEnc).1.traceLayers
                (bfsRun g p startEnc).1.traceLayers.dropLast).getLastD [])).map
              Prod.swap)))
    ∧ (∀ L : List Row, (blockPairs g L).length = g.n_generators * L.length)
    ∧ (∀ (L : List Row) (i q : Nat), i < g.n_generators → q < L.length →
        (blockPairs g L).getD (i * L.length + q) ((0 : Int), (0 : Int))
          = (g.hash (L.getD q []), g.hash (g.applyGen i (L.getD q [])))) := by
  refine ⟨?_, blockPairs_length g, ?_⟩
  · rcases bfsRun_out g p startEnc with ⟨hout, -, -⟩
    have hha := bfsRun_hashesAre g p startEnc he
    exact edges_assemble g p (bfsRun g p startEnc).1 (bfsRun g p startEnc).2 he hout hha
  · intro L i q hi hq
    exact blockPairs_getD g L i q hi hq

/-- Example 5 fixture: two one-entry states `[1]` and `[10]` swapped by the
single generator; the hash of a one-entry row is its entry. -/
def exG6 : CayleyGraph :=
  { n_generators := 1
    applyGen := fun _ r => [11 - r.headD 0]
    hash := fun r => r.headD 0
    hashIsIdentity := false
    encodedLengthIsOne := false
    inverseClosed := false
    batchSize := 4
    decodeRow := id }

def exP6 : BfsParams :=
  { maxLayerSizeToStore := some 1000
    maxLayerSizeToExplore := 10 ^ 9
    maxDiameter := 10
    returnAllEdges := true
    returnAllHashes := false }

theorem claim_C6_witness :
    (bfs exG6 exP6 [[1]]).edges_list_hashes = some [(1, 10), (10, 1)]
    ∧ (1, 10) ∈ [((1 : Int), (10 : Int)), (10, 1)]
    ∧ (10, 1) ∈ [((1 : Int), (10 : Int)), (10, 1)] := by
  refine ⟨?_, by decide, by decide⟩
  have h := (claim_C6_edges_export exG6 exP6 [[1]] rfl).1
  rw [h]
  decide

/-! ### C5: the batched path refines the general path (lines 217-251 vs
253-262) -/

/-- A batch of one-word (already encoded, `encoded_length == 1`) rows. -/
def Rows1 (rows : List Row) : Prop := ∀ r ∈ rows, r.length = 1

/-- In the one-word regime the hash of a neighbor batch is its flattening:
the hasher of a single-word state is the word itself. -/
theorem makeHashes_eq_flatten (g : CayleyGraph) (h1 : ∀ x : Int, g.hash [x] = x) :
    ∀ rows : List Row, Rows1 rows → makeHashes g.hash rows = rows.flatten := by
  intro rows
  induction rows with
  | nil => intro _; rfl
  | cons a t ih =>
    intro hr
    obtain ⟨x, rfl⟩ := List.length_eq_one.mp (hr a (List.mem_cons_self a t))
    show g.hash [x] :: makeHashes g.hash t = [x] ++ t.flatten
    rw [h1 x, ih (fun r hrr => hr r (List.mem_cons_of_mem _ hrr))]
    rfl

theorem getNeighbors_rows1 (g : CayleyGraph)
    (hw : ∀ (i : Nat) (x : Int), (g.applyGen i [x]).length = 1)
    (layer1 : List Row) (hl : Rows1 layer1) : Rows1 (getNeighbors g layer1) := by
  intro r hr
  rcases (getNeighbors_mem g layer1 r).mp hr with ⟨i, _, s, hs, rfl⟩
  obtain ⟨x, rfl⟩ := List.length_eq_one.mp (hl s hs)
  exact hw i x

theorem generalStep_rows1 (g : CayleyGraph) (seen : List (List Int)) (layer1 : List Row)
    (hw : ∀ (i : Nat) (x : Int), (g.applyGen i [x]).length = 1)
    (hl : Rows1 layer1) : Rows1 (generalStep g seen layer1).1 := by
  intro r hr
  exact getNeighbors_rows1 g hw layer1 hl r (generalStep_rows_sub g seen layer1 r hr)

/-- In the one-word regime the general path also rebuilds its rows from its
hashes (line 262 vs line 252). -/
theorem generalStep_rows_one (g : CayleyGraph) (seen : List (List Int))
    (layer1 : List Row) (h1 : ∀ x : Int, g.hash [x] = x)
    (hw : ∀ (i : Nat) (x : Int), (g.applyGen i [x]).length = 1)
    (hl : Rows1 layer1) :
    (generalStep g seen layer1).2.map (fun x => [x]) = (generalStep g seen layer1).1 := by
  rw [generalStep_hashes, makeHashes, List.map_map]
  have hone : ∀ r ∈ (generalStep g seen layer1).1, ((fun x => [x]) ∘ g.hash) r = id r := by
    intro r hr
    obtain ⟨x, rfl⟩ := List.length_eq_one.mp (generalStep_rows1 g seen layer1 hw hl r hr)
    show [g.hash [x]] = [x]
    rw [h1 x]
  rw [List.map_congr_left hone, List.map_id]

/-- The specialized chunked computation produces exactly the general path's
output in the one-word regime. -/
theorem batchedStep_eq_generalStep (g : CayleyGraph) (seen : List (List Int))
    (layer1 : List Row) (h1 : ∀ x : Int, g.hash [x] = x)
    (hw : ∀ (i : Nat) (x : Int), (g.applyGen i [x]).length = 1)
    (hl : Rows1 layer1) (hbs : 0 < g.batchSize) :
    batchedStep g seen layer1 = generalStep g seen layer1 := by
  have hmf : makeHashes g.hash (getNeighbors g layer1) = (getNeighbors g layer1).flatten :=
    makeHashes_eq_flatten g h1 _ (getNeighbors_rows1 g hw layer1 hl)
  have hhash : (batchedStep g seen layer1).2 = (generalStep g seen layer1).2 := by
    apply sorted_strict_eq_of_mem_iff _ _ (batchedStep_hashes_strict g seen layer1)
      (generalStep_hashes_strict g seen layer1)
    intro v
    rw [batchedStep_mem g seen layer1 hbs v, generalStep_mem g seen layer1 v, hmf]
  have hrows : (batchedStep g seen layer1).1 = (generalStep g seen layer1).1 := by
    rw [batchedStep_rows, hhash, generalStep_rows_one g seen layer1 h1 hw hl]
  exact Prod.ext hrows hhash

theorem iterStep_eq_general (g : CayleyGraph) (st : LoopSt)
    (h1 : ∀ x : Int, g.hash [x] = x)
    (hw : ∀ (i : Nat) (x : Int), (g.applyGen i [x]).length = 1)
    (hl : Rows1 st.layer1) (hbs : 0 < g.batchSize) :
    iterStep g true st = generalStep g st.seen st.layer1 := by
  unfold iterStep
  by_cases hgt : st.layer1.length > g.batchSize
  · rw [if_pos (by simp [hgt])]
    exact batchedStep_eq_generalStep g st.seen st.layer1 h1 hw hl hbs
  · rw [if_neg (by simp [hgt])]

theorem iterStep_eq_db (g : CayleyGraph) (st : LoopSt)
    (h1 : ∀ x : Int, g.hash [x] = x)
    (hw : ∀ (i : Nat) (x : Int), (g.applyGen i [x]).length = 1)
    (hl : Rows1 st.layer1) (hbs : 0 < g.batchSize) :
    iterStep g true st = iterStep g false st := by
  rw [iterStep_no_batching]
  exact iterStep_eq_general g st h1 hw hl hbs

theorem iterNext_eq_db (g : CayleyGraph) (p : BfsParams) (cap i : Nat) (st : LoopSt)
    (hedges : p.returnAllEdges = false)
    (hstep : iterStep g true st = iterStep g false st) :
    iterNext g p true cap i st = iterNext g p false cap i st := by
  simp only [iterNext, hedges, Bool.false_and, cond_false, hstep]

theorem iterEmptySt_eq_db (g : CayleyGraph) (p : BfsParams) (st : LoopSt)
    (hedges : p.returnAllEdges = false) :
    iterEmptySt g p true st = iterEmptySt g p false st := by
  simp only [iterEmptySt, hedges, Bool.false_and, cond_false]

theorem iterNext_rows1 (g : CayleyGraph) (p : BfsParams) (cap i : Nat) (st : LoopSt)
    (hw : ∀ (i : Nat) (x : Int), (g.applyGen i [x]).length = 1)
    (hl : Rows1 st.layer1) : Rows1 (iterNext g p false cap i st).layer1 := by
  show Rows1 (iterStep g false st).1
  rw [iterStep_no_batching]
  exact generalStep_rows1 g st.seen st.layer1 hw hl

/-- One-word loop equivalence: chunking, per-chunk dedup and cross-chunk
masking give the same run as the general path, iteration by iteration. -/
theorem bfsLoop_eq_db (g : CayleyGraph) (p : BfsParams) (cap : Nat)
    (h1 : ∀ x : Int, g.hash [x] = x)
    (hw : ∀ (i : Nat) (x : Int), (g.applyGen i [x]).length = 1)
    (hbs : 0 < g.batchSize) (hedges : p.returnAllEdges = false) :
    ∀ fuel i st, Rows1 st.layer1 →
      bfsLoop g p true cap fuel i st = bfsLoop g p false cap fuel i st := by
  intro fuel
  induction fuel with
  | zero => intro i st _; rfl
  | succ fuel ih =>
    intro i st hst
    have hstep : iterStep g true st = iterStep g false st :=
      iterStep_eq_db g st h1 hw hst hbs
    by_cases hL : (iterStep g false st).1.length = 0
    · have hLt : (iterStep g true st).1.length = 0 := by rw [hstep]; exact hL
      rw [bfsLoop_succ_empty g p true cap fuel i st hLt,
        bfsLoop_succ_empty g p false cap fuel i st hL,
        iterEmptySt_eq_db g p st hedges]
    · have hLt : (iterStep g true st).1.length ≠ 0 := by rw [hstep]; exact hL
      by_cases hcap : (iterStep g false st).1.length ≥ p.maxLayerSizeToExplore
      · have hcapt : (iterStep g true st).1.length ≥ p.maxLayerSizeToExplore := by
          rw [hstep]; exact hcap
        rw [bfsLoop_succ_cap g p true cap fuel i st hLt hcapt,
          bfsLoop_succ_cap g p false cap fuel i st hL hcap,
          iterNext_eq_db g p cap i st hedges hstep]
      · have hcapt : ¬ (iterStep g true st).1.length ≥ p.maxLayerSizeToExplore := by
          rw [hstep]; exact hcap
        rw [bfsLoop_succ_cont g p true cap fuel i st hLt hcapt,
          bfsLoop_succ_cont g p false cap fuel i st hL hcap,
          iterNext_eq_db g p cap i st hedges hstep]
        exact ih (i + 1) _ (iterNext_rows1 g p cap i st hw hst)

theorem initLoopSt_rows1 (g : CayleyGraph) (startEnc : List Row)
    (hs : Rows1 startEnc) : Rows1 (initLoopSt g startEnc).layer1 := by
  intro r hr
  exact hs r (getUniqueStates_states_subset g.hash g.hashIsIdentity startEnc none
    (Or.inl rfl) r hr)

/-- C5: in the one-word regime (single-word encoded states hashed to their
word, generators preserving the one-word shape) with edge export off, the
specialized chunked path (`do_batching`, taken when the layer exceeds the
batch size) runs to exactly the same loop state and stop reason as the
general per-layer path — in particular the same `layer_sizes`, the same
per-layer hash tensors, and the same `bfs_completed`; and `bfs` itself (which
enables batching exactly in this regime) returns what the general path
returns. -/
theorem claim_C5_batched_equiv (g : CayleyGraph) (p : BfsParams) (startEnc : List Row)
    (h1 : ∀ x : Int, g.hash [x] = x)
    (hw : ∀ (i : Nat) (x : Int), (g.applyGen i [x]).length = 1)
    (hs : Rows1 startEnc) (hbs : 0 < g.batchSize)
    (hedges : p.returnAllEdges = false) :
    bfsLoop g p true (storeCapOf p) p.maxDiameter 1 (initLoopSt g startEnc)
      = bfsLoop g p false (storeCapOf p) p.maxDiameter 1 (initLoopSt g startEnc)
    ∧ (bfsLoop g p true (storeCapOf p) p.maxDiameter 1 (initLoopSt g startEnc)).1.layerSizes
      = (bfsLoop g p false (storeCapOf p) p.maxDiameter 1 (initLoopSt g startEnc)).1.layerSizes
    ∧ (bfsLoop g p true (storeCapOf p) p.maxDiameter 1 (initLoopSt g startEnc)).1.traceHashes
      = (bfsLoop g p false (storeCapOf p) p.maxDiameter 1 (initLoopSt g startEnc)).1.traceHashes
    ∧ stopCompleted
        (bfsLoop g p true (storeCapOf p) p.maxDiameter 1 (initLoopSt g startEnc)).2
      = stopCompleted
        (bfsLoop g p false (storeCapOf p) p.maxDiameter 1 (initLoopSt g startEnc)).2
    ∧ (g.encodedLengthIsOne = true →
        bfs g p startEnc
          = bfsFinish g p
              (bfsLoop g p false (storeCapOf p) p.maxDiameter 1 (initLoopSt g startEnc))) := by
  have heq := bfsLoop_eq_db g p (storeCapOf p) h1 hw hbs hedges p.maxDiameter 1
    (initLoopSt g startEnc) (initLoopSt_rows1 g startEnc hs)
  refine ⟨heq, by rw [heq], by rw [heq], by rw [heq], ?_⟩
  intro henc
  have hdb : doBatchingOf g p = true := by
    rw [doBatchingOf, henc, hedges]
    rfl
  show bfsFinish g p (bfsRun g p startEnc) = _
  unfold bfsRun
  rw [hdb, heq]

/-- One-word fixture: two generators adding 1 and 2 modulo 4 to a single
word, batch size 1 (so the second iteration's layer of size 2 takes the
chunked path). -/
def owG : CayleyGraph :=
  { n_generators := 2
    applyGen := fun i r => [(r.headD 0 + (Int.ofNat i + 1)) % 4]
    hash := fun r => r.headD 0
    hashIsIdentity := false
    encodedLengthIsOne := true
    inverseClosed := false
    batchSize := 1
    decodeRow := id }

def owP : BfsParams :=
  { maxLayerSizeToStore := some 1000
    maxLayerSizeToExplore := 10 ^ 9
    maxDiameter := 10
    returnAllEdges := false
    returnAllHashes := true }

theorem claim_C5_witness :
    bfsLoop owG owP true (storeCapOf owP) owP.maxDiameter 1 (initLoopSt owG [[0]])
      = bfsLoop owG owP false (storeCapOf owP) owP.maxDiameter 1 (initLoopSt owG [[0]]) :=
  (claim_C5_batched_equiv owG owP [[0]] (fun _ => rfl) (fun _ _ => rfl)
    (by intro r hr; rw [List.mem_singleton.mp hr]; rfl)
    (by decide) rfl).1

/-! ### C2: layer hash disjointness (lines 226-230, 259-282) -/

/-- No hash value occurs in two distinct stored layers. -/
def PairwiseDisjoint (hs : List (List Int)) : Prop :=
  ∀ b, b < hs.length → ∀ a, a < b → ∀ v ∈ hs.getD a [], v ∉ hs.getD b []

instance pairwiseDisjointDec (hs : List (List Int)) : Decidable (PairwiseDisjoint hs) :=
  inferInstanceAs (Decidable (∀ b, b < hs.length → ∀ a, a < b →
    ∀ v ∈ hs.getD a [], v ∉ hs.getD b []))

theorem getD_mem_self (l : List α) (k : Nat) (d : α) (hk : k < l.length) :
    l.getD k d ∈ l := by
  rw [List.getD_eq_getElem l d hk]
  exact List.getElem_mem hk

theorem getD_length_sub_one :
    ∀ (l : List α) (d : α), l ≠ [] → l.getD (l.length - 1) d = l.getLastD d := by
  intro l
  induction l with
  | nil => intro d h; exact absurd rfl h
  | cons a t ih =>
    intro d _
    cases t with
    | nil => rfl
    | cons b u =>
      show (b :: u).getD u.length d = (a :: b :: u).getLastD d
      rw [List.getLastD_cons d a (b :: u)]
      have h3 : u.length = (b :: u).length - 1 := by simp
      rw [h3, ih d (by simp)]
      exact getLastD_default_irrel (b :: u) (by simp) d a

theorem iterNext_traceHashes (g : CayleyGraph) (p : BfsParams) (db : Bool)
    (cap i : Nat) (st : LoopSt) :
    (iterNext g p db cap i st).traceHashes
      = st.traceHashes ++ [(iterStep g db st).2] := rfl

theorem iterNext_traceLayers2 (g : CayleyGraph) (p : BfsParams) (db : Bool)
    (cap i : Nat) (st : LoopSt) :
    (iterNext g p db cap i st).traceLayers
      = st.traceLayers ++ [(iterStep g db st).1] := rfl

/-- With the full seen-set history, every layer after the first avoids all
layers stored before it. -/
def FreshAll (st : LoopSt) : Prop :=
  ∀ k, k + 1 < st.traceHashes.length → ∀ v ∈ st.traceHashes.getD (k + 1) [],
    ∀ j, j ≤ k → v ∉ st.traceHashes.getD j []

theorem iterNext_freshAll (g : CayleyGraph) (p : BfsParams) (db : Bool) (cap i : Nat)
    (st : LoopSt) (hflag : g.inverseClosed = false) (hinv : LoopInv g p st)
    (h : FreshAll st) : FreshAll (iterNext g p db cap i st) := by
  have hseen : st.seen = st.traceHashes := by
    rw [hinv.seen_eq]
    unfold seenSpec
    rw [hflag, cond_false]
  unfold FreshAll
  rw [iterNext_traceHashes, List.length_append]
  intro k hk v hv j hj
  by_cases hklt : k + 1 < st.traceHashes.length
  · rw [List.getD_append _ _ [] (k + 1) hklt] at hv
    have hjle : j < st.traceHashes.length := by omega
    rw [List.getD_append _ _ [] j hjle]
    exact h k hklt v hv j hj
  · have hke : k + 1 = st.traceHashes.length := by
      simp only [List.length_cons, List.length_nil] at hk
      omega
    rw [hke, getD_append_last st.traceHashes _ []] at hv
    have hjlt : j < st.traceHashes.length := by omega
    rw [List.getD_append _ _ [] j hjlt]
    exact iterStep_not_seen g db st v hv (st.traceHashes.getD j [])
      (by rw [hseen]; exact getD_mem_self _ _ _ hjlt)

theorem initLoopSt_freshAll (g : CayleyGraph) (startEnc : List Row) :
    FreshAll (initLoopSt g startEnc) := by
  intro k hk
  exfalso
  have h1 : k + 1 < 1 := by simpa [initLoopSt] using hk
  omega

theorem bfsLoop_freshAll (g : CayleyGraph) (p : BfsParams) (db : Bool) (cap : Nat)
    (hflag : g.inverseClosed = false) (hdbe : p.returnAllEdges = true → db = false) :
    ∀ fuel i st, LoopInv g p st → FreshAll st →
      FreshAll (bfsLoop g p db cap fuel i st).1 := by
  intro fuel
  induction fuel with
  | zero =>
    intro i st _ h
    rw [bfsLoop_zero]
    exact h
  | succ fuel ih =>
    intro i st hinv h
    by_cases hL : (iterStep g db st).1.length = 0
    · rw [bfsLoop_succ_empty g p db cap fuel i st hL]
      exact h
    · by_cases hcap : (iterStep g db st).1.length ≥ p.maxLayerSizeToExplore
      · rw [bfsLoop_succ_cap g p db cap fuel i st hL hcap]
        exact iterNext_freshAll g p db cap i st hflag hinv h
      · rw [bfsLoop_succ_cont g p db cap fuel i st hL hcap]
        exact ih (i + 1) _ (iterNext_inv g p db cap i st hdbe hinv)
          (iterNext_freshAll g p db cap i st hflag hinv h)

theorem freshAll_disjoint (st : LoopSt) (h : FreshAll st) :
    PairwiseDisjoint st.traceHashes := by
  intro b hb a ha v hva hvb
  have hb1 : b - 1 + 1 = b := by omega
  have hk : (b - 1) + 1 < st.traceHashes.length := by omega
  exact h (b - 1) hk v (by rw [hb1]; exact hvb) a (by omega) hva

theorem bfsRun_freshDisjoint (g : CayleyGraph) (p : BfsParams) (startEnc : List Row)
    (hflag : g.inverseClosed = false) :
    PairwiseDisjoint (bfsRun g p startEnc).1.traceHashes := by
  apply freshAll_disjoint
  exact bfsLoop_freshAll g p (doBatchingOf g p) (storeCapOf p) hflag
    (doBatchingOf_edges g p) p.maxDiameter 1 _ (initLoopSt_inv g p startEnc)
    (initLoopSt_freshAll g startEnc)

/-- Rotation fixture on 6 elements (generators add 1 and 5 modulo 6,
mutually inverse, flag set accordingly) with a colliding hash: state `[3]`
hashes to `0`, the hash of state `[0]`.  Running from `[[0]]`, layer 3 is
`[[3]]` with hash tensor `[0]`, repeating layer 0's hash — the two-layer
seen window has already dropped it. -/
def rotG : CayleyGraph :=
  { n_generators := 2
    applyGen := fun i r => [(r.headD 0 + (if i = 0 then 1 else 5)) % 6]
    hash := fun r => if r.headD 0 = 3 then 0 else r.headD 0
    hashIsIdentity := false
    encodedLengthIsOne := false
    inverseClosed := true
    batchSize := 100
    decodeRow := id }

/-- `rotG` with an injective hash (the word itself). -/
def rotG2 : CayleyGraph :=
  { rotG with hash := fun r => r.headD 0 }

/-- `rotG` with the inverse-closed flag off (full seen-set history). -/
def rotGF : CayleyGraph :=
  { rotG with inverseClosed := false }

def rotP : BfsParams :=
  { maxLayerSizeToStore := some 1000
    maxLayerSizeToExplore := 10 ^ 9
    maxDiameter := 10
    returnAllEdges := false
    returnAllHashes := false }

/-- C2 fails as stated: with the two-layer seen window of an inverse-closed
generator set, a hash collision lets a layer's hash tensor repeat a hash of
a layer the window has already dropped. -/
theorem claim_C2_counterexample :
    rotG.inverseClosed = true
    ∧ ¬ PairwiseDisjoint (bfsRun rotG rotP [[0]]).1.traceHashes := by
  constructor
  · rfl
  · decide

/-- Rows that the run's hash-injectivity assumption must cover: every trace
row and every neighbor of a trace row. -/
def relevantRows (g : CayleyGraph) (T : List (List Row)) : List Row :=
  T.flatten ++ (T.map (fun L => getNeighbors g L)).flatten

/-- The hasher is injective on the run's rows. -/
def RunInjOn (g : CayleyGraph) (T : List (List Row)) : Prop :=
  ∀ r1 ∈ relevantRows g T, ∀ r2 ∈ relevantRows g T,
    g.hash r1 = g.hash r2 → r1 = r2

instance runInjOnDec (g : CayleyGraph) (T : List (List Row)) :
    Decidable (RunInjOn g T) :=
  inferInstanceAs (Decidable (∀ r1 ∈ relevantRows g T, ∀ r2 ∈ relevantRows g T,
    g.hash r1 = g.hash r2 → r1 = r2))

/-- The generator set is inverse-closed on the run's rows. -/
def InvClosedOn (g : CayleyGraph) (T : List (List Row)) : Prop :=
  ∀ i ∈ List.range g.n_generators, ∃ i2 ∈ List.range g.n_generators,
    ∀ r ∈ T.flatten, g.applyGen i2 (g.applyGen i r) = r

instance invClosedOnDec (g : CayleyGraph) (T : List (List Row)) :
    Decidable (InvClosedOn g T) :=
  inferInstanceAs (Decidable (∀ i ∈ List.range g.n_generators,
    ∃ i2 ∈ List.range g.n_generators, ∀ r ∈ T.flatten,
      g.applyGen i2 (g.applyGen i r) = r))

/-- Ghost step relation of a batching-disabled run: each accepted layer and
its hash tensor are the general path's output on the previous layer against
the seen set current at the start of its iteration. -/
def StepRel (g : CayleyGraph) (st : LoopSt) : Prop :=
  ∀ k, k + 1 < st.traceLayers.length →
    (st.traceLayers.getD (k + 1) [], st.traceHashes.getD (k + 1) [])
      = generalStep g (seenSpec g (st.traceHashes.take (k + 1)))
          (st.traceLayers.getD k [])

theorem initLoopSt_stepRel (g : CayleyGraph) (startEnc : List Row) :
    StepRel g (initLoopSt g startEnc) := by
  intro k hk
  exfalso
  have h1 : k + 1 < 1 := by simpa [initLoopSt] using hk
  omega

theorem iterNext_stepRel (g : CayleyGraph) (p : BfsParams) (cap i : Nat) (st : LoopSt)
    (hinv : LoopInv g p st) (h : StepRel g st) :
    StepRel g (iterNext g p false cap i st) := by
  have hlen : st.traceHashes.length = st.traceLayers.length := hinv.trace_len
  have htne : st.traceLayers ≠ [] := hinv.trace_ne
  unfold StepRel
  rw [iterNext_traceLayers2, iterNext_traceHashes, List.length_append]
  intro k hk
  simp only [List.length_cons, List.length_nil] at hk
  by_cases hklt : k + 1 < st.traceLayers.length
  · rw [List.getD_append _ _ [] (k + 1) hklt,
      List.getD_append _ _ [] (k + 1) (by omega),
      List.getD_append _ _ [] k (by omega),
      List.take_append_of_le_length (by omega)]
    exact h k hklt
  · have hke : k + 1 = st.traceLayers.length := by omega
    have hTl : (st.traceLayers ++ [(iterStep g false st).1]).getD (k + 1) []
        = (iterStep g false st).1 := by
      rw [hke]
      exact getD_append_last _ _ []
    have hHl : (st.traceHashes ++ [(iterStep g false st).2]).getD (k + 1) []
        = (iterStep g false st).2 := by
      rw [hke, ← hlen]
      exact getD_append_last _ _ []
    have hTk : (st.traceLayers ++ [(iterStep g false st).1]).getD k [] = st.layer1 := by
      rw [List.getD_append _ _ [] k (by omega)]
      rw [show k = st.traceLayers.length - 1 by omega]
      rw [getD_length_sub_one st.traceLayers [] htne]
      exact hinv.layer_last
    have hHt : (st.traceHashes ++ [(iterStep g false st).2]).take (k + 1)
        = st.traceHashes := by
      rw [hke, ← hlen]
      exact List.take_left _ _
    rw [hTl, hHl, hTk, hHt, ← hinv.seen_eq, iterStep_no_batching]

theorem bfsLoop_stepRel (g : CayleyGraph) (p : BfsParams) (cap : Nat) :
    ∀ fuel i st, LoopInv g p st → StepRel g st →
      StepRel g (bfsLoop g p false cap fuel i st).1 := by
  intro fuel
  induction fuel with
  | zero =>
    intro i st _ h
    rw [bfsLoop_zero]
    exact h
  | succ fuel ih =>
    intro i st hinv h
    by_cases hL : (iterStep g false st).1.length = 0
    · rw [bfsLoop_succ_empty g p false cap fuel i st hL]
      exact h
    · by_cases hcap : (iterStep g false st).1.length ≥ p.maxLayerSizeToExplore
      · rw [bfsLoop_succ_cap g p false cap fuel i st hL hcap]
        exact iterNext_stepRel g p cap i st hinv h
      · rw [bfsLoop_succ_cont g p false cap fuel i st hL hcap]
        exact ih (i + 1) _ (iterNext_inv g p false cap i st (fun _ => rfl) hinv)
          (iterNext_stepRel g p cap i st hinv h)

theorem take_one_getD (l : List α) (d : α) (h : 0 < l.length) :
    l.take 1 = [l.getD 0 d] := by
  cases l with
  | nil => simp at h
  | cons a t => rfl

/-- Core graph argument for the amended C2: a batching-disabled run with the
two-layer window, an injective hash on its rows and inverse-closed
generators has pairwise disjoint layer hash tensors. -/
theorem window_disjoint_core (g : CayleyGraph) (T : List (List Row))
    (H : List (List Int))
    (hlen : H.length = T.length)
    (hHA : H = T.map (makeHashes g.hash))
    (hrel : ∀ k, k + 1 < T.length →
      (T.getD (k + 1) [], H.getD (k + 1) [])
        = generalStep g (seenSpec g (H.take (k + 1))) (T.getD k []))
    (hflag : g.inverseClosed = true)
    (hinj : RunInjOn g T) (hic : InvClosedOn g T) :
    PairwiseDisjoint H := by
  have hHk : ∀ j, j < T.length → H.getD j [] = makeHashes g.hash (T.getD j []) := by
    intro j hj
    rw [hHA]
    exact getD_map_lists _ _ _ hj
  have hwinlist : ∀ k, k + 1 < T.length →
      seenSpec g (H.take (k + 1))
        = if 1 ≤ k then [H.getD (k - 1) [], H.getD k []] else [H.getD 0 []] := by
    intro k hk
    have hkH : k + 1 ≤ H.length := by omega
    unfold seenSpec
    rw [hflag, cond_true]
    have hlent : (H.take (k + 1)).length = k + 1 := by
      rw [List.length_take]
      omega
    rw [hlent]
    by_cases hk1 : 1 ≤ k
    · rw [if_pos hk1]
      have hsub : k + 1 - 2 = k - 1 := by omega
      rw [hsub]
      have h2 : k - 1 + 2 = k + 1 := by omega
      have hdd := take_two_drop H (k - 1) [] (by omega)
      rw [h2] at hdd
      rw [hdd]
      have h1 : k - 1 + 1 = k := by omega
      rw [h1]
    · rw [if_neg hk1]
      have hk0 : k = 0 := by omega
      subst hk0
      show (H.take 1).drop (1 - 2) = [H.getD 0 []]
      rw [show (1 : Nat) - 2 = 0 from rfl, List.drop_zero]
      exact take_one_getD H [] (by omega)
  have hmem : ∀ k, k + 1 < T.length → ∀ v,
      v ∈ H.getD (k + 1) [] ↔
        (v ∈ makeHashes g.hash (getNeighbors g (T.getD k []))
          ∧ ∀ s ∈ seenSpec g (H.take (k + 1)), v ∉ s) := by
    intro k hk v
    have h2 : H.getD (k + 1) []
        = (generalStep g (seenSpec g (H.take (k + 1))) (T.getD k [])).2 :=
      congrArg Prod.snd (hrel k hk)
    rw [h2]
    exact generalStep_mem g _ _ v
  have hfresh : ∀ k, k + 1 < T.length → ∀ v ∈ H.getD (k + 1) [],
      v ∉ H.getD k [] ∧ (1 ≤ k → v ∉ H.getD (k - 1) []) := by
    intro k hk v hv
    have hm := ((hmem k hk v).mp hv).2
    rw [hwinlist k hk] at hm
    by_cases hk1 : 1 ≤ k
    · rw [if_pos hk1] at hm
      exact ⟨hm _ (by simp), fun _ => hm _ (by simp)⟩
    · rw [if_neg hk1] at hm
      have hk0 : k = 0 := by omega
      subst hk0
      exact ⟨hm _ (by simp), fun h1 => absurd h1 (by omega)⟩
  have hcov : ∀ k, k + 1 < T.length →
      ∀ v ∈ makeHashes g.hash (getNeighbors g (T.getD k [])),
        v ∈ H.getD (k + 1) [] ∨ v ∈ H.getD k [] ∨ (1 ≤ k ∧ v ∈ H.getD (k - 1) []) := by
    intro k hk v hv
    by_cases hvw : ∀ s ∈ seenSpec g (H.take (k + 1)), v ∉ s
    · exact Or.inl ((hmem k hk v).mpr ⟨hv, hvw⟩)
    · push_neg at hvw
      rcases hvw with ⟨s, hs, hvs⟩
      rw [hwinlist k hk] at hs
      by_cases hk1 : 1 ≤ k
      · rw [if_pos hk1] at hs
        rcases List.mem_cons.mp hs with heq1 | hs2
        · rw [heq1] at hvs
          exact Or.inr (Or.inr ⟨hk1, hvs⟩)
        · rw [List.mem_singleton.mp hs2] at hvs
          exact Or.inr (Or.inl hvs)
      · rw [if_neg hk1] at hs
        rw [List.mem_singleton.mp hs] at hvs
        have hk0 : k = 0 := by omega
        subst hk0
        exact Or.inr (Or.inl hvs)
  have hback : ∀ j, j < T.length → ∀ k2, k2 < T.length →
      ∀ u ∈ T.getD k2 [], ∀ i, i < g.n_generators →
      ∀ w ∈ T.getD j [], g.hash w = g.hash (g.applyGen i u) →
        g.hash u ∈ makeHashes g.hash (getNeighbors g (T.getD j [])) := by
    intro j hj k2 hk2 u hu i hi w hw hhash
    have huT : u ∈ T.flatten :=
      List.mem_flatten.mpr ⟨T.getD k2 [], getD_mem_self T k2 [] hk2, hu⟩
    have hnu : g.applyGen i u ∈ getNeighbors g (T.getD k2 []) :=
      (getNeighbors_mem g _ _).mpr ⟨i, hi, u, hu, rfl⟩
    have hnuR : g.applyGen i u ∈ relevantRows g T := by
      unfold relevantRows
      refine List.mem_append.mpr (Or.inr ?_)
      exact List.mem_flatten.mpr ⟨getNeighbors g (T.getD k2 []),
        List.mem_map.mpr ⟨T.getD k2 [], getD_mem_self T k2 [] hk2, rfl⟩, hnu⟩
    have hwR : w ∈ relevantRows g T := by
      unfold relevantRows
      exact List.mem_append.mpr (Or.inl
        (List.mem_flatten.mpr ⟨T.getD j [], getD_mem_self T j [] hj, hw⟩))
    have hweq : w = g.applyGen i u := hinj w hwR (g.applyGen i u) hnuR hhash
    rcases hic i (List.mem_range.mpr hi) with ⟨i2, hi2r, hinv2⟩
    have hi2 : i2 < g.n_generators := List.mem_range.mp hi2r
    have hu2 : g.applyGen i2 (g.applyGen i u) = u := hinv2 u huT
    have hmemn : g.applyGen i2 w ∈ getNeighbors g (T.getD j []) :=
      (getNeighbors_mem g _ _).mpr ⟨i2, hi2, w, hw, rfl⟩
    have hwu : g.applyGen i2 w = u := by
      rw [hweq]
      exact hu2
    rw [hwu] at hmemn
    show g.hash u ∈ (getNeighbors g (T.getD j [])).map g.hash
    exact List.mem_map.mpr ⟨u, hmemn, rfl⟩
  have main : ∀ b, b < T.length → ∀ a, a < b → ∀ v ∈ H.getD a [], v ∉ H.getD b [] := by
    intro b
    induction b using Nat.strong_induction_on with
    | _ b ih =>
      intro hbT a hab v hva hvb
      obtain ⟨k, rfl⟩ : ∃ k, b = k + 1 := ⟨b - 1, by omega⟩
      have hfr := hfresh k hbT v hvb
      by_cases hak : a = k
      · exact hfr.1 (hak ▸ hva)
      by_cases hak1 : a = k - 1
      · have hk1 : 1 ≤ k := by omega
        exact hfr.2 hk1 (hak1 ▸ hva)
      have hakk : a + 1 < k := by omega
      have hm := ((hmem k hbT v).mp hvb).1
      simp only [makeHashes] at hm
      rcases List.mem_map.mp hm with ⟨x, hx, rfl⟩
      rcases (getNeighbors_mem g _ x).mp hx with ⟨i, hi, u, hu, rfl⟩
      have haT : a < T.length := by omega
      have hva2 := hva
      rw [hHk a haT] at hva2
      simp only [makeHashes] at hva2
      rcases List.mem_map.mp hva2 with ⟨w, hw, hwh⟩
      have hbl := hback a haT k (by omega) u hu i hi w hw hwh
      have haT1 : a + 1 < T.length := by omega
      have hcv := hcov a haT1 (g.hash u) hbl
      have huH : g.hash u ∈ H.getD k [] := by
        rw [hHk k (by omega)]
        show g.hash u ∈ (T.getD k []).map g.hash
        exact List.mem_map.mpr ⟨u, hu, rfl⟩
      rcases hcv with hc1 | hc2 | ⟨hka1, hc3⟩
      · exact ih k (by omega) (by omega) (a + 1) (by omega) (g.hash u) hc1 huH
      · exact ih k (by omega) (by omega) a (by omega) (g.hash u) hc2 huH
      · exact ih k (by omega) (by omega) (a - 1) (by omega) (g.hash u) hc3 huH
  intro b hb a hab v hva
  exact main b (by omega) a hab v hva

/-- C2 corrected: with the full seen-set history (flag false) the stored
layers' hash tensors are pairwise disjoint unconditionally; with the
two-layer window of an inverse-closed generator set (batching disabled) they
are pairwise disjoint provided the hasher is injective on the run's rows and
the generators are inverse-closed on them — without injectivity the claim
fails, as the counterexample shows. -/
theorem claim_C2_amended (g : CayleyGraph) (p : BfsParams) (startEnc : List Row) :
    (g.inverseClosed = false →
      PairwiseDisjoint (bfsRun g p startEnc).1.traceHashes)
    ∧ (g.inverseClosed = true → doBatchingOf g p = false →
        RunInjOn g (bfsRun g p startEnc).1.traceLayers →
        InvClosedOn g (bfsRun g p startEnc).1.traceLayers →
        PairwiseDisjoint (bfsRun g p startEnc).1.traceHashes) := by
  constructor
  · intro hflag
    exact bfsRun_freshDisjoint g p startEnc hflag
  · intro hflag hdb hinj hic
    have hout := (bfsRun_out g p startEnc).1
    have hrun : bfsRun g p startEnc
        = bfsLoop g p false (storeCapOf p) p.maxDiameter 1 (initLoopSt g startEnc) := by
      unfold bfsRun
      rw [hdb]
    have hha : HashesAre g (bfsRun g p startEnc).1 := by
      rw [hrun]
      exact bfsLoop_hashesAre g p (storeCapOf p) p.maxDiameter 1 _
        (initLoopSt_hashesAre g startEnc)
    have hrel : StepRel g (bfsRun g p startEnc).1 := by
      rw [hrun]
      exact bfsLoop_stepRel g p (storeCapOf p) p.maxDiameter 1 _
        (initLoopSt_inv g p startEnc) (initLoopSt_stepRel g startEnc)
    exact window_disjoint_core g (bfsRun g p startEnc).1.traceLayers
      (bfsRun g p startEnc).1.traceHashes hout.trace_len hha hrel hflag hinj hic

theorem claim_C2_witness :
    PairwiseDisjoint (bfsRun rotGF rotP [[0]]).1.traceHashes
    ∧ PairwiseDisjoint (bfsRun rotG2 rotP [[0]]).1.traceHashes :=
  ⟨(claim_C2_amended rotGF rotP [[0]]).1 rfl,
   (claim_C2_amended rotG2 rotP [[0]]).2 rfl rfl (by decide) (by decide)⟩

end Cayleypy
